import Mathlib

/-!
# Lista duplamente encadeada (`src/encadeada/listadenc.cpp`)

Shallow embedding of the doubly linked positional list.

* A pointer `DNoh*` is an `Option Nat`: `none` is `NULL`, `some a` is the address `a`.
* The node store is a `List (Option DNoh)`: cell `a` holds `some n` while the node at
  address `a` is allocated and `none` once it has been deleted.  `new DNoh` takes the
  first address past the end of the store, so a fresh node never aliases a live one.
* A `ListaDEnc*` handle is an `Option ListaDEnc`: `none` is the `NULL` handle, `some l`
  a handle to a record whose fields are `l`.
* `int` values are `Int`; the counter `tam` is assumed to stay inside the `int` range.
* A failed `assert` is `Erro.abortado`; dereferencing `NULL` or a deleted node is
  `Erro.indefinido`.
-/

namespace Listadenc

/-- Ways in which a call may fail to return. -/
inductive Erro where
  | abortado
  | indefinido
  deriving DecidableEq, Repr

/-- Node pointer: `none` is `NULL`. -/
abbrev Ptr := Option Nat

/-- The record `struct DNoh`. -/
structure DNoh where
  item : Int
  ant : Ptr
  prox : Ptr
  deriving DecidableEq, Repr

/-- The record `struct ListaDEnc`. -/
structure ListaDEnc where
  inicio : Ptr
  fim : Ptr
  tam : Int
  deriving DecidableEq, Repr

/-- Node store. -/
abbrev Mem := List (Option DNoh)

/-- A store together with the fields of the list record. -/
structure Estado where
  mem : Mem
  lista : ListaDEnc
  deriving DecidableEq, Repr

/-- Contents of the cell at address `a`, when that node is allocated. -/
def consultar (m : Mem) (a : Nat) : Option DNoh :=
  match m[a]? with
  | some (some n) => some n
  | _ => none

/-- Dereference of a node pointer (`p->...`). -/
def ler (m : Mem) (p : Ptr) : Except Erro DNoh :=
  match p with
  | none => .error .indefinido
  | some a =>
    match consultar m a with
    | some n => .ok n
    | none => .error .indefinido

/-- Assignment through a node pointer (`p->campo = ...`). -/
def modificar (m : Mem) (p : Ptr) (f : DNoh → DNoh) : Except Erro Mem :=
  match p with
  | none => .error .indefinido
  | some a =>
    match consultar m a with
    | some n => .ok (m.set a (some (f n)))
    | none => .error .indefinido

/-- The statement `delete p`. -/
def apagar (m : Mem) (p : Ptr) : Except Erro Mem :=
  match p with
  | none => .ok m
  | some a =>
    match consultar m a with
    | some _ => .ok (m.set a none)
    | none => .error .indefinido

/-- The function `criar_listad`: the fields of the record it returns. -/
def criar_listad : ListaDEnc :=
  { inicio := none, fim := none, tam := 0 }

/-- The function `estah_vazia`. -/
def estah_vazia (lista : Option ListaDEnc) : Except Erro Bool :=
  match lista with
  | none => .error .abortado
  | some l => .ok (l.inicio == none)

/-- The function `criar_noh`: the new store and the address of the new node. -/
def criar_noh (m : Mem) (item : Int) (ant prox : Ptr) : Mem × Nat :=
  (m ++ [some { item := item, ant := ant, prox := prox }], m.length)

/-- The function `inserir_no_inicio`. -/
def inserir_no_inicio (m : Mem) (lista : Option ListaDEnc) (item : Int) : Except Erro Estado :=
  match lista with
  | none => .error .abortado
  | some l =>
    let (m1, novo_noh) := criar_noh m item none l.inicio
    if l.inicio = none then
      .ok { mem := m1, lista := { inicio := some novo_noh, fim := some novo_noh, tam := l.tam + 1 } }
    else
      match modificar m1 l.inicio (fun n => { n with ant := some novo_noh }) with
      | .error e => .error e
      | .ok m2 => .ok { mem := m2, lista := { l with inicio := some novo_noh, tam := l.tam + 1 } }

/-- The function `inserir_no_fim`. -/
def inserir_no_fim (m : Mem) (lista : Option ListaDEnc) (item : Int) : Except Erro Estado :=
  match lista with
  | none => .error .abortado
  | some l =>
    let (m1, novo_noh) := criar_noh m item l.fim none
    if l.fim = none then
      .ok { mem := m1, lista := { inicio := some novo_noh, fim := some novo_noh, tam := l.tam + 1 } }
    else
      match modificar m1 l.fim (fun n => { n with prox := some novo_noh }) with
      | .error e => .error e
      | .ok m2 => .ok { mem := m2, lista := { l with fim := some novo_noh, tam := l.tam + 1 } }

/-- The loop `for (i = 0; i < pos; i++) aux = aux->prox;` run for `k` iterations. -/
def avancar (m : Mem) : Nat → Ptr → Except Erro Ptr
  | 0, aux => .ok aux
  | k + 1, aux =>
    match ler m aux with
    | .error e => .error e
    | .ok n => avancar m k n.prox

/-- The function `inserir`. -/
def inserir (m : Mem) (lista : Option ListaDEnc) (item : Int) (pos : Int) : Except Erro Estado :=
  match lista with
  | none => .error .abortado
  | some l =>
    if ¬ (pos ≥ 0 ∧ pos ≤ l.tam) then .error .abortado
    else if pos = 0 then inserir_no_inicio m (some l) item
    else if pos = l.tam then inserir_no_fim m (some l) item
    else
      match avancar m pos.toNat l.inicio with
      | .error e => .error e
      | .ok aux =>
        match ler m aux with
        | .error e => .error e
        | .ok n =>
          let (m1, novo_noh) := criar_noh m item n.ant aux
          match ler m1 aux with
          | .error e => .error e
          | .ok n1 =>
            match modificar m1 n1.ant (fun p => { p with prox := some novo_noh }) with
            | .error e => .error e
            | .ok m2 =>
              match modificar m2 aux (fun c => { c with ant := some novo_noh }) with
              | .error e => .error e
              | .ok m3 => .ok { mem := m3, lista := { l with tam := l.tam + 1 } }

/-- The function `remover_inicio`: the final state and the returned item. -/
def remover_inicio (m : Mem) (lista : Option ListaDEnc) : Except Erro (Estado × Int) :=
  match lista with
  | none => .error .abortado
  | some l =>
    if l.inicio = none then .error .abortado
    else
      let aux := l.inicio
      match ler m l.inicio with
      | .error e => .error e
      | .ok n =>
        let l1 : ListaDEnc := { l with inicio := n.prox }
        let passo : Except Erro Estado :=
          if l1.inicio = none then .ok { mem := m, lista := { l1 with fim := none } }
          else
            match modificar m l1.inicio (fun c => { c with ant := none }) with
            | .error e => .error e
            | .ok m1 => .ok { mem := m1, lista := l1 }
        match passo with
        | .error e => .error e
        | .ok s =>
          match ler s.mem aux with
          | .error e => .error e
          | .ok na =>
            match apagar s.mem aux with
            | .error e => .error e
            | .ok m2 => .ok ({ mem := m2, lista := { s.lista with tam := s.lista.tam - 1 } }, na.item)

/-- The function `remover_fim`: the final state and the returned item. -/
def remover_fim (m : Mem) (lista : Option ListaDEnc) : Except Erro (Estado × Int) :=
  match lista with
  | none => .error .abortado
  | some l =>
    if l.inicio = none then .error .abortado
    else
      let aux := l.fim
      match ler m l.fim with
      | .error e => .error e
      | .ok n =>
        let l1 : ListaDEnc := { l with fim := n.ant }
        let passo : Except Erro Estado :=
          if l1.fim = none then .ok { mem := m, lista := { l1 with inicio := none } }
          else
            match modificar m l1.fim (fun c => { c with prox := none }) with
            | .error e => .error e
            | .ok m1 => .ok { mem := m1, lista := l1 }
        match passo with
        | .error e => .error e
        | .ok s =>
          match ler s.mem aux with
          | .error e => .error e
          | .ok na =>
            match apagar s.mem aux with
            | .error e => .error e
            | .ok m2 => .ok ({ mem := m2, lista := { s.lista with tam := s.lista.tam - 1 } }, na.item)

/-- The function `remover`: the final state and the returned item. -/
def remover (m : Mem) (lista : Option ListaDEnc) (pos : Int) : Except Erro (Estado × Int) :=
  match lista with
  | none => .error .abortado
  | some l =>
    if ¬ (pos ≥ 0 ∧ pos < l.tam) then .error .abortado
    else if l.inicio = none then .error .abortado
    else if pos = 0 then remover_inicio m (some l)
    else if pos = l.tam - 1 then remover_fim m (some l)
    else
      match avancar m pos.toNat l.inicio with
      | .error e => .error e
      | .ok aux =>
        match ler m aux with
        | .error e => .error e
        | .ok n =>
          match modificar m n.ant (fun p => { p with prox := n.prox }) with
          | .error e => .error e
          | .ok m1 =>
            match ler m1 aux with
            | .error e => .error e
            | .ok n1 =>
              match modificar m1 n1.prox (fun c => { c with ant := n1.ant }) with
              | .error e => .error e
              | .ok m2 =>
                match ler m2 aux with
                | .error e => .error e
                | .ok n2 =>
                  match apagar m2 aux with
                  | .error e => .error e
                  | .ok m3 => .ok ({ mem := m3, lista := { l with tam := l.tam - 1 } }, n2.item)

/-- The function `obter_inicio`. -/
def obter_inicio (m : Mem) (lista : Option ListaDEnc) : Except Erro Int :=
  match lista with
  | none => .error .abortado
  | some l =>
    if l.inicio = none then .error .abortado
    else
      match ler m l.inicio with
      | .error e => .error e
      | .ok n => .ok n.item

/-- The function `obter_fim`. -/
def obter_fim (m : Mem) (lista : Option ListaDEnc) : Except Erro Int :=
  match lista with
  | none => .error .abortado
  | some l =>
    if l.inicio = none then .error .abortado
    else
      match ler m l.fim with
      | .error e => .error e
      | .ok n => .ok n.item

/-- The function `obter_elemento`. -/
def obter_elemento (m : Mem) (lista : Option ListaDEnc) (pos : Int) : Except Erro Int :=
  match lista with
  | none => .error .abortado
  | some l =>
    if ¬ (pos ≥ 0 ∧ pos < l.tam) then .error .abortado
    else if l.inicio = none then .error .abortado
    else if pos = 0 then obter_inicio m (some l)
    else if pos = l.tam - 1 then obter_fim m (some l)
    else
      match avancar m pos.toNat l.inicio with
      | .error e => .error e
      | .ok aux =>
        match ler m aux with
        | .error e => .error e
        | .ok n => .ok n.item

/-- The function `obter_tamanho`. -/
def obter_tamanho (lista : Option ListaDEnc) : Except Erro Int :=
  match lista with
  | none => .error .abortado
  | some l => .ok l.tam

/-- Walk from `p` along the link `dir` (`prox` or `ant`) until `NULL`, collecting the
address and item of every node visited; `none` when a link leaves the allocated
nodes or more than `fuel` nodes are met. -/
def percorrer (m : Mem) (dir : DNoh → Ptr) : Nat → Ptr → Option (List (Nat × Int))
  | _, none => some []
  | 0, some _ => none
  | k + 1, some a =>
    match consultar m a with
    | none => none
    | some n =>
      match percorrer m dir k (dir n) with
      | none => none
      | some r => some ((a, n.item) :: r)

/-- Nodes met walking `prox` from `inicio`. -/
def nos_frente (m : Mem) (l : ListaDEnc) : Option (List (Nat × Int)) :=
  percorrer m DNoh.prox m.length l.inicio

/-- Nodes met walking `ant` from `fim`. -/
def nos_tras (m : Mem) (l : ListaDEnc) : Option (List (Nat × Int)) :=
  percorrer m DNoh.ant m.length l.fim

/-- Element sequence of the list, read from `inicio` via `prox`. -/
def elementos (m : Mem) (l : ListaDEnc) : Option (List Int) :=
  (nos_frente m l).map (fun cs => cs.map Prod.snd)

/-- Doubly linked segment: `cs` lists, in order, the address and item of the nodes of
a chain that starts at `first`, whose first node has `ant = prev`, whose last node is
`last`, and whose last node has `prox = next`. -/
def Seg (m : Mem) : Ptr → Ptr → List (Nat × Int) → Ptr → Ptr → Prop
  | first, prev, [], last, next => first = next ∧ last = prev
  | first, prev, c :: cs, last, next =>
    first = some c.1 ∧
      ∃ q, consultar m c.1 = some { item := c.2, ant := prev, prox := q } ∧
        Seg m q (some c.1) cs last next

/-- The record `l` and the store `m` represent the node sequence `cs`: invariants 1-4
of the data model. -/
def Representa (m : Mem) (l : ListaDEnc) (cs : List (Nat × Int)) : Prop :=
  Seg m l.inicio none cs l.fim none ∧ l.tam = cs.length

/-- Well-formed list. -/
def BemFormada (m : Mem) (l : ListaDEnc) : Prop :=
  ∃ cs, Representa m l cs

/-- One call of the public interface that changes the list. -/
inductive Op where
  | inserir (item pos : Int)
  | inserir_no_inicio (item : Int)
  | inserir_no_fim (item : Int)
  | remover (pos : Int)
  | remover_inicio
  | remover_fim
  deriving DecidableEq, Repr

/-- Whether the call is one of the three insertions. -/
def Op.insere : Op → Bool
  | .inserir _ _ => true
  | .inserir_no_inicio _ => true
  | .inserir_no_fim _ => true
  | _ => false

/-- Run one call on a state, discarding the value a removal returns. -/
def Op.aplicar (s : Estado) : Op → Except Erro Estado
  | .inserir item pos => Listadenc.inserir s.mem (some s.lista) item pos
  | .inserir_no_inicio item => Listadenc.inserir_no_inicio s.mem (some s.lista) item
  | .inserir_no_fim item => Listadenc.inserir_no_fim s.mem (some s.lista) item
  | .remover pos =>
    match Listadenc.remover s.mem (some s.lista) pos with
    | .error e => .error e
    | .ok r => .ok r.1
  | .remover_inicio =>
    match Listadenc.remover_inicio s.mem (some s.lista) with
    | .error e => .error e
    | .ok r => .ok r.1
  | .remover_fim =>
    match Listadenc.remover_fim s.mem (some s.lista) with
    | .error e => .error e
    | .ok r => .ok r.1

/-- Run a sequence of calls, stopping at the first one that does not return. -/
def executar (s : Estado) : List Op → Except Erro Estado
  | [] => .ok s
  | op :: ops =>
    match op.aplicar s with
    | .error e => .error e
    | .ok s1 => executar s1 ops

/-- Documented precondition of a call on a list that holds `n` elements. -/
def Op.pre (n : Int) : Op → Prop
  | .inserir _ pos => 0 ≤ pos ∧ pos ≤ n
  | .inserir_no_inicio _ => True
  | .inserir_no_fim _ => True
  | .remover pos => 0 < n ∧ 0 ≤ pos ∧ pos < n
  | .remover_inicio => 0 < n
  | .remover_fim => 0 < n

/-- Number of elements after a call on a list that held `n`. -/
def Op.depois (n : Int) (op : Op) : Int :=
  if op.insere then n + 1 else n - 1

/-- A sequence of calls each of which respects its precondition, started on a list
that holds `n` elements. -/
def validas (n : Int) : List Op → Prop
  | [] => True
  | op :: ops => op.pre n ∧ validas (op.depois n) ops

/-- The state right after `criar_listad`, in a store `m0`. -/
def inicial (m0 : Mem) : Estado :=
  { mem := m0, lista := criar_listad }

/-- Client loop `for j: inserir(lista, x_j, j)` starting at position `j`. -/
def inserir_em_ordem (s : Estado) : List Int → Int → Except Erro Estado
  | [], _ => .ok s
  | x :: xs, j =>
    match inserir s.mem (some s.lista) x j with
    | .error e => .error e
    | .ok s1 => inserir_em_ordem s1 xs (j + 1)

/-- Client loop that inserts every item of a sequence with the same one-argument
insertion (`inserir_no_inicio` or `inserir_no_fim`). -/
def inserir_todos (ins : Mem → Option ListaDEnc → Int → Except Erro Estado) (s : Estado) :
    List Int → Except Erro Estado
  | [] => .ok s
  | x :: xs =>
    match ins s.mem (some s.lista) x with
    | .error e => .error e
    | .ok s1 => inserir_todos ins s1 xs

/-- Client loop that calls the same end removal (`remover_inicio` or `remover_fim`)
`n` times and collects the returned items in call order. -/
def remover_n (rem : Mem → Option ListaDEnc → Except Erro (Estado × Int)) (s : Estado) :
    Nat → Except Erro (Estado × List Int)
  | 0 => .ok (s, [])
  | n + 1 =>
    match rem s.mem (some s.lista) with
    | .error e => .error e
    | .ok (s1, x) =>
      match remover_n rem s1 n with
      | .error e => .error e
      | .ok (s2, xs) => .ok (s2, x :: xs)

/-- How a call of `inserir` stops, with the store and the handle as they are at that
moment when the stop is a failed `assert`. -/
inductive Parada where
  | retorna (s : Estado)
  | aborta (m : Mem) (lista : Option ListaDEnc)
  | indefinida
  deriving DecidableEq, Repr

/-- The function `inserir` once more, keeping the store and handle at a failed `assert`.
The asserts of lines 96-97 are the first statements of the function, and the only other
`assert` a call can meet is the first statement of `inserir_no_inicio` (line 65) or
`inserir_no_fim` (line 80): each is met before any node is created or any field is
assigned, so the store and handle are still the ones received. -/
def inserir_parada (m : Mem) (lista : Option ListaDEnc) (item : Int) (pos : Int) : Parada :=
  match lista with
  | none => .aborta m none
  | some l =>
    if ¬ (pos ≥ 0 ∧ pos ≤ l.tam) then .aborta m (some l)
    else
      match inserir m (some l) item pos with
      | .ok s => .retorna s
      | .error .abortado => .aborta m (some l)
      | .error .indefinido => .indefinida

/-- One call of the public interface that only reads the list. -/
inductive Consulta where
  | estah_vazia
  | obter_tamanho
  | obter_inicio
  | obter_fim
  | obter_elemento (pos : Int)
  deriving DecidableEq, Repr

/-- Value returned by a read-only call. -/
inductive Valor where
  | logico (b : Bool)
  | inteiro (x : Int)
  deriving DecidableEq, Repr

/-- Run one read-only call in state-passing form: the state it leaves and the value it
returns.  None of the five functions assigns to a field of the record or of a node (the
one assignment in them, `aux = aux->prox` in `obter_elemento`, is to a local variable),
so the state handed on is the state received. -/
def Consulta.aplicar (s : Estado) : Consulta → Except Erro (Estado × Valor)
  | .estah_vazia =>
    match Listadenc.estah_vazia (some s.lista) with
    | .error e => .error e
    | .ok b => .ok (s, .logico b)
  | .obter_tamanho =>
    match Listadenc.obter_tamanho (some s.lista) with
    | .error e => .error e
    | .ok x => .ok (s, .inteiro x)
  | .obter_inicio =>
    match Listadenc.obter_inicio s.mem (some s.lista) with
    | .error e => .error e
    | .ok x => .ok (s, .inteiro x)
  | .obter_fim =>
    match Listadenc.obter_fim s.mem (some s.lista) with
    | .error e => .error e
    | .ok x => .ok (s, .inteiro x)
  | .obter_elemento pos =>
    match Listadenc.obter_elemento s.mem (some s.lista) pos with
    | .error e => .error e
    | .ok x => .ok (s, .inteiro x)

/-- The loop `while (lista->inicio != NULL) remover(lista, 0);` of `liberar_lista`, run
for at most `fuel` iterations (`none` when that is not enough): the state at the end of
the loop and the addresses `lista->inicio` held at the start of each iteration, in
order. -/
def liberar_laco : Nat → Estado → Option (Except Erro (Estado × List Nat))
  | 0, s =>
    match s.lista.inicio with
    | none => some (.ok (s, []))
    | some _ => none
  | fuel + 1, s =>
    match s.lista.inicio with
    | none => some (.ok (s, []))
    | some a =>
      match remover s.mem (some s.lista) 0 with
      | .error e => some (.error e)
      | .ok (s1, _) =>
        match liberar_laco fuel s1 with
        | none => none
        | some (.error e) => some (.error e)
        | some (.ok (s2, tr)) => some (.ok (s2, a :: tr))

/-- The function `liberar_lista`, with at most `fuel` iterations of its loop: the store
left once the record itself has been deleted. -/
def liberar_lista (m : Mem) (lista : Option ListaDEnc) (fuel : Nat) :
    Option (Except Erro Mem) :=
  match lista with
  | none => some (.error .abortado)
  | some l =>
    match liberar_laco fuel { mem := m, lista := l } with
    | none => none
    | some (.error e) => some (.error e)
    | some (.ok (s, _)) => some (.ok s.mem)

/-- Client loop `while (!estah_vazia(li)) { cout << obter_fim(li); remover_inicio(li); }`
of the documented example of `obter_fim`, run for at most `fuel` iterations (`none`
when that is not enough): the state left and the values printed, in order. -/
def imprimir_fins : Nat → Estado → Option (Except Erro (Estado × List Int))
  | 0, s => if s.lista.inicio = none then some (.ok (s, [])) else none
  | fuel + 1, s =>
    if s.lista.inicio = none then some (.ok (s, []))
    else
      match obter_fim s.mem (some s.lista) with
      | .error e => some (.error e)
      | .ok x =>
        match remover_inicio s.mem (some s.lista) with
        | .error e => some (.error e)
        | .ok (s1, _) =>
          match imprimir_fins fuel s1 with
          | none => none
          | some (.error e) => some (.error e)
          | some (.ok (s2, xs)) => some (.ok (s2, x :: xs))

end Listadenc

/-!
# Fila em vetor circular (`src/array/filavet.cpp`, `src/filavet.cpp`)

* The array `int itens[TAM_MAX]` is a `List Int`; an access outside `0 .. TAM_MAX - 1`
  (or outside the list) is `Erro.indefinido`.  `new FilaVet` leaves the array
  indeterminate, so `criar_fila` takes its initial contents as an argument.
* `%` on `int` truncates towards zero: `Int.tmod`.  The indices stay far below the
  `int` range, so `+ 1` does not overflow.
* `src/filavet.cpp` computes the next index with `incrementar`;
  `src/array/filavet.cpp` writes the same expression `(i + 1) % TAM_MAX` in place.
-/

namespace Filavet

/-- Ways in which a call may fail to return. -/
inductive Erro where
  | abortado
  | indefinido
  deriving DecidableEq, Repr

/-- The constant `#define TAM_MAX 100` of `filavet.hpp`. -/
def TAM_MAX : Int := 100

/-- The record `struct FilaVet`. -/
structure FilaVet where
  itens : List Int
  inicio : Int
  fim : Int
  deriving DecidableEq, Repr

/-- The function `incrementar` of `src/filavet.cpp`. -/
def incrementar (i : Int) : Int :=
  Int.tmod (i + 1) TAM_MAX

/-- The function `criar_fila`; `itens0` is what the array happens to hold. -/
def criar_fila (itens0 : List Int) : FilaVet :=
  { itens := itens0, inicio := 0, fim := 0 }

/-- Array read `itens[i]`. -/
def ler_item (itens : List Int) (i : Int) : Except Erro Int :=
  if 0 ≤ i ∧ i < TAM_MAX then
    match itens[i.toNat]? with
    | some x => .ok x
    | none => .error .indefinido
  else .error .indefinido

/-- Array write `itens[i] = x`. -/
def escrever_item (itens : List Int) (i : Int) (x : Int) : Except Erro (List Int) :=
  if 0 ≤ i ∧ i < TAM_MAX ∧ i.toNat < itens.length then .ok (itens.set i.toNat x)
  else .error .indefinido

/-- The function `estah_cheia`. -/
def estah_cheia (fila : Option FilaVet) : Except Erro Bool :=
  match fila with
  | none => .error .abortado
  | some f => .ok (incrementar f.fim == f.inicio)

/-- The function `estah_vazia`. -/
def estah_vazia (fila : Option FilaVet) : Except Erro Bool :=
  match fila with
  | none => .error .abortado
  | some f => .ok (f.inicio == f.fim)

/-- The function `inserir`. -/
def inserir (fila : Option FilaVet) (item : Int) : Except Erro FilaVet :=
  match fila with
  | none => .error .abortado
  | some f =>
    if incrementar f.fim = f.inicio then .error .abortado
    else
      match escrever_item f.itens f.fim item with
      | .error e => .error e
      | .ok itens1 => .ok { f with itens := itens1, fim := incrementar f.fim }

/-- The function `remover`: the queue it leaves and the item it returns. -/
def remover (fila : Option FilaVet) : Except Erro (FilaVet × Int) :=
  match fila with
  | none => .error .abortado
  | some f =>
    if f.inicio = f.fim then .error .abortado
    else
      match ler_item f.itens f.inicio with
      | .error e => .error e
      | .ok item => .ok ({ f with inicio := incrementar f.inicio }, item)

/-- The function `obter_inicio`. -/
def obter_inicio (fila : Option FilaVet) : Except Erro Int :=
  match fila with
  | none => .error .abortado
  | some f =>
    if f.inicio = f.fim then .error .abortado
    else ler_item f.itens f.inicio

/-- One call that changes the queue. -/
inductive Op where
  | inserir (item : Int)
  | remover
  deriving DecidableEq, Repr

/-- Run a sequence of calls, stopping at the first that does not return; the items
returned by the `remover` calls are collected in call order. -/
def executar (f : FilaVet) : List Op → Except Erro (FilaVet × List Int)
  | [] => .ok (f, [])
  | .inserir x :: ops =>
    match inserir (some f) x with
    | .error e => .error e
    | .ok f1 => executar f1 ops
  | .remover :: ops =>
    match remover (some f) with
    | .error e => .error e
    | .ok (f1, x) =>
      match executar f1 ops with
      | .error e => .error e
      | .ok (f2, xs) => .ok (f2, x :: xs)

/-- Client loop `inserir(f, x)` for every item of a sequence, in order. -/
def inserir_todos (f : FilaVet) : List Int → Except Erro FilaVet
  | [] => .ok f
  | x :: xs =>
    match inserir (some f) x with
    | .error e => .error e
    | .ok f1 => inserir_todos f1 xs

/-- Client loop `while (!estah_vazia(f)) remover(f)`, run for at most `fuel`
iterations (`none` when that is not enough): the queue left and the items returned. -/
def esvaziar : Nat → FilaVet → Option (Except Erro (FilaVet × List Int))
  | 0, f => if f.inicio = f.fim then some (.ok (f, [])) else none
  | fuel + 1, f =>
    if f.inicio = f.fim then some (.ok (f, []))
    else
      match remover (some f) with
      | .error e => some (.error e)
      | .ok (f1, x) =>
        match esvaziar fuel f1 with
        | none => none
        | some (.error e) => some (.error e)
        | some (.ok (f2, xs)) => some (.ok (f2, x :: xs))

/-- First-in first-out queue of the specification, as a list with the oldest item
first: `inserir` appends when fewer than `TAM_MAX - 1` items are held, `remover` takes
the oldest item; `none` when a call is not allowed.  The result is the final queue and
the items removed, in call order. -/
def fila_abstrata (q : List Int) : List Op → Option (List Int × List Int)
  | [] => some (q, [])
  | .inserir x :: ops =>
    if (q.length : Int) < TAM_MAX - 1 then fila_abstrata (q ++ [x]) ops else none
  | .remover :: ops =>
    match q with
    | [] => none
    | y :: q1 =>
      match fila_abstrata q1 ops with
      | none => none
      | some (q2, out) => some (q2, y :: out)

/-- The items of the array at `inicio`, `inicio + 1`, ... taken circularly are `q`. -/
def Conteudo (itens : List Int) : Int → List Int → Prop
  | _, [] => True
  | i, x :: q => itens[i.toNat]? = some x ∧ Conteudo itens (incrementar i) q

/-- The queue record holds the items `q`, oldest first. -/
def Representa (f : FilaVet) (q : List Int) : Prop :=
  (f.itens.length : Int) = TAM_MAX ∧ 0 ≤ f.inicio ∧ f.inicio < TAM_MAX ∧
    0 ≤ f.fim ∧ f.fim < TAM_MAX ∧
    (q.length : Int) = (f.fim - f.inicio) % TAM_MAX ∧ Conteudo f.itens f.inicio q

end Filavet

/-!
# Fila encadeada (`src/encadeada/filaenc.cpp`)

Pointers, store and handles are modelled as for the doubly linked list: a `Noh*` is an
`Option Nat`, the store a `List (Option Noh)` in which `new Noh` takes the first address
past the end, a `FilaEnc*` handle an `Option FilaEnc`.
-/

namespace Filaenc

/-- Ways in which a call may fail to return. -/
inductive Erro where
  | abortado
  | indefinido
  deriving DecidableEq, Repr

/-- Node pointer: `none` is `NULL`. -/
abbrev Ptr := Option Nat

/-- The record `struct Noh`. -/
structure Noh where
  item : Int
  prox : Ptr
  deriving DecidableEq, Repr

/-- The record `struct FilaEnc`. -/
structure FilaEnc where
  inicio : Ptr
  fim : Ptr
  deriving DecidableEq, Repr

/-- Node store. -/
abbrev Mem := List (Option Noh)

/-- A store together with the fields of the queue record. -/
structure Estado where
  mem : Mem
  fila : FilaEnc
  deriving DecidableEq, Repr

/-- Contents of the cell at address `a`, when that node is allocated. -/
def consultar (m : Mem) (a : Nat) : Option Noh :=
  match m[a]? with
  | some (some n) => some n
  | _ => none

/-- Dereference of a node pointer (`p->...`). -/
def ler (m : Mem) (p : Ptr) : Except Erro Noh :=
  match p with
  | none => .error .indefinido
  | some a =>
    match consultar m a with
    | some n => .ok n
    | none => .error .indefinido

/-- Assignment through a node pointer (`p->campo = ...`). -/
def modificar (m : Mem) (p : Ptr) (f : Noh → Noh) : Except Erro Mem :=
  match p with
  | none => .error .indefinido
  | some a =>
    match consultar m a with
    | some n => .ok (m.set a (some (f n)))
    | none => .error .indefinido

/-- The statement `delete p`. -/
def apagar (m : Mem) (p : Ptr) : Except Erro Mem :=
  match p with
  | none => .ok m
  | some a =>
    match consultar m a with
    | some _ => .ok (m.set a none)
    | none => .error .indefinido

/-- The function `criar_fila`: the fields of the record it returns. -/
def criar_fila : FilaEnc :=
  { inicio := none, fim := none }

/-- The function `estah_vazia`. -/
def estah_vazia (fila : Option FilaEnc) : Except Erro Bool :=
  match fila with
  | none => .error .abortado
  | some f => .ok (f.inicio == none)

/-- The function `inserir`. -/
def inserir (m : Mem) (fila : Option FilaEnc) (item : Int) : Except Erro Estado :=
  match fila with
  | none => .error .abortado
  | some f =>
    let novo_noh := m.length
    let m1 := m ++ [some { item := item, prox := none }]
    if f.fim = none then
      .ok { mem := m1, fila := { inicio := some novo_noh, fim := some novo_noh } }
    else
      match modificar m1 f.fim (fun n => { n with prox := some novo_noh }) with
      | .error e => .error e
      | .ok m2 => .ok { mem := m2, fila := { f with fim := some novo_noh } }

/-- The function `remover`: the final state and the returned item. -/
def remover (m : Mem) (fila : Option FilaEnc) : Except Erro (Estado × Int) :=
  match fila with
  | none => .error .abortado
  | some f =>
    if f.inicio = none then .error .abortado
    else
      let aux := f.inicio
      match ler m aux with
      | .error e => .error e
      | .ok n =>
        let f1 : FilaEnc := { f with inicio := n.prox }
        let f2 : FilaEnc := if f1.inicio = none then { f1 with fim := none } else f1
        match apagar m aux with
        | .error e => .error e
        | .ok m1 => .ok ({ mem := m1, fila := f2 }, n.item)

/-- The function `obter_inicio`. -/
def obter_inicio (m : Mem) (fila : Option FilaEnc) : Except Erro Int :=
  match fila with
  | none => .error .abortado
  | some f =>
    if f.inicio = none then .error .abortado
    else
      match ler m f.inicio with
      | .error e => .error e
      | .ok n => .ok n.item

/-- One call that changes the queue. -/
inductive Op where
  | inserir (item : Int)
  | remover
  deriving DecidableEq, Repr

/-- Run a sequence of calls, stopping at the first that does not return. -/
def executar (s : Estado) : List Op → Except Erro Estado
  | [] => .ok s
  | .inserir x :: ops =>
    match inserir s.mem (some s.fila) x with
    | .error e => .error e
    | .ok s1 => executar s1 ops
  | .remover :: ops =>
    match remover s.mem (some s.fila) with
    | .error e => .error e
    | .ok (s1, _) => executar s1 ops

/-- Client loop `inserir(f, x)` for every item of a sequence, in order. -/
def inserir_todos (s : Estado) : List Int → Except Erro Estado
  | [] => .ok s
  | x :: xs =>
    match inserir s.mem (some s.fila) x with
    | .error e => .error e
    | .ok s1 => inserir_todos s1 xs

/-- Client loop `while (!estah_vazia(f)) remover(f)`, run for at most `fuel`
iterations (`none` when that is not enough): the state left and the items returned. -/
def esvaziar : Nat → Estado → Option (Except Erro (Estado × List Int))
  | 0, s => if s.fila.inicio = none then some (.ok (s, [])) else none
  | fuel + 1, s =>
    if s.fila.inicio = none then some (.ok (s, []))
    else
      match remover s.mem (some s.fila) with
      | .error e => some (.error e)
      | .ok (s1, x) =>
        match esvaziar fuel s1 with
        | none => none
        | some (.error e) => some (.error e)
        | some (.ok (s2, xs)) => some (.ok (s2, x :: xs))

/-- The call `obter_inicio` in state-passing form: the function assigns to no field of
the record or of a node, so the state handed on is the state received. -/
def obter_inicio_estado (s : Estado) : Except Erro (Estado × Int) :=
  match obter_inicio s.mem (some s.fila) with
  | .error e => .error e
  | .ok x => .ok (s, x)

/-- The state right after `criar_fila`, in a store `m0`. -/
def inicial (m0 : Mem) : Estado :=
  { mem := m0, fila := criar_fila }

/-- Chain segment: `cs` lists, in order, the address and item of the nodes met from
`first` along `prox` until the pointer `next` is reached. -/
def Trecho (m : Mem) : Ptr → List (Nat × Int) → Ptr → Prop
  | first, [], next => first = next
  | first, c :: cs, next =>
    first = some c.1 ∧
      ∃ q, consultar m c.1 = some { item := c.2, prox := q } ∧ Trecho m q cs next

/-- The record `f` and the store `m` represent the queue `cs`, oldest node first:
the chain from `inicio` ends on `NULL` and `fim` is its last node. -/
def Representa (m : Mem) (f : FilaEnc) (cs : List (Nat × Int)) : Prop :=
  Trecho m f.inicio cs none ∧ f.fim = cs.getLast?.map Prod.fst

end Filaenc

/-!
# Pilha em vetor (`src/pilhavet.cpp`, constant from `src/array/pilhavet.hpp`)

The array `int itens[TAM_MAX]` is a `List Int`; an access outside `0 .. TAM_MAX - 1`
(or outside the list) is `Erro.indefinido`.  `new PilhaVet` leaves the array
indeterminate, so `criar_pilha` takes its initial contents as an argument.  `topo`
stays far below the `int` range, so `topo++` does not overflow.
-/

namespace Pilhavet

/-- Ways in which a call may fail to return. -/
inductive Erro where
  | abortado
  | indefinido
  deriving DecidableEq, Repr

/-- The constant `#define TAM_MAX 1000000` of `pilhavet.hpp`. -/
def TAM_MAX : Int := 1000000

/-- The record `struct PilhaVet`. -/
structure PilhaVet where
  itens : List Int
  topo : Int
  deriving DecidableEq, Repr

/-- The function `criar_pilha`; `itens0` is what the array happens to hold. -/
def criar_pilha (itens0 : List Int) : PilhaVet :=
  { itens := itens0, topo := 0 }

/-- Array read `itens[i]`. -/
def ler_item (itens : List Int) (i : Int) : Except Erro Int :=
  if 0 ≤ i ∧ i < TAM_MAX then
    match itens[i.toNat]? with
    | some x => .ok x
    | none => .error .indefinido
  else .error .indefinido

/-- Array write `itens[i] = x`. -/
def escrever_item (itens : List Int) (i : Int) (x : Int) : Except Erro (List Int) :=
  if 0 ≤ i ∧ i < TAM_MAX ∧ i.toNat < itens.length then .ok (itens.set i.toNat x)
  else .error .indefinido

/-- The function `estah_cheia`. -/
def estah_cheia (pilha : Option PilhaVet) : Except Erro Bool :=
  match pilha with
  | none => .error .abortado
  | some p => .ok (p.topo == TAM_MAX)

/-- The function `estah_vazia`. -/
def estah_vazia (pilha : Option PilhaVet) : Except Erro Bool :=
  match pilha with
  | none => .error .abortado
  | some p => .ok (p.topo == 0)

/-- The function `empilhar`. -/
def empilhar (pilha : Option PilhaVet) (item : Int) : Except Erro PilhaVet :=
  match pilha with
  | none => .error .abortado
  | some p =>
    if p.topo = TAM_MAX then .error .abortado
    else
      match escrever_item p.itens p.topo item with
      | .error e => .error e
      | .ok itens1 => .ok { itens := itens1, topo := p.topo + 1 }

/-- The function `desempilhar`: the stack it leaves and the item it returns. -/
def desempilhar (pilha : Option PilhaVet) : Except Erro (PilhaVet × Int) :=
  match pilha with
  | none => .error .abortado
  | some p =>
    if p.topo = 0 then .error .abortado
    else
      match ler_item p.itens (p.topo - 1) with
      | .error e => .error e
      | .ok item => .ok ({ p with topo := p.topo - 1 }, item)

/-- The function `obter_topo`. -/
def obter_topo (pilha : Option PilhaVet) : Except Erro Int :=
  match pilha with
  | none => .error .abortado
  | some p =>
    if p.topo = 0 then .error .abortado
    else ler_item p.itens (p.topo - 1)

/-- Client loop `empilhar(p, x)` for every item of a sequence, in order. -/
def empilhar_todos (p : PilhaVet) : List Int → Except Erro PilhaVet
  | [] => .ok p
  | x :: xs =>
    match empilhar (some p) x with
    | .error e => .error e
    | .ok p1 => empilhar_todos p1 xs

/-- Client loop `while (!estah_vazia(p)) desempilhar(p)`, run for at most `fuel`
iterations (`none` when that is not enough): the stack left and the items returned. -/
def esvaziar : Nat → PilhaVet → Option (Except Erro (PilhaVet × List Int))
  | 0, p => if p.topo = 0 then some (.ok (p, [])) else none
  | fuel + 1, p =>
    if p.topo = 0 then some (.ok (p, []))
    else
      match desempilhar (some p) with
      | .error e => some (.error e)
      | .ok (p1, x) =>
        match esvaziar fuel p1 with
        | none => none
        | some (.error e) => some (.error e)
        | some (.ok (p2, xs)) => some (.ok (p2, x :: xs))

/-- The stack record holds the items `xs`, bottom first: they are the cells
`itens[0 .. topo - 1]`. -/
def Representa (p : PilhaVet) (xs : List Int) : Prop :=
  (p.itens.length : Int) = TAM_MAX ∧ 0 ≤ p.topo ∧ p.topo ≤ TAM_MAX ∧
    p.itens.take p.topo.toNat = xs

end Pilhavet

/-!
# Pilha encadeada (`src/encadeada/pilhaenc.cpp`)

Pointers, store and handles are modelled as for the other linked structures: a `Noh*`
is an `Option Nat`, the store a `List (Option Noh)` in which `new Noh` takes the first
address past the end, a `PilhaEnc*` handle an `Option PilhaEnc`.
-/

namespace Pilhaenc

/-- Ways in which a call may fail to return. -/
inductive Erro where
  | abortado
  | indefinido
  deriving DecidableEq, Repr

/-- Node pointer: `none` is `NULL`. -/
abbrev Ptr := Option Nat

/-- The record `struct Noh`. -/
structure Noh where
  item : Int
  prox : Ptr
  deriving DecidableEq, Repr

/-- The record `struct PilhaEnc`. -/
structure PilhaEnc where
  topo : Ptr
  deriving DecidableEq, Repr

/-- Node store. -/
abbrev Mem := List (Option Noh)

/-- A store together with the fields of the stack record. -/
structure Estado where
  mem : Mem
  pilha : PilhaEnc
  deriving DecidableEq, Repr

/-- Contents of the cell at address `a`, when that node is allocated. -/
def consultar (m : Mem) (a : Nat) : Option Noh :=
  match m[a]? with
  | some (some n) => some n
  | _ => none

/-- Dereference of a node pointer (`p->...`). -/
def ler (m : Mem) (p : Ptr) : Except Erro Noh :=
  match p with
  | none => .error .indefinido
  | some a =>
    match consultar m a with
    | some n => .ok n
    | none => .error .indefinido

/-- The statement `delete p`. -/
def apagar (m : Mem) (p : Ptr) : Except Erro Mem :=
  match p with
  | none => .ok m
  | some a =>
    match consultar m a with
    | some _ => .ok (m.set a none)
    | none => .error .indefinido

/-- The function `criar_pilha`: the fields of the record it returns. -/
def criar_pilha : PilhaEnc :=
  { topo := none }

/-- The function `estah_vazia`. -/
def estah_vazia (pilha : Option PilhaEnc) : Except Erro Bool :=
  match pilha with
  | none => .error .abortado
  | some p => .ok (p.topo == none)

/-- The function `empilhar`. -/
def empilhar (m : Mem) (pilha : Option PilhaEnc) (item : Int) : Except Erro Estado :=
  match pilha with
  | none => .error .abortado
  | some p =>
    let novo_noh := m.length
    let m1 := m ++ [some { item := item, prox := p.topo }]
    .ok { mem := m1, pilha := { topo := some novo_noh } }

/-- The function `desempilhar`: the final state and the returned item. -/
def desempilhar (m : Mem) (pilha : Option PilhaEnc) : Except Erro (Estado × Int) :=
  match pilha with
  | none => .error .abortado
  | some p =>
    if p.topo = none then .error .abortado
    else
      match ler m p.topo with
      | .error e => .error e
      | .ok n =>
        let aux := p.topo
        match apagar m aux with
        | .error e => .error e
        | .ok m1 => .ok ({ mem := m1, pilha := { topo := n.prox } }, n.item)

/-- The function `obter_topo`. -/
def obter_topo (m : Mem) (pilha : Option PilhaEnc) : Except Erro Int :=
  match pilha with
  | none => .error .abortado
  | some p =>
    if p.topo = none then .error .abortado
    else
      match ler m p.topo with
      | .error e => .error e
      | .ok n => .ok n.item

/-- One call that changes the stack. -/
inductive Op where
  | empilhar (item : Int)
  | desempilhar
  deriving DecidableEq, Repr

/-- Run a sequence of calls, stopping at the first that does not return. -/
def executar (s : Estado) : List Op → Except Erro Estado
  | [] => .ok s
  | .empilhar x :: ops =>
    match empilhar s.mem (some s.pilha) x with
    | .error e => .error e
    | .ok s1 => executar s1 ops
  | .desempilhar :: ops =>
    match desempilhar s.mem (some s.pilha) with
    | .error e => .error e
    | .ok (s1, _) => executar s1 ops

/-- Client loop `empilhar(p, x)` for every item of a sequence, in order. -/
def empilhar_todos (s : Estado) : List Int → Except Erro Estado
  | [] => .ok s
  | x :: xs =>
    match empilhar s.mem (some s.pilha) x with
    | .error e => .error e
    | .ok s1 => empilhar_todos s1 xs

/-- Client loop `while (!estah_vazia(p)) desempilhar(p)`, run for at most `fuel`
iterations (`none` when that is not enough): the state left and the items returned. -/
def esvaziar : Nat → Estado → Option (Except Erro (Estado × List Int))
  | 0, s => if s.pilha.topo = none then some (.ok (s, [])) else none
  | fuel + 1, s =>
    if s.pilha.topo = none then some (.ok (s, []))
    else
      match desempilhar s.mem (some s.pilha) with
      | .error e => some (.error e)
      | .ok (s1, x) =>
        match esvaziar fuel s1 with
        | none => none
        | some (.error e) => some (.error e)
        | some (.ok (s2, xs)) => some (.ok (s2, x :: xs))

/-- The call `obter_topo` in state-passing form: the function assigns to no field of
the record or of a node, so the state handed on is the state received. -/
def obter_topo_estado (s : Estado) : Except Erro (Estado × Int) :=
  match obter_topo s.mem (some s.pilha) with
  | .error e => .error e
  | .ok x => .ok (s, x)

/-- The state right after `criar_pilha`, in a store `m0`. -/
def inicial (m0 : Mem) : Estado :=
  { mem := m0, pilha := criar_pilha }

/-- Chain segment: `cs` lists, in order, the address and item of the nodes met from
`first` along `prox` until the pointer `next` is reached. -/
def Trecho (m : Mem) : Ptr → List (Nat × Int) → Ptr → Prop
  | first, [], next => first = next
  | first, c :: cs, next =>
    first = some c.1 ∧
      ∃ q, consultar m c.1 = some { item := c.2, prox := q } ∧ Trecho m q cs next

/-- The record `p` and the store `m` represent the stack `cs`, top node first: the
chain from `topo` ends on `NULL`. -/
def Representa (m : Mem) (p : PilhaEnc) (cs : List (Nat × Int)) : Prop :=
  Trecho m p.topo cs none

end Pilhaenc

/-!
# Fila dupla em vetor circular (`src/array/filadvet.cpp`)

Modelled as the circular-buffer queue: the array is a `List Int`, an access outside
`0 .. TAM_MAX - 1` (or outside the list) is `Erro.indefinido`, `criar_fila_d` takes the
indeterminate initial contents of the array as an argument, and `%` is `Int.tmod`.
-/

namespace Filadvet

/-- Ways in which a call may fail to return. -/
inductive Erro where
  | abortado
  | indefinido
  deriving DecidableEq, Repr

/-- The constant `#define TAM_MAX 100` of `filadvet.hpp`. -/
def TAM_MAX : Int := 100

/-- The record `struct FilaDVet`. -/
structure FilaDVet where
  itens : List Int
  inicio : Int
  fim : Int
  deriving DecidableEq, Repr

/-- The function `incrementar`. -/
def incrementar (i : Int) : Int :=
  Int.tmod (i + 1) TAM_MAX

/-- The function `decrementar`. -/
def decrementar (i : Int) : Int :=
  Int.tmod (i - 1 + TAM_MAX) TAM_MAX

/-- The function `criar_fila_d`; `itens0` is what the array happens to hold. -/
def criar_fila_d (itens0 : List Int) : FilaDVet :=
  { itens := itens0, inicio := 0, fim := 0 }

/-- Array read `itens[i]`. -/
def ler_item (itens : List Int) (i : Int) : Except Erro Int :=
  if 0 ≤ i ∧ i < TAM_MAX then
    match itens[i.toNat]? with
    | some x => .ok x
    | none => .error .indefinido
  else .error .indefinido

/-- Array write `itens[i] = x`. -/
def escrever_item (itens : List Int) (i : Int) (x : Int) : Except Erro (List Int) :=
  if 0 ≤ i ∧ i < TAM_MAX ∧ i.toNat < itens.length then .ok (itens.set i.toNat x)
  else .error .indefinido

/-- The function `estah_cheia`. -/
def estah_cheia (fila : Option FilaDVet) : Except Erro Bool :=
  match fila with
  | none => .error .abortado
  | some f => .ok (incrementar f.fim == f.inicio)

/-- The function `estah_vazia`. -/
def estah_vazia (fila : Option FilaDVet) : Except Erro Bool :=
  match fila with
  | none => .error .abortado
  | some f => .ok (f.inicio == f.fim)

/-- The function `inserir_no_fim`. -/
def inserir_no_fim (fila : Option FilaDVet) (item : Int) : Except Erro FilaDVet :=
  match fila with
  | none => .error .abortado
  | some f =>
    if incrementar f.fim = f.inicio then .error .abortado
    else
      match escrever_item f.itens f.fim item with
      | .error e => .error e
      | .ok itens1 => .ok { f with itens := itens1, fim := incrementar f.fim }

/-- The function `remover_do_inicio`: the queue it leaves and the item it returns. -/
def remover_do_inicio (fila : Option FilaDVet) : Except Erro (FilaDVet × Int) :=
  match fila with
  | none => .error .abortado
  | some f =>
    if f.inicio = f.fim then .error .abortado
    else
      match ler_item f.itens f.inicio with
      | .error e => .error e
      | .ok item => .ok ({ f with inicio := incrementar f.inicio }, item)

/-- The function `obter_inicio`. -/
def obter_inicio (fila : Option FilaDVet) : Except Erro Int :=
  match fila with
  | none => .error .abortado
  | some f =>
    if f.inicio = f.fim then .error .abortado
    else ler_item f.itens f.inicio

/-- The function `inserir_no_inicio`. -/
def inserir_no_inicio (fila : Option FilaDVet) (item : Int) : Except Erro FilaDVet :=
  match fila with
  | none => .error .abortado
  | some f =>
    if incrementar f.fim = f.inicio then .error .abortado
    else
      match escrever_item f.itens (decrementar f.inicio) item with
      | .error e => .error e
      | .ok itens1 => .ok { f with itens := itens1, inicio := decrementar f.inicio }

/-- The function `remover_do_fim`: the queue it leaves and the item it returns. -/
def remover_do_fim (fila : Option FilaDVet) : Except Erro (FilaDVet × Int) :=
  match fila with
  | none => .error .abortado
  | some f =>
    if f.inicio = f.fim then .error .abortado
    else
      match ler_item f.itens (decrementar f.fim) with
      | .error e => .error e
      | .ok item => .ok ({ f with fim := decrementar f.fim }, item)

/-- The function `obter_fim`. -/
def obter_fim (fila : Option FilaDVet) : Except Erro Int :=
  match fila with
  | none => .error .abortado
  | some f =>
    if f.inicio = f.fim then .error .abortado
    else ler_item f.itens (decrementar f.fim)

/-- One call that changes the queue. -/
inductive Op where
  | inserir_no_fim (item : Int)
  | inserir_no_inicio (item : Int)
  | remover_do_inicio
  | remover_do_fim
  deriving DecidableEq, Repr

/-- Run a sequence of calls, stopping at the first that does not return; the items
returned by the removals are collected in call order. -/
def executar (f : FilaDVet) : List Op → Except Erro (FilaDVet × List Int)
  | [] => .ok (f, [])
  | .inserir_no_fim x :: ops =>
    match inserir_no_fim (some f) x with
    | .error e => .error e
    | .ok f1 => executar f1 ops
  | .inserir_no_inicio x :: ops =>
    match inserir_no_inicio (some f) x with
    | .error e => .error e
    | .ok f1 => executar f1 ops
  | .remover_do_inicio :: ops =>
    match remover_do_inicio (some f) with
    | .error e => .error e
    | .ok (f1, x) =>
      match executar f1 ops with
      | .error e => .error e
      | .ok (f2, xs) => .ok (f2, x :: xs)
  | .remover_do_fim :: ops =>
    match remover_do_fim (some f) with
    | .error e => .error e
    | .ok (f1, x) =>
      match executar f1 ops with
      | .error e => .error e
      | .ok (f2, xs) => .ok (f2, x :: xs)

/-- Abstract contents of the queue: the items at the indices `inicio`, `inicio + 1`,
..., `fim - 1` taken modulo `TAM_MAX` (a cell outside the list reads as 0). -/
def conteudo (f : FilaDVet) : List Int :=
  (List.range ((f.fim - f.inicio + TAM_MAX) % TAM_MAX).toNat).map
    (fun (k : Nat) => (f.itens[((f.inicio + (k : Int)) % TAM_MAX).toNat]?).getD 0)

/-- Double-ended sequence of the specification, as a list with the front first:
insertions are allowed while fewer than `TAM_MAX - 1` items are held, removals while
the sequence is not empty; `none` when a call is not allowed.  The result is the final
sequence and the items removed, in call order. -/
def deque_abstrato (q : List Int) : List Op → Option (List Int × List Int)
  | [] => some (q, [])
  | .inserir_no_fim x :: ops =>
    if (q.length : Int) < TAM_MAX - 1 then deque_abstrato (q ++ [x]) ops else none
  | .inserir_no_inicio x :: ops =>
    if (q.length : Int) < TAM_MAX - 1 then deque_abstrato (x :: q) ops else none
  | .remover_do_inicio :: ops =>
    match q with
    | [] => none
    | y :: q1 =>
      match deque_abstrato q1 ops with
      | none => none
      | some (q2, out) => some (q2, y :: out)
  | .remover_do_fim :: ops =>
    match q.getLast? with
    | none => none
    | some y =>
      match deque_abstrato q.dropLast ops with
      | none => none
      | some (q2, out) => some (q2, y :: out)

/-- The queue record holds the items `q`, front first. -/
def Representa (f : FilaDVet) (q : List Int) : Prop :=
  (f.itens.length : Int) = TAM_MAX ∧ 0 ≤ f.inicio ∧ f.inicio < TAM_MAX ∧
    0 ≤ f.fim ∧ f.fim < TAM_MAX ∧
    (q.length : Int) = (f.fim - f.inicio + TAM_MAX) % TAM_MAX ∧
    ∀ k : Nat, k < q.length →
      f.itens[((f.inicio + (k : Int)) % TAM_MAX).toNat]? = q[k]?

end Filadvet

/-!
# Lista em vetor (`src/array/listavet.cpp`, constant from `src/listavet.hpp`)

The array `int itens[TAM_MAX]` is a `List Int`; an access outside `0 .. TAM_MAX - 1`
(or outside the list) is `Erro.indefinido`.  `new ListaVet` leaves the array
indeterminate, so `criar_lista` takes its initial contents as an argument.  Each of
the two shifting loops runs a number of times fixed at its start (`ultimo - pos`, or
`ultimo - 1 - pos`); it is unrolled for that many iterations.
-/

namespace Listavet

/-- Ways in which a call may fail to return. -/
inductive Erro where
  | abortado
  | indefinido
  deriving DecidableEq, Repr

/-- The constant `#define TAM_MAX 100` of `listavet.hpp`. -/
def TAM_MAX : Int := 100

/-- The record `struct ListaVet`. -/
structure ListaVet where
  itens : List Int
  ultimo : Int
  deriving DecidableEq, Repr

/-- The function `criar_lista`; `itens0` is what the array happens to hold. -/
def criar_lista (itens0 : List Int) : ListaVet :=
  { itens := itens0, ultimo := 0 }

/-- Array read `itens[i]`. -/
def ler_item (itens : List Int) (i : Int) : Except Erro Int :=
  if 0 ≤ i ∧ i < TAM_MAX then
    match itens[i.toNat]? with
    | some x => .ok x
    | none => .error .indefinido
  else .error .indefinido

/-- Array write `itens[i] = x`. -/
def escrever_item (itens : List Int) (i : Int) (x : Int) : Except Erro (List Int) :=
  if 0 ≤ i ∧ i < TAM_MAX ∧ i.toNat < itens.length then .ok (itens.set i.toNat x)
  else .error .indefinido

/-- The function `estah_cheia`. -/
def estah_cheia (lista : Option ListaVet) : Except Erro Bool :=
  match lista with
  | none => .error .abortado
  | some l => .ok (l.ultimo == TAM_MAX)

/-- The function `estah_vazia`. -/
def estah_vazia (lista : Option ListaVet) : Except Erro Bool :=
  match lista with
  | none => .error .abortado
  | some l => .ok (l.ultimo == 0)

/-- The loop `for (i = ...; i > pos; i--) itens[i] = itens[i - 1];` of `inserir`,
from the index `i`, for at most `n` iterations. -/
def deslocar_direita (pos : Int) : Nat → List Int → Int → Except Erro (List Int)
  | 0, itens, _ => .ok itens
  | n + 1, itens, i =>
    if i > pos then
      match ler_item itens (i - 1) with
      | .error e => .error e
      | .ok x =>
        match escrever_item itens i x with
        | .error e => .error e
        | .ok itens1 => deslocar_direita pos n itens1 (i - 1)
    else .ok itens

/-- The loop `for (i = ...; i < ultimo - 1; i++) itens[i] = itens[i + 1];` of
`remover`, from the index `i`, for at most `n` iterations. -/
def deslocar_esquerda (ultimo : Int) : Nat → List Int → Int → Except Erro (List Int)
  | 0, itens, _ => .ok itens
  | n + 1, itens, i =>
    if i < ultimo - 1 then
      match ler_item itens (i + 1) with
      | .error e => .error e
      | .ok x =>
        match escrever_item itens i x with
        | .error e => .error e
        | .ok itens1 => deslocar_esquerda ultimo n itens1 (i + 1)
    else .ok itens

/-- The function `inserir`. -/
def inserir (lista : Option ListaVet) (item : Int) (pos : Int) : Except Erro ListaVet :=
  match lista with
  | none => .error .abortado
  | some l =>
    if l.ultimo = TAM_MAX then .error .abortado
    else if ¬ (pos ≥ 0 ∧ pos ≤ l.ultimo) then .error .abortado
    else
      match deslocar_direita pos (l.ultimo - pos).toNat l.itens l.ultimo with
      | .error e => .error e
      | .ok itens1 =>
        match escrever_item itens1 pos item with
        | .error e => .error e
        | .ok itens2 => .ok { itens := itens2, ultimo := l.ultimo + 1 }

/-- The function `remover`: the list it leaves and the item it returns. -/
def remover (lista : Option ListaVet) (pos : Int) : Except Erro (ListaVet × Int) :=
  match lista with
  | none => .error .abortado
  | some l =>
    if l.ultimo = 0 then .error .abortado
    else if ¬ (pos ≥ 0 ∧ pos < l.ultimo) then .error .abortado
    else
      match ler_item l.itens pos with
      | .error e => .error e
      | .ok item =>
        match deslocar_esquerda l.ultimo (l.ultimo - 1 - pos).toNat l.itens pos with
        | .error e => .error e
        | .ok itens1 => .ok ({ itens := itens1, ultimo := l.ultimo - 1 }, item)

/-- The function `obter`. -/
def obter (lista : Option ListaVet) (pos : Int) : Except Erro Int :=
  match lista with
  | none => .error .abortado
  | some l =>
    if l.ultimo = 0 then .error .abortado
    else if ¬ (pos ≥ 0 ∧ pos < l.ultimo) then .error .abortado
    else ler_item l.itens pos

/-- The function `obter_tamanho`. -/
def obter_tamanho (lista : Option ListaVet) : Except Erro Int :=
  match lista with
  | none => .error .abortado
  | some l => .ok l.ultimo

/-- How a call of `inserir` stops, with the list record as it is at that moment when
the stop is a failed `assert`. -/
inductive Parada where
  | retorna (l : ListaVet)
  | aborta (lista : Option ListaVet)
  | indefinida
  deriving DecidableEq, Repr

/-- The function `inserir` once more, keeping the record at a failed `assert`.  The
three asserts of lines 47-51 are the first statements of the function and nothing is
assigned before them, so the record is still the one received. -/
def inserir_parada (lista : Option ListaVet) (item : Int) (pos : Int) : Parada :=
  match lista with
  | none => .aborta none
  | some l =>
    if l.ultimo = TAM_MAX then .aborta (some l)
    else if ¬ (pos ≥ 0 ∧ pos ≤ l.ultimo) then .aborta (some l)
    else
      match inserir (some l) item pos with
      | .ok l1 => .retorna l1
      | .error .abortado => .aborta (some l)
      | .error .indefinido => .indefinida

/-- The call `obter` in state-passing form: the function assigns to no field of the
record, so the record handed on is the record received. -/
def obter_estado (l : ListaVet) (pos : Int) : Except Erro (ListaVet × Int) :=
  match obter (some l) pos with
  | .error e => .error e
  | .ok x => .ok (l, x)

/-- Client loop `inserir(li, x, pos)` for every pair `(x, pos)` of a sequence, in
order. -/
def inserir_varios (l : ListaVet) : List (Int × Int) → Except Erro ListaVet
  | [] => .ok l
  | (x, pos) :: ps =>
    match inserir (some l) x pos with
    | .error e => .error e
    | .ok l1 => inserir_varios l1 ps

/-- Client loop `while (!estah_vazia(li)) remover(li, 0)`, run for at most `fuel`
iterations (`none` when that is not enough): the list left and the items returned. -/
def esvaziar : Nat → ListaVet → Option (Except Erro (ListaVet × List Int))
  | 0, l => if l.ultimo = 0 then some (.ok (l, [])) else none
  | fuel + 1, l =>
    if l.ultimo = 0 then some (.ok (l, []))
    else
      match remover (some l) 0 with
      | .error e => some (.error e)
      | .ok (l1, x) =>
        match esvaziar fuel l1 with
        | none => none
        | some (.error e) => some (.error e)
        | some (.ok (l2, xs)) => some (.ok (l2, x :: xs))

/-- Contents of the list: the cells `itens[0 .. ultimo - 1]`. -/
def conteudo (l : ListaVet) : List Int :=
  l.itens.take l.ultimo.toNat

/-- Well-formed record: the array has `TAM_MAX` cells and `0 <= ultimo <= TAM_MAX`. -/
def BemFormada (l : ListaVet) : Prop :=
  (l.itens.length : Int) = TAM_MAX ∧ 0 ≤ l.ultimo ∧ l.ultimo ≤ TAM_MAX

/-- Positions of a sequence of insertions that are all valid when the list holds `n`
items at the start: each lies in `[0, size]` for the size at its turn. -/
def posicoes_validas (n : Int) : List (Int × Int) → Prop
  | [] => True
  | (_, pos) :: ps => 0 ≤ pos ∧ pos ≤ n ∧ posicoes_validas (n + 1) ps

/-- Deciding `posicoes_validas` by running down the sequence. -/
instance posicoes_validas_dec :
    (n : Int) → (ps : List (Int × Int)) → Decidable (posicoes_validas n ps)
  | _, [] => isTrue trivial
  | n, (_, pos) :: ps =>
    match posicoes_validas_dec (n + 1) ps with
    | isTrue h =>
      if h0 : 0 ≤ pos ∧ pos ≤ n then isTrue ⟨h0.1, h0.2, h⟩
      else isFalse (fun hv => h0 ⟨hv.1, hv.2.1⟩)
    | isFalse h => isFalse (fun hv => h hv.2.2)

end Listavet

/-!
# Singly linked list (`src/encadeada/listaenc.cpp`)

The list record holds `inicio` and `tam`; every node holds an item and the pointer
`prox`.  Nodes live in a store of their own, as for the other linked structures.
-/

namespace Listaenc

/-- Ways in which a call may fail to return. -/
inductive Erro where
  | abortado
  | indefinido
  deriving DecidableEq, Repr

/-- Node pointer: `none` is `NULL`. -/
abbrev Ptr := Option Nat

/-- The record `struct Noh`. -/
structure Noh where
  item : Int
  prox : Ptr
  deriving DecidableEq, Repr

/-- The record `struct ListaEnc`. -/
structure ListaEnc where
  inicio : Ptr
  tam : Int
  deriving DecidableEq, Repr

/-- Node store. -/
abbrev Mem := List (Option Noh)

/-- A store together with the fields of the list record. -/
structure Estado where
  mem : Mem
  lista : ListaEnc
  deriving DecidableEq, Repr

/-- Contents of the cell at address `a`, when that node is allocated. -/
def consultar (m : Mem) (a : Nat) : Option Noh :=
  match m[a]? with
  | some (some n) => some n
  | _ => none

/-- Dereference of a node pointer (`p->...`). -/
def ler (m : Mem) (p : Ptr) : Except Erro Noh :=
  match p with
  | none => .error .indefinido
  | some a =>
    match consultar m a with
    | some n => .ok n
    | none => .error .indefinido

/-- Assignment through a node pointer (`p->campo = ...`). -/
def modificar (m : Mem) (p : Ptr) (f : Noh → Noh) : Except Erro Mem :=
  match p with
  | none => .error .indefinido
  | some a =>
    match consultar m a with
    | some n => .ok (m.set a (some (f n)))
    | none => .error .indefinido

/-- The statement `delete p`. -/
def apagar (m : Mem) (p : Ptr) : Except Erro Mem :=
  match p with
  | none => .ok m
  | some a =>
    match consultar m a with
    | some _ => .ok (m.set a none)
    | none => .error .indefinido

/-- The function `criar_lista`: the fields of the record it returns. -/
def criar_lista : ListaEnc :=
  { inicio := none, tam := 0 }

/-- The function `estah_vazia`. -/
def estah_vazia (lista : Option ListaEnc) : Except Erro Bool :=
  match lista with
  | none => .error .abortado
  | some l => .ok (l.inicio == none)

/-- The loop `for (...) aux = aux->prox;` run for `k` iterations. -/
def avancar (m : Mem) : Nat → Ptr → Except Erro Ptr
  | 0, aux => .ok aux
  | k + 1, aux =>
    match ler m aux with
    | .error e => .error e
    | .ok n => avancar m k n.prox

/-- The loop `for (...) { ant = aux; aux = aux->prox; }` of `remover` run for `k`
iterations: the final `ant` and `aux`. -/
def avancar_com_ant (m : Mem) : Nat → Ptr → Ptr → Except Erro (Ptr × Ptr)
  | 0, ant, aux => .ok (ant, aux)
  | k + 1, _, aux =>
    match ler m aux with
    | .error e => .error e
    | .ok n => avancar_com_ant m k aux n.prox

/-- The function `inserir`.  The node is allocated first, at the next free address,
with its `prox` still to be assigned (kept as `NULL` until then; no statement reads
it before the assignment). -/
def inserir (m : Mem) (lista : Option ListaEnc) (item : Int) (pos : Int) : Except Erro Estado :=
  match lista with
  | none => .error .abortado
  | some l =>
    if ¬ (pos ≥ 0 ∧ pos ≤ l.tam) then .error .abortado
    else
      let novo_noh := m.length
      let m1 := m ++ [some { item := item, prox := none }]
      if pos = 0 then
        match modificar m1 (some novo_noh) (fun n => { n with prox := l.inicio }) with
        | .error e => .error e
        | .ok m2 => .ok (Estado.mk m2 (ListaEnc.mk (some novo_noh) (l.tam + 1)))
      else
        match avancar m1 (pos - 1).toNat l.inicio with
        | .error e => .error e
        | .ok aux =>
          match ler m1 aux with
          | .error e => .error e
          | .ok n =>
            match modificar m1 (some novo_noh) (fun c => { c with prox := n.prox }) with
            | .error e => .error e
            | .ok m2 =>
              match modificar m2 aux (fun c => { c with prox := some novo_noh }) with
              | .error e => .error e
              | .ok m3 => .ok (Estado.mk m3 (ListaEnc.mk l.inicio (l.tam + 1)))

/-- The function `remover`: the final state and the returned item.  The local `ant`
has no value before the loop (kept as `NULL`); the loop assigns it before its use. -/
def remover (m : Mem) (lista : Option ListaEnc) (pos : Int) : Except Erro (Estado × Int) :=
  match lista with
  | none => .error .abortado
  | some l =>
    if l.inicio = none then .error .abortado
    else if ¬ (pos ≥ 0 ∧ pos < l.tam) then .error .abortado
    else if pos = 0 then
      let aux := l.inicio
      match ler m aux with
      | .error e => .error e
      | .ok n =>
        match apagar m aux with
        | .error e => .error e
        | .ok m1 => .ok (Estado.mk m1 (ListaEnc.mk n.prox (l.tam - 1)), n.item)
    else
      match avancar_com_ant m pos.toNat none l.inicio with
      | .error e => .error e
      | .ok (ant, aux) =>
        match ler m aux with
        | .error e => .error e
        | .ok n =>
          match modificar m ant (fun c => { c with prox := n.prox }) with
          | .error e => .error e
          | .ok m1 =>
            match ler m1 aux with
            | .error e => .error e
            | .ok n1 =>
              match apagar m1 aux with
              | .error e => .error e
              | .ok m2 => .ok (Estado.mk m2 (ListaEnc.mk l.inicio (l.tam - 1)), n1.item)

/-- The function `obter_elemento`. -/
def obter_elemento (m : Mem) (lista : Option ListaEnc) (pos : Int) : Except Erro Int :=
  match lista with
  | none => .error .abortado
  | some l =>
    if l.inicio = none then .error .abortado
    else if ¬ (pos ≥ 0 ∧ pos < l.tam) then .error .abortado
    else
      match avancar m pos.toNat l.inicio with
      | .error e => .error e
      | .ok aux =>
        match ler m aux with
        | .error e => .error e
        | .ok n => .ok n.item

/-- The function `obter_tamanho`. -/
def obter_tamanho (lista : Option ListaEnc) : Except Erro Int :=
  match lista with
  | none => .error .abortado
  | some l => .ok l.tam

/-- Walk from `p` along `prox` until `NULL`, collecting the address and item of every
node visited; `none` when a link leaves the allocated nodes or more than `fuel` nodes
are met. -/
def percorrer (m : Mem) : Nat → Ptr → Option (List (Nat × Int))
  | _, none => some []
  | 0, some _ => none
  | k + 1, some a =>
    match consultar m a with
    | none => none
    | some n =>
      match percorrer m k n.prox with
      | none => none
      | some r => some ((a, n.item) :: r)

/-- Element sequence of the list, read from `inicio` via `prox`. -/
def elementos (m : Mem) (l : ListaEnc) : Option (List Int) :=
  (percorrer m m.length l.inicio).map (fun cs => cs.map Prod.snd)

/-- One call that changes the list. -/
inductive Op where
  | inserir (item pos : Int)
  | remover (pos : Int)
  deriving DecidableEq, Repr

/-- Run a sequence of calls, stopping at the first one that does not return. -/
def executar (s : Estado) : List Op → Except Erro Estado
  | [] => .ok s
  | .inserir x pos :: ops =>
    match inserir s.mem (some s.lista) x pos with
    | .error e => .error e
    | .ok s1 => executar s1 ops
  | .remover pos :: ops =>
    match remover s.mem (some s.lista) pos with
    | .error e => .error e
    | .ok (s1, _) => executar s1 ops

/-- A sequence of calls each of which respects its documented position range, started
on a list that holds `n` elements. -/
def validas (n : Int) : List Op → Prop
  | [] => True
  | .inserir _ pos :: ops => 0 ≤ pos ∧ pos ≤ n ∧ validas (n + 1) ops
  | .remover pos :: ops => 0 ≤ pos ∧ pos < n ∧ validas (n - 1) ops

/-- Client loop `while (!estah_vazia(li)) remover(li, 0)`, run for at most `fuel`
iterations (`none` when that is not enough): the state left and the items returned. -/
def esvaziar : Nat → Estado → Option (Except Erro (Estado × List Int))
  | 0, s => if s.lista.inicio = none then some (.ok (s, [])) else none
  | fuel + 1, s =>
    if s.lista.inicio = none then some (.ok (s, []))
    else
      match remover s.mem (some s.lista) 0 with
      | .error e => some (.error e)
      | .ok (s1, x) =>
        match esvaziar fuel s1 with
        | none => none
        | some (.error e) => some (.error e)
        | some (.ok (s2, xs)) => some (.ok (s2, x :: xs))

/-- Positional sequence of the specification: the element sequence after a run of
calls, with `inserir(x, pos)` placing `x` between the first `pos` elements and the rest
and `remover(pos)` erasing index `pos`. -/
def lista_abstrata (L : List Int) : List Op → List Int
  | [] => L
  | .inserir x pos :: ops =>
    lista_abstrata (L.take pos.toNat ++ [x] ++ L.drop pos.toNat) ops
  | .remover pos :: ops => lista_abstrata (L.eraseIdx pos.toNat) ops

/-- The state right after `criar_lista`, in a store `m0`. -/
def inicial (m0 : Mem) : Estado :=
  { mem := m0, lista := criar_lista }

/-- Chain segment: `cs` lists, in order, the address and item of the nodes met from
`first` along `prox` until the pointer `next` is reached. -/
def Trecho (m : Mem) : Ptr → List (Nat × Int) → Ptr → Prop
  | first, [], next => first = next
  | first, c :: cs, next =>
    first = some c.1 ∧
      ∃ q, consultar m c.1 = some { item := c.2, prox := q } ∧ Trecho m q cs next

/-- The record `l` and the store `m` represent the node sequence `cs`: the chain from
`inicio` ends on `NULL` and `tam` counts its nodes. -/
def Representa (m : Mem) (l : ListaEnc) (cs : List (Nat × Int)) : Prop :=
  Trecho m l.inicio cs none ∧ l.tam = cs.length

end Listaenc

namespace Listadenc

/-- The search loop of `inserir`, `for (int i = 0; i < pos; i++) aux = aux->prox;`, run
under its own condition from the counter `i` and the pointer `aux`, for at most `fuel`
iterations (`none` when that is not enough).  `vis` collects, in order, the pointers
whose `prox` link the loop followed. -/
def buscar (m : Mem) (pos : Int) :
    Nat → Int → Ptr → List Ptr → Option (Except Erro (Ptr × List Ptr))
  | 0, i, aux, vis => if i < pos then none else some (.ok (aux, vis))
  | fuel + 1, i, aux, vis =>
    if i < pos then
      match ler m aux with
      | .error e => some (.error e)
      | .ok n => buscar m pos fuel (i + 1) n.prox (vis ++ [aux])
    else some (.ok (aux, vis))

/-- The statements of the last branch of `inserir` that follow the search loop: the
new node is created between `aux->ant` and `aux` and the two neighbours are rewired. -/
def inserir_antes (m : Mem) (l : ListaDEnc) (item : Int) (aux : Ptr) : Except Erro Estado :=
  match ler m aux with
  | .error e => .error e
  | .ok n =>
    let (m1, novo_noh) := criar_noh m item n.ant aux
    match ler m1 aux with
    | .error e => .error e
    | .ok n1 =>
      match modificar m1 n1.ant (fun p => { p with prox := some novo_noh }) with
      | .error e => .error e
      | .ok m2 =>
        match modificar m2 aux (fun c => { c with ant := some novo_noh }) with
        | .error e => .error e
        | .ok m3 => .ok { mem := m3, lista := { l with tam := l.tam + 1 } }

/-- The function `inserir` once more, with the `prox` links it follows collected.  The
two delegations follow none: `inserir_no_inicio` reads `lista->inicio` and assigns
`ant` of the old first node, `inserir_no_fim` reads `lista->fim` and assigns `prox` of
the old last node, and `criar_noh` only assigns the fields of the new node. -/
def inserir_rastro (m : Mem) (lista : Option ListaDEnc) (item : Int) (pos : Int)
    (fuel : Nat) : Option (Except Erro (Estado × List Ptr)) :=
  match lista with
  | none => some (.error .abortado)
  | some l =>
    if ¬ (pos ≥ 0 ∧ pos ≤ l.tam) then some (.error .abortado)
    else if pos = 0 then
      match inserir_no_inicio m (some l) item with
      | .error e => some (.error e)
      | .ok s => some (.ok (s, []))
    else if pos = l.tam then
      match inserir_no_fim m (some l) item with
      | .error e => some (.error e)
      | .ok s => some (.ok (s, []))
    else
      match buscar m pos fuel 0 l.inicio [] with
      | none => none
      | some (.error e) => some (.error e)
      | some (.ok (aux, vis)) =>
        match inserir_antes m l item aux with
        | .error e => some (.error e)
        | .ok s => some (.ok (s, vis))

end Listadenc

namespace Listadenc

/-! ## Store lemmas -/

theorem consultar_lt {m : Mem} {a : Nat} {n : DNoh} (h : consultar m a = some n) :
    a < m.length := by
  by_contra hlt
  have : m[a]? = none := List.getElem?_eq_none (by omega)
  simp [consultar, this] at h

theorem consultar_set_eq {m : Mem} {a : Nat} (v : Option DNoh) (h : a < m.length) :
    consultar (m.set a v) a = v := by
  unfold consultar
  rw [List.getElem?_set_self h]
  cases v <;> rfl

theorem consultar_set_ne {m : Mem} {a b : Nat} (v : Option DNoh) (h : b ≠ a) :
    consultar (m.set b v) a = consultar m a := by
  unfold consultar
  rw [List.getElem?_set_ne h]

theorem consultar_append {m : Mem} {a : Nat} (e : Mem) (h : a < m.length) :
    consultar (m ++ e) a = consultar m a := by
  unfold consultar
  rw [List.getElem?_append_left h]

theorem consultar_novo (m : Mem) (n : DNoh) :
    consultar (m ++ [some n]) m.length = some n := by
  unfold consultar
  simp

theorem consultar_length (m : Mem) : consultar m m.length = none := by
  unfold consultar
  simp

/-! ## Segment lemmas -/

theorem Seg_nil {m : Mem} {f p l n : Ptr} : Seg m f p [] l n ↔ f = n ∧ l = p := Iff.rfl

theorem Seg_cons {m : Mem} {f p l n : Ptr} {c : Nat × Int} {cs : List (Nat × Int)} :
    Seg m f p (c :: cs) l n ↔
      f = some c.1 ∧ ∃ q, consultar m c.1 = some { item := c.2, ant := p, prox := q } ∧
        Seg m q (some c.1) cs l n := Iff.rfl

theorem Seg_append {m : Mem} {c1 c2 : List (Nat × Int)} {f p l n : Ptr} :
    Seg m f p (c1 ++ c2) l n ↔ ∃ mid lmid, Seg m f p c1 lmid mid ∧ Seg m mid lmid c2 l n := by
  induction c1 generalizing f p with
  | nil =>
    constructor
    · intro h
      exact ⟨f, p, ⟨rfl, rfl⟩, h⟩
    · rintro ⟨mid, lmid, ⟨h1, h2⟩, h⟩
      subst h1 h2
      exact h
  | cons c cs ih =>
    simp only [List.cons_append, Seg_cons, ih]
    constructor
    · rintro ⟨hf, q, hq, mid, lmid, h1, h2⟩
      exact ⟨mid, lmid, ⟨hf, q, hq, h1⟩, h2⟩
    · rintro ⟨mid, lmid, ⟨hf, q, hq, h1⟩, h2⟩
      exact ⟨hf, q, hq, mid, lmid, h1, h2⟩

theorem Seg_snoc {m : Mem} {cs : List (Nat × Int)} {c : Nat × Int} {f p l n : Ptr} :
    Seg m f p (cs ++ [c]) l n ↔
      l = some c.1 ∧ ∃ q, consultar m c.1 = some { item := c.2, ant := q, prox := n } ∧
        Seg m f p cs q (some c.1) := by
  rw [Seg_append]
  constructor
  · rintro ⟨mid, lmid, h1, hmid, q, hq, hn, hl⟩
    subst hmid hn
    exact ⟨hl, lmid, hq, h1⟩
  · rintro ⟨hl, q, hq, h1⟩
    exact ⟨some c.1, q, h1, rfl, n, hq, rfl, hl⟩

theorem Seg_viva {m : Mem} {cs : List (Nat × Int)} {f p l n : Ptr} (h : Seg m f p cs l n)
    {c : Nat × Int} (hc : c ∈ cs) : ∃ nd, consultar m c.1 = some nd ∧ nd.item = c.2 := by
  induction cs generalizing f p with
  | nil => cases hc
  | cons d ds ih =>
    obtain ⟨_, q, hq, hrest⟩ := h
    rcases List.mem_cons.1 hc with rfl | hmem
    · exact ⟨_, hq, rfl⟩
    · exact ih hrest hmem

theorem Seg_lt {m : Mem} {cs : List (Nat × Int)} {f p l n : Ptr} (h : Seg m f p cs l n)
    {c : Nat × Int} (hc : c ∈ cs) : c.1 < m.length := by
  obtain ⟨nd, hnd, _⟩ := Seg_viva h hc
  exact consultar_lt hnd

theorem Seg_set {m : Mem} {cs : List (Nat × Int)} {f p l n : Ptr} (b : Nat) (v : Option DNoh)
    (hb : ∀ c ∈ cs, c.1 ≠ b) (h : Seg m f p cs l n) : Seg (m.set b v) f p cs l n := by
  induction cs generalizing f p with
  | nil => exact h
  | cons d ds ih =>
    obtain ⟨hf, q, hq, hrest⟩ := h
    refine ⟨hf, q, ?_, ih (fun c hc => hb c (List.mem_cons_of_mem _ hc)) hrest⟩
    rw [consultar_set_ne v (Ne.symm (hb d (List.mem_cons_self _ _)))]
    exact hq

theorem Seg_novo {m : Mem} {cs : List (Nat × Int)} {f p l n : Ptr} (e : Mem)
    (h : Seg m f p cs l n) : Seg (m ++ e) f p cs l n := by
  induction cs generalizing f p with
  | nil => exact h
  | cons d ds ih =>
    obtain ⟨hf, q, hq, hrest⟩ := h
    refine ⟨hf, q, ?_, ih hrest⟩
    rw [consultar_append e (consultar_lt hq)]
    exact hq

/-- The forward chain from a pointer down to `NULL` is determined by the store. -/
theorem Seg_unico {m : Mem} {cs cs2 : List (Nat × Int)} {f p p2 l l2 : Ptr}
    (h : Seg m f p cs l none) (h2 : Seg m f p2 cs2 l2 none) : cs = cs2 := by
  induction cs generalizing f p p2 cs2 with
  | nil =>
    cases cs2 with
    | nil => rfl
    | cons d ds =>
      obtain ⟨hf, _⟩ := h
      obtain ⟨hf2, _⟩ := h2
      rw [hf] at hf2
      cases hf2
  | cons c cs ih =>
    cases cs2 with
    | nil =>
      obtain ⟨hf, _⟩ := h
      obtain ⟨hf2, _⟩ := h2
      rw [hf2] at hf
      cases hf
    | cons d ds =>
      obtain ⟨hf, q, hq, hrest⟩ := h
      obtain ⟨hf2, q2, hq2, hrest2⟩ := h2
      rw [hf] at hf2
      have hcd : c.1 = d.1 := Option.some.inj hf2
      rw [← hcd, hq] at hq2
      have hnode := Option.some.inj hq2
      have hitem : c.2 = d.2 := congrArg DNoh.item hnode
      have hprox : q = q2 := congrArg DNoh.prox hnode
      subst hprox
      rw [← hcd] at hrest2
      have := ih hrest hrest2
      subst this
      have : c = d := Prod.ext hcd hitem
      rw [this]

/-- The addresses of a `NULL`-terminated chain are pairwise distinct. -/
theorem Seg_nodup {m : Mem} {cs : List (Nat × Int)} {f p l : Ptr}
    (h : Seg m f p cs l none) : (cs.map Prod.fst).Nodup := by
  induction cs generalizing f p with
  | nil => exact List.nodup_nil
  | cons c cs ih =>
    have hall := h
    obtain ⟨hf, q, hq, hrest⟩ := h
    rw [List.map_cons, List.nodup_cons]
    refine ⟨?_, ih hrest⟩
    intro hmem
    obtain ⟨d, hd, hdc⟩ := List.mem_map.1 hmem
    obtain ⟨s, t, hst⟩ := List.append_of_mem hd
    rw [hst] at hall
    have hsplit : Seg m f p ((c :: s) ++ d :: t) l none := hall
    rw [Seg_append] at hsplit
    obtain ⟨mid, lmid, _, hsuf⟩ := hsplit
    have hmid : mid = f := by
      obtain ⟨hm, _⟩ := hsuf
      rw [hm, hf, hdc]
    rw [hmid] at hsuf
    have := congrArg List.length (Seg_unico hall hsuf)
    simp at this
    omega

/-! ## Walks over a segment -/

theorem Seg_length_le {m : Mem} {cs : List (Nat × Int)} {f p l : Ptr}
    (h : Seg m f p cs l none) : cs.length ≤ m.length := by
  have hsub : (cs.map Prod.fst).Subperm (List.range m.length) :=
    List.subperm_of_subset (Seg_nodup h) (fun a ha => by
      obtain ⟨c, hc, rfl⟩ := List.mem_map.1 ha
      exact List.mem_range.2 (Seg_lt h hc))
  simpa using hsub.length_le

theorem percorrer_prox {m : Mem} {cs : List (Nat × Int)} {f p l : Ptr} {k : Nat}
    (h : Seg m f p cs l none) (hk : cs.length ≤ k) :
    percorrer m DNoh.prox k f = some cs := by
  induction cs generalizing f p k with
  | nil =>
    obtain ⟨hf, _⟩ := h
    subst hf
    cases k <;> rfl
  | cons c cs ih =>
    obtain ⟨hf, q, hq, hrest⟩ := h
    subst hf
    cases k with
    | zero => simp at hk
    | succ k =>
      have := ih hrest (Nat.le_of_succ_le_succ hk)
      simp [percorrer, hq, this]

theorem percorrer_ant {m : Mem} {cs : List (Nat × Int)} {f l n : Ptr} {k : Nat}
    (h : Seg m f none cs l n) (hk : cs.length ≤ k) :
    percorrer m DNoh.ant k l = some cs.reverse := by
  induction cs using List.reverseRecOn generalizing l n k with
  | nil =>
    obtain ⟨_, hl⟩ := h
    subst hl
    cases k <;> rfl
  | append_singleton cs c ih =>
    rw [Seg_snoc] at h
    obtain ⟨hl, q, hq, hrest⟩ := h
    subst hl
    cases k with
    | zero => simp at hk
    | succ k =>
      have := ih hrest (by simpa using hk)
      simp [percorrer, hq, this]

theorem avancar_Seg {m : Mem} {cs : List (Nat × Int)} {f p lmid mid : Ptr}
    (h : Seg m f p cs lmid mid) : avancar m cs.length f = .ok mid := by
  induction cs generalizing f p with
  | nil =>
    obtain ⟨hf, _⟩ := h
    subst hf
    rfl
  | cons c cs ih =>
    obtain ⟨hf, q, hq, hrest⟩ := h
    subst hf
    simp [avancar, ler, hq, ih hrest]

theorem nos_frente_Repr {m : Mem} {l : ListaDEnc} {cs : List (Nat × Int)}
    (h : Representa m l cs) : nos_frente m l = some cs :=
  percorrer_prox h.1 (Seg_length_le h.1)

theorem nos_tras_Repr {m : Mem} {l : ListaDEnc} {cs : List (Nat × Int)}
    (h : Representa m l cs) : nos_tras m l = some cs.reverse :=
  percorrer_ant h.1 (Seg_length_le h.1)

theorem elementos_Repr {m : Mem} {l : ListaDEnc} {cs : List (Nat × Int)}
    (h : Representa m l cs) : elementos m l = some (cs.map Prod.snd) := by
  simp [elementos, nos_frente_Repr h]

/-! ## Insertion on a represented list -/

theorem inserir_no_inicio_Repr {m : Mem} {l : ListaDEnc} {cs : List (Nat × Int)} (x : Int)
    (h : Representa m l cs) :
    ∃ s, inserir_no_inicio m (some l) x = .ok s ∧ Representa s.mem s.lista ((m.length, x) :: cs) ∧
      s.lista.tam = l.tam + 1 := by
  obtain ⟨hseg, htam⟩ := h
  have hnd := Seg_nodup hseg
  cases cs with
  | nil =>
    obtain ⟨hi, hf⟩ := hseg
    refine ⟨_, by simp [inserir_no_inicio, criar_noh, hi]; rfl, ⟨?_, ?_⟩, rfl⟩
    · exact ⟨rfl, none, consultar_novo m _, rfl, rfl⟩
    · simp [htam]
  | cons c cs =>
    obtain ⟨hi, q, hq, hrest⟩ := hseg
    have hlt := consultar_lt hq
    have hq1 : consultar (m ++ [some { item := x, ant := none, prox := some c.1 }]) c.1 =
        some { item := c.2, ant := none, prox := q } := by
      rw [consultar_append _ hlt]; exact hq
    refine ⟨_, by simp [inserir_no_inicio, criar_noh, hi, modificar, hq1]; rfl, ⟨?_, ?_⟩, rfl⟩
    · refine ⟨rfl, some c.1, ?_, rfl, q, ?_, ?_⟩
      · rw [consultar_set_ne _ (by simp; omega)]
        exact consultar_novo m _
      · exact consultar_set_eq _ (by simp; omega)
      · rw [List.map_cons, List.nodup_cons] at hnd
        refine Seg_set _ _ (fun d hd hdc => hnd.1 ?_) (Seg_novo _ hrest)
        exact List.mem_map.2 ⟨d, hd, hdc⟩
    · simp [htam]

theorem inserir_no_fim_Repr {m : Mem} {l : ListaDEnc} {cs : List (Nat × Int)} (x : Int)
    (h : Representa m l cs) :
    ∃ s, inserir_no_fim m (some l) x = .ok s ∧ Representa s.mem s.lista (cs ++ [(m.length, x)]) ∧
      s.lista.tam = l.tam + 1 := by
  obtain ⟨hseg, htam⟩ := h
  have hnd := Seg_nodup hseg
  induction cs using List.reverseRecOn with
  | nil =>
    obtain ⟨hi, hf⟩ := hseg
    refine ⟨_, by simp [inserir_no_fim, criar_noh, hf]; rfl, ⟨?_, ?_⟩, rfl⟩
    · exact ⟨rfl, none, consultar_novo m _, rfl, rfl⟩
    · simp [htam]
  | append_singleton cs c _ =>
    rw [Seg_snoc] at hseg
    obtain ⟨hf, q, hq, hrest⟩ := hseg
    have hlt := consultar_lt hq
    have hq1 : consultar (m ++ [some { item := x, ant := some c.1, prox := none }]) c.1 =
        some { item := c.2, ant := q, prox := none } := by
      rw [consultar_append _ hlt]; exact hq
    refine ⟨_, by simp [inserir_no_fim, criar_noh, hf, modificar, hq1]; rfl, ⟨?_, ?_⟩, rfl⟩
    · rw [Seg_snoc]
      refine ⟨rfl, some c.1, ?_, ?_⟩
      · rw [consultar_set_ne _ (by simp; omega)]
        exact consultar_novo m _
      · rw [Seg_snoc]
        refine ⟨rfl, q, consultar_set_eq _ (by simp; omega), ?_⟩
        rw [List.map_append, List.nodup_append] at hnd
        refine Seg_set _ _ (fun d hd hdc => ?_) (Seg_novo _ hrest)
        exact hnd.2.2 (List.mem_map.2 ⟨d, hd, rfl⟩) (by simp [hdc])
    · simp [htam]; omega

theorem nodup_sep {pre post : List (Nat × Int)} {c : Nat × Int}
    (hnd : ((pre ++ c :: post).map Prod.fst).Nodup) :
    (∀ e ∈ pre, e.1 ≠ c.1) ∧ (∀ e ∈ post, e.1 ≠ c.1) := by
  rw [List.map_append, List.map_cons, List.nodup_middle, List.nodup_cons] at hnd
  have hno := hnd.1
  constructor
  · intro e he hec
    exact hno (List.mem_append_left _ (List.mem_map.2 ⟨e, he, hec⟩))
  · intro e he hec
    exact hno (List.mem_append_right _ (List.mem_map.2 ⟨e, he, hec⟩))

theorem inserir_meio_Repr {m : Mem} {l : ListaDEnc} {c1 c2 : List (Nat × Int)}
    {b d : Nat × Int} (x : Int) (pos : Int)
    (h : Representa m l (c1 ++ b :: d :: c2)) (hk : pos.toNat = c1.length + 1) :
    ∃ s, inserir m (some l) x pos = .ok s ∧
      Representa s.mem s.lista (c1 ++ b :: (m.length, x) :: d :: c2) ∧
      s.lista.tam = l.tam + 1 := by
  obtain ⟨hseg, htam⟩ := h
  have hnd := Seg_nodup hseg
  have hsplit : Seg m l.inicio none ((c1 ++ [b]) ++ d :: c2) l.fim none := by
    simpa using hseg
  rw [Seg_append] at hsplit
  obtain ⟨mid, lmid, hpre, hsuf⟩ := hsplit
  have hav := avancar_Seg hpre
  rw [Seg_snoc] at hpre
  obtain ⟨hlmid, qb, hb, hc1⟩ := hpre
  obtain ⟨hmid, qd, hd, hc2⟩ := hsuf
  subst hlmid hmid
  obtain ⟨hb1, hb2⟩ := nodup_sep hnd
  have hnd2 : (((c1 ++ [b]) ++ d :: c2).map Prod.fst).Nodup := by simpa using hnd
  obtain ⟨hd1, hd2⟩ := nodup_sep hnd2
  have hbd : b.1 ≠ d.1 := hd1 b (by simp)
  have hbl := consultar_lt hb
  have hdl := consultar_lt hd
  have hp1 : pos ≥ 0 := by omega
  have hp2 : pos ≤ l.tam := by rw [htam]; simp; omega
  have hp3 : pos ≠ 0 := by omega
  have hp4 : pos ≠ l.tam := by rw [htam]; simp; omega
  have hav2 : avancar m pos.toNat l.inicio = .ok (some d.1) := by
    rw [hk]; simpa using hav
  have e1 : consultar (m ++ [some { item := x, ant := some b.1, prox := some d.1 }]) d.1 =
      some { item := d.2, ant := some b.1, prox := qd } := by
    rw [consultar_append _ hdl]; exact hd
  have e2 : consultar (m ++ [some { item := x, ant := some b.1, prox := some d.1 }]) b.1 =
      some { item := b.2, ant := qb, prox := some d.1 } := by
    rw [consultar_append _ hbl]; exact hb
  have e3 : consultar (List.set (m ++ [some { item := x, ant := some b.1, prox := some d.1 }])
      b.1 (some ({ item := b.2, ant := qb, prox := some m.length } : DNoh))) d.1 =
      some { item := d.2, ant := some b.1, prox := qd } := by
    rw [consultar_set_ne _ hbd]; exact e1
  refine ⟨_, by simp [inserir, hp1, hp2, hp3, hp4, hav2, ler, hd, criar_noh, e1, e2, e3,
    modificar]; rfl, ⟨?_, ?_⟩, rfl⟩
  · rw [Seg_append]
    refine ⟨some b.1, qb, ?_, rfl, some m.length, ?_, rfl, some d.1, ?_, rfl, qd, ?_, ?_⟩
    · refine Seg_set _ _ (fun c hc hcd => ?_) (Seg_set _ _ (fun c hc hcb => ?_) (Seg_novo _ hc1))
      · exact hd1 c (by simp [hc]) hcd
      · exact hb1 c hc hcb
    · rw [consultar_set_ne _ (Ne.symm hbd)]
      exact consultar_set_eq _ (by simp; omega)
    · rw [consultar_set_ne _ (by simp; omega), consultar_set_ne _ (by simp; omega)]
      exact consultar_novo m _
    · exact consultar_set_eq _ (by simp; omega)
    · refine Seg_set _ _ (fun c hc hcd => ?_) (Seg_set _ _ (fun c hc hcb => ?_) (Seg_novo _ hc2))
      · exact hd2 c hc hcd
      · exact hb2 c (by simp [hc]) hcb
  · simp [htam]; omega

/-! ## Removal on a represented list -/

theorem Repr_inicio_ne {m : Mem} {l : ListaDEnc} {cs : List (Nat × Int)}
    (h : Representa m l cs) (hne : cs ≠ []) : l.inicio ≠ none := by
  cases cs with
  | nil => exact absurd rfl hne
  | cons c cs =>
    obtain ⟨⟨hi, _⟩, _⟩ := h
    rw [hi]
    exact Option.some_ne_none _

theorem remover_inicio_Repr {m : Mem} {l : ListaDEnc} {c : Nat × Int} {cs : List (Nat × Int)}
    (h : Representa m l (c :: cs)) :
    ∃ s, remover_inicio m (some l) = .ok (s, c.2) ∧ Representa s.mem s.lista cs ∧
      s.lista.tam = l.tam - 1 := by
  obtain ⟨hseg, htam⟩ := h
  have hnd := Seg_nodup hseg
  obtain ⟨_, hc2⟩ := @nodup_sep [] _ _ hnd
  obtain ⟨hi, q, hq, hrest⟩ := hseg
  have hcl := consultar_lt hq
  cases cs with
  | nil =>
    obtain ⟨hqn, hf⟩ := hrest
    subst hqn
    refine ⟨_, by simp [remover_inicio, hi, ler, hq, apagar]; rfl, ⟨?_, ?_⟩, rfl⟩
    · exact ⟨rfl, rfl⟩
    · simp [htam]
  | cons d ds =>
    have hnd2 : (((([] : List (Nat × Int)) ++ [c]) ++ d :: ds).map Prod.fst).Nodup := by
      simpa using hnd
    obtain ⟨hd1, hd2⟩ := nodup_sep hnd2
    have hcd : c.1 ≠ d.1 := hd1 c (by simp)
    obtain ⟨hqd, q2, hq2, hrest2⟩ := hrest
    subst hqd
    have hdl := consultar_lt hq2
    have e1 : consultar (List.set m d.1 (some ({ item := d.2, ant := none, prox := q2 } : DNoh)))
        c.1 = some { item := c.2, ant := none, prox := some d.1 } := by
      rw [consultar_set_ne _ (Ne.symm hcd)]; exact hq
    refine ⟨_, by simp [remover_inicio, hi, ler, hq, modificar, hq2, e1, apagar]; rfl,
      ⟨?_, ?_⟩, rfl⟩
    · refine ⟨rfl, q2, ?_, ?_⟩
      · rw [consultar_set_ne _ hcd]
        exact consultar_set_eq _ hdl
      · exact Seg_set _ _ (fun e he hec => hc2 e (by simp [he]) hec)
          (Seg_set _ _ (fun e he hed => hd2 e he hed) hrest2)
    · simp [htam]

theorem remover_fim_Repr {m : Mem} {l : ListaDEnc} {c : Nat × Int} {cs : List (Nat × Int)}
    (h : Representa m l (cs ++ [c])) :
    ∃ s, remover_fim m (some l) = .ok (s, c.2) ∧ Representa s.mem s.lista cs ∧
      s.lista.tam = l.tam - 1 := by
  have hine := Repr_inicio_ne h (by simp)
  obtain ⟨hseg, htam⟩ := h
  have hnd := Seg_nodup hseg
  obtain ⟨hc1, _⟩ := nodup_sep hnd
  rw [Seg_snoc] at hseg
  obtain ⟨hf, q, hq, hrest⟩ := hseg
  have hcl := consultar_lt hq
  induction cs using List.reverseRecOn with
  | nil =>
    obtain ⟨hi, hqn⟩ := hrest
    subst hqn
    refine ⟨_, by simp [remover_fim, hine, hf, ler, hq, apagar]; rfl, ⟨?_, ?_⟩, rfl⟩
    · exact ⟨rfl, rfl⟩
    · simp [htam]
  | append_singleton ds d _ =>
    obtain ⟨hd1, _⟩ := @nodup_sep _ [c] _ (by simpa using hnd)
    have hcd : c.1 ≠ d.1 := Ne.symm (hc1 d (by simp))
    rw [Seg_snoc] at hrest
    obtain ⟨hqd, q2, hq2, hrest2⟩ := hrest
    subst hqd
    have hdl := consultar_lt hq2
    have e1 : consultar (List.set m d.1 (some ({ item := d.2, ant := q2, prox := none } : DNoh)))
        c.1 = some { item := c.2, ant := some d.1, prox := none } := by
      rw [consultar_set_ne _ (Ne.symm hcd)]; exact hq
    refine ⟨_, by simp [remover_fim, hine, hf, ler, hq, modificar, hq2, e1, apagar]; rfl,
      ⟨?_, ?_⟩, rfl⟩
    · rw [Seg_snoc]
      refine ⟨rfl, q2, ?_, ?_⟩
      · rw [consultar_set_ne _ hcd]
        exact consultar_set_eq _ hdl
      · exact Seg_set _ _ (fun e he hec => hc1 e (by simp [he]) hec)
          (Seg_set _ _ (fun e he hed => hd1 e he hed) hrest2)
    · simp [htam]; omega

theorem remover_meio_Repr {m : Mem} {l : ListaDEnc} {c1 c2 : List (Nat × Int)}
    {b d e : Nat × Int} (pos : Int)
    (h : Representa m l (c1 ++ b :: d :: e :: c2)) (hk : pos.toNat = c1.length + 1) :
    ∃ s, remover m (some l) pos = .ok (s, d.2) ∧ Representa s.mem s.lista (c1 ++ b :: e :: c2) ∧
      s.lista.tam = l.tam - 1 := by
  have hine := Repr_inicio_ne h (by simp)
  obtain ⟨hseg, htam⟩ := h
  have hnd := Seg_nodup hseg
  have hsplit : Seg m l.inicio none ((c1 ++ [b]) ++ d :: e :: c2) l.fim none := by
    simpa using hseg
  rw [Seg_append] at hsplit
  obtain ⟨mid, lmid, hpre, hsuf⟩ := hsplit
  have hav := avancar_Seg hpre
  rw [Seg_snoc] at hpre
  obtain ⟨hlmid, qb, hb, hc1⟩ := hpre
  obtain ⟨hmid, qd, hd, hqe, qe, he, hc2⟩ := hsuf
  subst hlmid hmid hqe
  obtain ⟨hb1, hb2⟩ := nodup_sep hnd
  have hnd2 : (((c1 ++ [b]) ++ d :: e :: c2).map Prod.fst).Nodup := by simpa using hnd
  obtain ⟨hd1, hd2⟩ := nodup_sep hnd2
  have hnd3 : (((c1 ++ [b, d]) ++ e :: c2).map Prod.fst).Nodup := by simpa using hnd
  obtain ⟨he1, he2⟩ := nodup_sep hnd3
  have hbd : b.1 ≠ d.1 := hd1 b (by simp)
  have hbe : b.1 ≠ e.1 := he1 b (by simp)
  have hde : d.1 ≠ e.1 := he1 d (by simp)
  have hbl := consultar_lt hb
  have hdl := consultar_lt hd
  have hel := consultar_lt he
  have hp1 : pos ≥ 0 := by omega
  have hp2 : pos < l.tam := by rw [htam]; simp; omega
  have hp3 : pos ≠ 0 := by omega
  have hp4 : pos ≠ l.tam - 1 := by rw [htam]; simp; omega
  have hav2 : avancar m pos.toNat l.inicio = .ok (some d.1) := by
    rw [hk]; simpa using hav
  have e1 : consultar (List.set m b.1 (some ({ item := b.2, ant := qb, prox := some e.1 } : DNoh)))
      d.1 = some { item := d.2, ant := some b.1, prox := some e.1 } := by
    rw [consultar_set_ne _ hbd]; exact hd
  have e2 : consultar (List.set m b.1 (some ({ item := b.2, ant := qb, prox := some e.1 } : DNoh)))
      e.1 = some { item := e.2, ant := some d.1, prox := qe } := by
    rw [consultar_set_ne _ hbe]; exact he
  have e3 : consultar (List.set (List.set m b.1
      (some ({ item := b.2, ant := qb, prox := some e.1 } : DNoh))) e.1
      (some ({ item := e.2, ant := some b.1, prox := qe } : DNoh)))
      d.1 = some { item := d.2, ant := some b.1, prox := some e.1 } := by
    rw [consultar_set_ne _ (Ne.symm hde)]; exact e1
  refine ⟨_, by simp [remover, hp1, hp2, hp3, hp4, hine, hav2, ler, hd, hb, e1, e2, e3,
    modificar, apagar]; rfl, ⟨?_, ?_⟩, rfl⟩
  · rw [Seg_append]
    refine ⟨some b.1, qb, ?_, rfl, some e.1, ?_, rfl, qe, ?_, ?_⟩
    · refine Seg_set _ _ (fun c hc hcd => hd1 c (by simp [hc]) hcd) (Seg_set _ _
        (fun c hc hce => he1 c (by simp [hc]) hce) (Seg_set _ _ (fun c hc hcb => hb1 c hc hcb) hc1))
    · rw [consultar_set_ne _ (Ne.symm hbd), consultar_set_ne _ (Ne.symm hbe)]
      exact consultar_set_eq _ hbl
    · rw [consultar_set_ne _ hde]
      exact consultar_set_eq _ (by simp; omega)
    · refine Seg_set _ _ (fun c hc hcd => hd2 c (by simp [hc]) hcd) (Seg_set _ _
        (fun c hc hce => he2 c hc hce) (Seg_set _ _ (fun c hc hcb => hb2 c (by simp [hc]) hcb) hc2))
  · simp [htam]; omega

/-! ## Reads on a represented list -/

theorem obter_inicio_Repr {m : Mem} {l : ListaDEnc} {c : Nat × Int} {cs : List (Nat × Int)}
    (h : Representa m l (c :: cs)) : obter_inicio m (some l) = .ok c.2 := by
  obtain ⟨⟨hi, q, hq, _⟩, _⟩ := h
  simp [obter_inicio, hi, ler, hq]

theorem obter_fim_Repr {m : Mem} {l : ListaDEnc} {c : Nat × Int} {cs : List (Nat × Int)}
    (h : Representa m l (cs ++ [c])) : obter_fim m (some l) = .ok c.2 := by
  have hine := Repr_inicio_ne h (by simp)
  obtain ⟨hseg, _⟩ := h
  rw [Seg_snoc] at hseg
  obtain ⟨hf, q, hq, _⟩ := hseg
  simp [obter_fim, hine, hf, ler, hq]

theorem obter_meio_Repr {m : Mem} {l : ListaDEnc} {c1 c2 : List (Nat × Int)}
    {d : Nat × Int} (pos : Int)
    (h : Representa m l (c1 ++ d :: c2)) (hk : pos = (c1.length : Int))
    (h0 : pos ≠ 0) (hu : pos ≠ l.tam - 1) :
    obter_elemento m (some l) pos = .ok d.2 := by
  have hine := Repr_inicio_ne h (by simp)
  obtain ⟨hseg, htam⟩ := h
  rw [Seg_append] at hseg
  obtain ⟨mid, lmid, hpre, hmid, qd, hd, _⟩ := hseg
  subst hmid
  have hav := avancar_Seg hpre
  have hk2 : pos.toNat = c1.length := by omega
  rw [← hk2] at hav
  have hp1 : pos ≥ 0 := by omega
  have hp2 : pos < l.tam := by rw [htam]; simp; omega
  simp [obter_elemento, hp1, hp2, h0, hu, hine, hav, ler, hd]

/-! ## Positional operations on a represented list -/

/-- Split of a list at an interior index `k`: the part before ends in some `b`, the
part from `k` onwards starts with some `d`. -/
theorem split_meio {α : Type} (cs : List α) (k : Nat) (h0 : 0 < k) (hk : k < cs.length) :
    ∃ c1 b d c2, cs = c1 ++ b :: d :: c2 ∧ c1.length + 1 = k := by
  have htd := List.take_append_drop k cs
  rcases List.eq_nil_or_concat (cs.take k) with hnil | ⟨c1, b, hc1⟩
  · have := congrArg List.length hnil
    rw [List.length_take, List.length_nil] at this
    omega
  · rw [List.concat_eq_append] at hc1
    cases hdr : cs.drop k with
    | nil =>
      have := congrArg List.length hdr
      rw [List.length_drop, List.length_nil] at this
      omega
    | cons d c2 =>
      refine ⟨c1, b, d, c2, ?_, ?_⟩
      · rw [← htd, hc1, hdr]; simp
      · have := congrArg List.length hc1
        rw [List.length_take, List.length_append, List.length_singleton] at this
        omega

theorem inserir_Repr {m : Mem} {l : ListaDEnc} {cs : List (Nat × Int)} (x : Int) (pos : Int)
    (h : Representa m l cs) (h0 : 0 ≤ pos) (hu : pos ≤ l.tam) :
    ∃ s, inserir m (some l) x pos = .ok s ∧
      Representa s.mem s.lista (cs.take pos.toNat ++ (m.length, x) :: cs.drop pos.toNat) ∧
      s.lista.tam = l.tam + 1 := by
  have htam := h.2
  by_cases hz : pos = 0
  · subst hz
    obtain ⟨s, hs, hr, ht⟩ := inserir_no_inicio_Repr x h
    exact ⟨s, by simpa [inserir, hu] using hs, by simpa using hr, ht⟩
  · by_cases he : pos = l.tam
    · obtain ⟨s, hs, hr, ht⟩ := inserir_no_fim_Repr x h
      have hk : pos.toNat = cs.length := by omega
      refine ⟨s, ?_, ?_, ht⟩
      · have hneg : ¬ l.tam < 0 := by omega
        have hz2 : ¬ l.tam = 0 := by omega
        rw [← hs]; simp [inserir, he, hneg, hz2]
      · rw [hk]; simpa using hr
    · obtain ⟨c1, b, d, c2, hcs, hlen⟩ := split_meio cs pos.toNat (by omega) (by omega)
      subst hcs
      obtain ⟨s, hs, hr, ht⟩ := inserir_meio_Repr x pos h hlen.symm
      refine ⟨s, hs, ?_, ht⟩
      have e1 : (c1 ++ b :: d :: c2).take pos.toNat = c1 ++ [b] := by
        rw [← hlen]
        have : c1 ++ b :: d :: c2 = (c1 ++ [b]) ++ d :: c2 := by simp
        rw [this, List.take_left' (by simp)]
      have e2 : (c1 ++ b :: d :: c2).drop pos.toNat = d :: c2 := by
        rw [← hlen]
        have : c1 ++ b :: d :: c2 = (c1 ++ [b]) ++ d :: c2 := by simp
        rw [this, List.drop_left' (by simp)]
      rw [e1, e2]
      simpa using hr

theorem remover_Repr {m : Mem} {l : ListaDEnc} {cs : List (Nat × Int)} (pos : Int)
    (h : Representa m l cs) (h0 : 0 ≤ pos) (hu : pos < l.tam) :
    ∃ s c, cs[pos.toNat]? = some c ∧ remover m (some l) pos = .ok (s, c.2) ∧
      Representa s.mem s.lista (cs.eraseIdx pos.toNat) ∧ s.lista.tam = l.tam - 1 := by
  have htam := h.2
  have hne : cs ≠ [] := by
    intro hnil
    subst hnil
    simp at htam
    omega
  have hine := Repr_inicio_ne h hne
  by_cases hz : pos = 0
  · subst hz
    cases cs with
    | nil => exact absurd rfl hne
    | cons c cs =>
      obtain ⟨s, hs, hr, ht⟩ := remover_inicio_Repr h
      exact ⟨s, c, by simp, by simpa [remover, hu, hine] using hs, by simpa using hr, ht⟩
  · by_cases he : pos = l.tam - 1
    · rcases List.eq_nil_or_concat cs with hnil | ⟨ds, c, hcs⟩
      · exact absurd hnil hne
      · rw [List.concat_eq_append] at hcs
        subst hcs
        obtain ⟨s, hs, hr, ht⟩ := remover_fim_Repr h
        have hk : pos.toNat = ds.length := by simp at htam; omega
        refine ⟨s, c, ?_, ?_, ?_, ht⟩
        · rw [hk]; simp
        · have hneg : ¬ l.tam < 1 := by omega
          have hz2 : ¬ l.tam - 1 = 0 := by omega
          rw [← hs]; simp [remover, he, hneg, hz2, hine]
        · rw [hk, List.eraseIdx_append_of_length_le (Nat.le_refl _)]
          simpa using hr
    · obtain ⟨c1, b, d, c2, hcs, hlen⟩ := split_meio cs pos.toNat (by omega) (by omega)
      subst hcs
      cases c2 with
      | nil => simp at htam; omega
      | cons e c2 =>
        obtain ⟨s, hs, hr, ht⟩ := remover_meio_Repr pos h hlen.symm
        have hsp : c1 ++ b :: d :: e :: c2 = (c1 ++ [b]) ++ d :: e :: c2 := by simp
        refine ⟨s, d, ?_, hs, ?_, ht⟩
        · rw [← hlen, hsp, List.getElem?_append_right (by simp)]
          simp
        · rw [← hlen, hsp, List.eraseIdx_append_of_length_le (by simp)]
          simpa using hr

theorem obter_Repr {m : Mem} {l : ListaDEnc} {cs : List (Nat × Int)} (pos : Int)
    (h : Representa m l cs) (h0 : 0 ≤ pos) (hu : pos < l.tam) :
    ∃ c, cs[pos.toNat]? = some c ∧ obter_elemento m (some l) pos = .ok c.2 := by
  have htam := h.2
  have hne : cs ≠ [] := by
    intro hnil
    subst hnil
    simp at htam
    omega
  have hine := Repr_inicio_ne h hne
  by_cases hz : pos = 0
  · subst hz
    cases cs with
    | nil => exact absurd rfl hne
    | cons c cs =>
      exact ⟨c, by simp, by simpa [obter_elemento, hu, hine] using obter_inicio_Repr h⟩
  · by_cases he : pos = l.tam - 1
    · rcases List.eq_nil_or_concat cs with hnil | ⟨ds, c, hcs⟩
      · exact absurd hnil hne
      · rw [List.concat_eq_append] at hcs
        subst hcs
        have hk : pos.toNat = ds.length := by simp at htam; omega
        refine ⟨c, ?_, ?_⟩
        · rw [hk]; simp
        · have hneg : ¬ l.tam < 1 := by omega
          have hz2 : ¬ l.tam - 1 = 0 := by omega
          rw [← obter_fim_Repr h]; simp [obter_elemento, he, hneg, hz2, hine]
    · have hlt : pos.toNat < cs.length := by omega
      have hsp : cs = cs.take pos.toNat ++ cs[pos.toNat] :: cs.drop (pos.toNat + 1) := by
        rw [← List.drop_eq_getElem_cons hlt, List.take_append_drop]
      refine ⟨cs[pos.toNat], by simp [hlt], ?_⟩
      rw [hsp] at h
      refine obter_meio_Repr pos h ?_ hz ?_
      · simp [List.length_take]; omega
      · rw [htam] at he; rw [h.2]; simp [List.length_take]; omega

theorem map_eraseIdx {α β : Type} (f : α → β) (l : List α) (k : Nat) :
    (l.eraseIdx k).map f = (l.map f).eraseIdx k := by
  induction l generalizing k with
  | nil => rfl
  | cons a l ih =>
    cases k with
    | zero => rfl
    | succ k => simp [List.eraseIdx, ih]

theorem BemFormada_elementos {m : Mem} {l : ListaDEnc} {L : List Int}
    (hwf : BemFormada m l) (hL : elementos m l = some L) :
    ∃ cs, Representa m l cs ∧ cs.map Prod.snd = L := by
  obtain ⟨cs, hcs⟩ := hwf
  rw [elementos_Repr hcs] at hL
  exact ⟨cs, hcs, Option.some.inj hL⟩

/-! ## Concrete two-element list used to exercise the theorems -/

theorem exemplo_Representa :
    Representa [some { item := 10, ant := none, prox := some 1 },
      some { item := 20, ant := some 0, prox := none }]
      { inicio := some 0, fim := some 1, tam := 2 } [(0, 10), (1, 20)] :=
  ⟨⟨rfl, some 1, rfl, rfl, none, rfl, rfl, rfl⟩, rfl⟩

/-! ## Positional insertion, removal and access -/

/-- C1: on a well-formed list whose element sequence is `L`, `inserir` at a position
`0 ≤ pos ≤ tam` returns, leaves a well-formed list, and the new element sequence is the
first `pos` elements of `L`, then the item, then the remaining elements of `L`. -/
theorem inserir_sequencia (m : Mem) (l : ListaDEnc) (L : List Int) (x pos : Int)
    (hwf : BemFormada m l) (hL : elementos m l = some L) (h0 : 0 ≤ pos) (hu : pos ≤ l.tam) :
    ∃ s, inserir m (some l) x pos = .ok s ∧ BemFormada s.mem s.lista ∧
      elementos s.mem s.lista = some (L.take pos.toNat ++ [x] ++ L.drop pos.toNat) := by
  obtain ⟨cs, hcs, hmap⟩ := BemFormada_elementos hwf hL
  obtain ⟨s, hs, hr, _⟩ := inserir_Repr x pos hcs h0 hu
  refine ⟨s, hs, ⟨_, hr⟩, ?_⟩
  rw [elementos_Repr hr, ← hmap]
  simp [List.map_take, List.map_drop]

theorem inserir_sequencia_witness :
    ∃ s, inserir [some { item := 10, ant := none, prox := some 1 },
        some { item := 20, ant := some 0, prox := none }]
        (some { inicio := some 0, fim := some 1, tam := 2 }) 15 1 = .ok s ∧
      BemFormada s.mem s.lista ∧
      elementos s.mem s.lista = some ([10, 20].take (1 : Int).toNat ++ [15] ++
        [10, 20].drop (1 : Int).toNat) :=
  inserir_sequencia _ _ [10, 20] 15 1 ⟨_, exemplo_Representa⟩ (by decide) (by decide)
    (by decide)

/-- C2: on a well-formed list whose element sequence is `L`, `remover` at a position
`0 ≤ pos < tam` returns `L[pos]`, leaves a well-formed list, and the new element
sequence is `L` with the element at index `pos` erased. -/
theorem remover_sequencia (m : Mem) (l : ListaDEnc) (L : List Int) (pos : Int)
    (hwf : BemFormada m l) (hL : elementos m l = some L) (h0 : 0 ≤ pos) (hu : pos < l.tam) :
    ∃ s x, remover m (some l) pos = .ok (s, x) ∧ L[pos.toNat]? = some x ∧
      BemFormada s.mem s.lista ∧ elementos s.mem s.lista = some (L.eraseIdx pos.toNat) := by
  obtain ⟨cs, hcs, hmap⟩ := BemFormada_elementos hwf hL
  obtain ⟨s, c, hc, hs, hr, _⟩ := remover_Repr pos hcs h0 hu
  refine ⟨s, c.2, hs, ?_, ⟨_, hr⟩, ?_⟩
  · rw [← hmap, List.getElem?_map, hc]; rfl
  · rw [elementos_Repr hr, ← hmap, map_eraseIdx]

theorem remover_sequencia_witness :
    ∃ s x, remover [some { item := 10, ant := none, prox := some 1 },
        some { item := 20, ant := some 0, prox := none }]
        (some { inicio := some 0, fim := some 1, tam := 2 }) 1 = .ok (s, x) ∧
      [10, 20][(1 : Int).toNat]? = some x ∧
      BemFormada s.mem s.lista ∧
      elementos s.mem s.lista = some ([10, 20].eraseIdx (1 : Int).toNat) :=
  remover_sequencia _ _ [10, 20] 1 ⟨_, exemplo_Representa⟩ (by decide) (by decide)
    (by decide)

/-- C3: on a well-formed list whose element sequence is `L`, `obter_elemento` at a
position `0 ≤ pos < tam` returns `L[pos]`, whichever of its three branches answers. -/
theorem obter_elemento_indice (m : Mem) (l : ListaDEnc) (L : List Int) (pos : Int)
    (hwf : BemFormada m l) (hL : elementos m l = some L) (h0 : 0 ≤ pos) (hu : pos < l.tam) :
    ∃ x, obter_elemento m (some l) pos = .ok x ∧ L[pos.toNat]? = some x := by
  obtain ⟨cs, hcs, hmap⟩ := BemFormada_elementos hwf hL
  obtain ⟨c, hc, hs⟩ := obter_Repr pos hcs h0 hu
  refine ⟨c.2, hs, ?_⟩
  rw [← hmap, List.getElem?_map, hc]; rfl

theorem obter_elemento_indice_witness :
    ∃ x, obter_elemento [some { item := 10, ant := none, prox := some 1 },
        some { item := 20, ant := some 0, prox := none }]
        (some { inicio := some 0, fim := some 1, tam := 2 }) 1 = .ok x ∧
      [10, 20][(1 : Int).toNat]? = some x :=
  obter_elemento_indice _ _ [10, 20] 1 ⟨_, exemplo_Representa⟩ (by decide) (by decide)
    (by decide)

/-! ## Sequences of calls -/

theorem aplicar_Repr {s : Estado} {cs : List (Nat × Int)} (op : Op)
    (h : Representa s.mem s.lista cs) (hp : op.pre s.lista.tam) :
    ∃ s1 cs1, op.aplicar s = .ok s1 ∧ Representa s1.mem s1.lista cs1 ∧
      s1.lista.tam = op.depois s.lista.tam := by
  cases op with
  | inserir item pos =>
    obtain ⟨s1, hs, hr, ht⟩ := inserir_Repr item pos h hp.1 hp.2
    exact ⟨s1, _, hs, hr, by simpa [Op.depois, Op.insere] using ht⟩
  | inserir_no_inicio item =>
    obtain ⟨s1, hs, hr, ht⟩ := inserir_no_inicio_Repr item h
    exact ⟨s1, _, hs, hr, by simpa [Op.depois, Op.insere] using ht⟩
  | inserir_no_fim item =>
    obtain ⟨s1, hs, hr, ht⟩ := inserir_no_fim_Repr item h
    exact ⟨s1, _, hs, hr, by simpa [Op.depois, Op.insere] using ht⟩
  | remover pos =>
    obtain ⟨s1, c, _, hs, hr, ht⟩ := remover_Repr pos h hp.2.1 hp.2.2
    exact ⟨s1, _, by simp [Op.aplicar, hs], hr, by simpa [Op.depois, Op.insere] using ht⟩
  | remover_inicio =>
    have hp0 : 0 < s.lista.tam := hp
    have htam := h.2
    cases cs with
    | nil => simp at htam; omega
    | cons c cs =>
      obtain ⟨s1, hs, hr, ht⟩ := remover_inicio_Repr h
      exact ⟨s1, _, by simp [Op.aplicar, hs], hr, by simpa [Op.depois, Op.insere] using ht⟩
  | remover_fim =>
    have hp0 : 0 < s.lista.tam := hp
    have htam := h.2
    rcases List.eq_nil_or_concat cs with hnil | ⟨ds, c, hcs⟩
    · subst hnil; simp at htam; omega
    · rw [List.concat_eq_append] at hcs
      subst hcs
      obtain ⟨s1, hs, hr, ht⟩ := remover_fim_Repr h
      exact ⟨s1, _, by simp [Op.aplicar, hs], hr, by simpa [Op.depois, Op.insere] using ht⟩

theorem executar_Repr {s : Estado} {cs : List (Nat × Int)} (ops : List Op)
    (h : Representa s.mem s.lista cs) (hv : validas s.lista.tam ops) :
    ∃ s1 cs1, executar s ops = .ok s1 ∧ Representa s1.mem s1.lista cs1 ∧
      s1.lista.tam = s.lista.tam + (ops.countP Op.insere : Int) -
        (ops.countP (fun op => !op.insere) : Int) := by
  induction ops generalizing s cs with
  | nil => exact ⟨s, cs, rfl, h, by simp⟩
  | cons op ops ih =>
    obtain ⟨hp, hrest⟩ := hv
    obtain ⟨s1, cs1, hs1, hr1, ht1⟩ := aplicar_Repr op h hp
    rw [← ht1] at hrest
    obtain ⟨s2, cs2, hs2, hr2, ht2⟩ := ih hr1 hrest
    refine ⟨s2, cs2, by simp [executar, hs1, hs2], hr2, ?_⟩
    rw [ht2, ht1]
    cases hop : op.insere <;> simp [Op.depois, hop, List.countP_cons] <;> omega

theorem Representa_inicial (m0 : Mem) : Representa (inicial m0).mem (inicial m0).lista [] :=
  ⟨⟨rfl, rfl⟩, rfl⟩

theorem Representa_vazio {m : Mem} {l : ListaDEnc} {cs : List (Nat × Int)}
    (h : Representa m l cs) :
    (l.tam = 0 ↔ l.inicio = none) ∧ (l.inicio = none ↔ l.fim = none) := by
  rcases List.eq_nil_or_concat cs with hnil | ⟨ds, c, hcs⟩
  · subst hnil
    obtain ⟨⟨hi, hf⟩, ht⟩ := h
    simp [hi, hf, ht]
  · rw [List.concat_eq_append] at hcs
    subst hcs
    have hine := Repr_inicio_ne h (by simp)
    obtain ⟨hseg, ht⟩ := h
    rw [Seg_snoc] at hseg
    obtain ⟨hf, _⟩ := hseg
    have hne : l.tam ≠ 0 := by rw [ht]; simp; omega
    simp [hine, hf, hne]

/-- C4: every precondition-respecting sequence of calls on a fresh list runs to the
end, and in the state it reaches `tam == 0` iff `inicio` is `NULL` iff `fim` is `NULL`. -/
theorem invariante_vazio (m0 : Mem) (ops : List Op) (hv : validas 0 ops) :
    ∃ s, executar (inicial m0) ops = .ok s ∧
      (s.lista.tam = 0 ↔ s.lista.inicio = none) ∧
      (s.lista.inicio = none ↔ s.lista.fim = none) := by
  obtain ⟨s, cs, hs, hr, _⟩ := executar_Repr ops (Representa_inicial m0) hv
  exact ⟨s, hs, Representa_vazio hr⟩

theorem invariante_vazio_witness :
    ∃ s, executar (inicial [])
        [.inserir 10 0, .inserir_no_fim 20, .inserir 15 1, .remover 1, .remover_inicio] = .ok s ∧
      (s.lista.tam = 0 ↔ s.lista.inicio = none) ∧
      (s.lista.inicio = none ↔ s.lista.fim = none) :=
  invariante_vazio []
    [.inserir 10 0, .inserir_no_fim 20, .inserir 15 1, .remover 1, .remover_inicio]
    (by simp [validas, Op.pre, Op.depois, Op.insere])

theorem aplicar_ok_pre {s s1 : Estado} {cs : List (Nat × Int)} (op : Op)
    (h : Representa s.mem s.lista cs) (hs : op.aplicar s = .ok s1) : op.pre s.lista.tam := by
  have htam := h.2
  have hvz := (Representa_vazio h).1
  have hpos : 0 ≤ s.lista.tam := by rw [htam]; simp
  cases op with
  | inserir item pos =>
    by_contra hneg
    have hneg2 : ¬ (pos ≥ 0 ∧ pos ≤ s.lista.tam) := hneg
    simp [Op.aplicar, inserir, hneg2] at hs
  | inserir_no_inicio item => trivial
  | inserir_no_fim item => trivial
  | remover pos =>
    by_cases hr : pos ≥ 0 ∧ pos < s.lista.tam
    · exact ⟨by omega, hr.1, hr.2⟩
    · simp [Op.aplicar, remover, hr] at hs
  | remover_inicio =>
    by_contra hneg
    have hz : s.lista.tam = 0 := by
      have : ¬ 0 < s.lista.tam := hneg
      omega
    simp [Op.aplicar, remover_inicio, hvz.1 hz] at hs
  | remover_fim =>
    by_contra hneg
    have hz : s.lista.tam = 0 := by
      have : ¬ 0 < s.lista.tam := hneg
      omega
    simp [Op.aplicar, remover_fim, hvz.1 hz] at hs

/-- A run that reaches its end without aborting was a precondition-respecting one. -/
theorem executar_ok_validas {s s1 : Estado} {cs : List (Nat × Int)} (ops : List Op)
    (h : Representa s.mem s.lista cs) (hs : executar s ops = .ok s1) :
    validas s.lista.tam ops := by
  induction ops generalizing s cs with
  | nil => trivial
  | cons op ops ih =>
    cases hop : op.aplicar s with
    | error e => simp [executar, hop] at hs
    | ok s2 =>
      have hp := aplicar_ok_pre op h hop
      obtain ⟨s3, cs3, hs3, hr3, ht3⟩ := aplicar_Repr op h hp
      rw [hop] at hs3
      cases hs3
      refine ⟨hp, ?_⟩
      rw [← ht3]
      exact ih hr3 (by simpa [executar, hop] using hs)

theorem Seg_adjacente {m : Mem} {cs : List (Nat × Int)} {f p l n : Ptr}
    (h : Seg m f p cs l n) (i : Nat) (b d : Nat × Int)
    (hb : cs[i]? = some b) (hd : cs[i + 1]? = some d) :
    ∃ nb nd, consultar m b.1 = some nb ∧ consultar m d.1 = some nd ∧
      nd.ant = some b.1 ∧ nb.prox = some d.1 := by
  induction cs generalizing f p i with
  | nil => simp at hb
  | cons c cs ih =>
    obtain ⟨_, q, hq, hrest⟩ := h
    cases i with
    | zero =>
      simp at hb
      subst hb
      cases cs with
      | nil => simp at hd
      | cons e es =>
        simp at hd
        subst hd
        obtain ⟨hqe, q2, hq2, _⟩ := hrest
        subst hqe
        exact ⟨_, _, hq, hq2, rfl, rfl⟩
    | succ i =>
      exact ih hrest i (by simpa using hb) (by simpa using hd)

/-- C5: every precondition-respecting sequence of calls on a fresh list runs to the
end, and in the state it reaches `tam` is the number of nodes met walking `prox` from
`inicio`; when `tam > 0` the last of them is `fim`, `fim->prox` is `NULL`, and `tam`
steps of `prox` from `inicio` end on `NULL`. -/
theorem invariante_tamanho (m0 : Mem) (ops : List Op) (hv : validas 0 ops) :
    ∃ s cs, executar (inicial m0) ops = .ok s ∧ nos_frente s.mem s.lista = some cs ∧
      s.lista.tam = cs.length ∧
      (0 < s.lista.tam →
        s.lista.fim = cs.getLast?.map Prod.fst ∧
        (∃ n, ler s.mem s.lista.fim = .ok n ∧ n.prox = none) ∧
        avancar s.mem (s.lista.tam.toNat - 1) s.lista.inicio = .ok s.lista.fim ∧
        avancar s.mem s.lista.tam.toNat s.lista.inicio = .ok none) := by
  obtain ⟨s, cs, hs, hr, _⟩ := executar_Repr ops (Representa_inicial m0) hv
  refine ⟨s, cs, hs, nos_frente_Repr hr, hr.2, fun hpos => ?_⟩
  have htam := hr.2
  have hall : avancar s.mem s.lista.tam.toNat s.lista.inicio = .ok none := by
    rw [htam]; simpa using avancar_Seg hr.1
  rcases List.eq_nil_or_concat cs with hnil | ⟨ds, c, hcs⟩
  · subst hnil; simp at htam; omega
  · rw [List.concat_eq_append] at hcs
    subst hcs
    obtain ⟨hseg, _⟩ := hr
    rw [Seg_snoc] at hseg
    obtain ⟨hf, q, hq, hpre⟩ := hseg
    refine ⟨by simp [hf], ⟨⟨c.2, q, none⟩, by simp [hf, ler, hq], rfl⟩, ?_, hall⟩
    have hk : s.lista.tam.toNat - 1 = ds.length := by rw [htam]; simp
    rw [hk, hf]
    exact avancar_Seg hpre

theorem invariante_tamanho_witness :
    ∃ s cs, executar (inicial [])
        [.inserir 10 0, .inserir_no_fim 20, .inserir 15 1, .remover 1] = .ok s ∧
      nos_frente s.mem s.lista = some cs ∧ s.lista.tam = cs.length ∧
      (0 < s.lista.tam →
        s.lista.fim = cs.getLast?.map Prod.fst ∧
        (∃ n, ler s.mem s.lista.fim = .ok n ∧ n.prox = none) ∧
        avancar s.mem (s.lista.tam.toNat - 1) s.lista.inicio = .ok s.lista.fim ∧
        avancar s.mem s.lista.tam.toNat s.lista.inicio = .ok none) :=
  invariante_tamanho [] [.inserir 10 0, .inserir_no_fim 20, .inserir 15 1, .remover 1]
    (by simp [validas, Op.pre, Op.depois, Op.insere])

/-- C6: every precondition-respecting sequence of calls on a fresh list runs to the
end, and in the state it reaches any two nodes that follow one another in the walk along
`prox` from `inicio` point at each other (`n->ant == p` and `p->prox == n`),
`inicio->ant` and `fim->prox` are `NULL`, and the walk along `ant` from `fim` is the
reverse of the walk along `prox` from `inicio`. -/
theorem invariante_ligacoes (m0 : Mem) (ops : List Op) (hv : validas 0 ops) :
    ∃ s cs, executar (inicial m0) ops = .ok s ∧ nos_frente s.mem s.lista = some cs ∧
      (∀ (i : Nat) (p n : Nat × Int), cs[i]? = some p → cs[i + 1]? = some n →
        ∃ np nn, consultar s.mem p.1 = some np ∧ consultar s.mem n.1 = some nn ∧
          nn.ant = some p.1 ∧ np.prox = some n.1) ∧
      (s.lista.inicio ≠ none → ∃ n, ler s.mem s.lista.inicio = .ok n ∧ n.ant = none) ∧
      (s.lista.fim ≠ none → ∃ n, ler s.mem s.lista.fim = .ok n ∧ n.prox = none) ∧
      nos_tras s.mem s.lista = some cs.reverse := by
  obtain ⟨s, cs, hs, hr, _⟩ := executar_Repr ops (Representa_inicial m0) hv
  refine ⟨s, cs, hs, nos_frente_Repr hr, fun i p n hp hn => Seg_adjacente hr.1 i p n hp hn,
    ?_, ?_, nos_tras_Repr hr⟩
  · intro hne
    cases cs with
    | nil => exact absurd hr.1.1 hne
    | cons c cs =>
      obtain ⟨⟨hi, q, hq, _⟩, _⟩ := hr
      exact ⟨⟨c.2, none, q⟩, by simp [hi, ler, hq], rfl⟩
  · intro hne
    rcases List.eq_nil_or_concat cs with hnil | ⟨ds, c, hcs⟩
    · subst hnil; exact absurd hr.1.2 hne
    · rw [List.concat_eq_append] at hcs
      subst hcs
      obtain ⟨hseg, _⟩ := hr
      rw [Seg_snoc] at hseg
      obtain ⟨hf, q, hq, _⟩ := hseg
      exact ⟨⟨c.2, q, none⟩, by simp [hf, ler, hq], rfl⟩

theorem invariante_ligacoes_witness :
    ∃ s cs, executar (inicial [])
        [.inserir_no_inicio 20, .inserir 10 0, .inserir 15 1, .remover_fim] = .ok s ∧
      nos_frente s.mem s.lista = some cs ∧
      (∀ (i : Nat) (p n : Nat × Int), cs[i]? = some p → cs[i + 1]? = some n →
        ∃ np nn, consultar s.mem p.1 = some np ∧ consultar s.mem n.1 = some nn ∧
          nn.ant = some p.1 ∧ np.prox = some n.1) ∧
      (s.lista.inicio ≠ none → ∃ n, ler s.mem s.lista.inicio = .ok n ∧ n.ant = none) ∧
      (s.lista.fim ≠ none → ∃ n, ler s.mem s.lista.fim = .ok n ∧ n.prox = none) ∧
      nos_tras s.mem s.lista = some cs.reverse :=
  invariante_ligacoes [] [.inserir_no_inicio 20, .inserir 10 0, .inserir 15 1, .remover_fim]
    (by simp [validas, Op.pre, Op.depois, Op.insere])

/-- C7: every precondition-respecting sequence of calls on a fresh list runs to the
end, and `obter_tamanho` then returns the number of insertions minus the number of
removals in the sequence. -/
theorem lei_do_tamanho (m0 : Mem) (ops : List Op) (hv : validas 0 ops) :
    ∃ s, executar (inicial m0) ops = .ok s ∧
      obter_tamanho (some s.lista) =
        .ok ((ops.countP Op.insere : Int) - (ops.countP (fun op => !op.insere) : Int)) := by
  obtain ⟨s, cs, hs, _, ht⟩ := executar_Repr ops (Representa_inicial m0) hv
  refine ⟨s, hs, ?_⟩
  have h0 : (inicial m0).lista.tam = 0 := rfl
  rw [h0] at ht
  simp [obter_tamanho, ht]

theorem lei_do_tamanho_witness :
    ∃ s, executar (inicial [])
        [.inserir 10 0, .inserir_no_fim 20, .remover_fim, .inserir_no_inicio 5,
          .remover 0] = .ok s ∧
      obter_tamanho (some s.lista) =
        .ok ((([.inserir 10 0, .inserir_no_fim 20, .remover_fim, .inserir_no_inicio 5,
          .remover 0] : List Op).countP Op.insere : Int) -
          (([.inserir 10 0, .inserir_no_fim 20, .remover_fim, .inserir_no_inicio 5,
          .remover 0] : List Op).countP (fun op => !op.insere) : Int)) :=
  lei_do_tamanho []
    [.inserir 10 0, .inserir_no_fim 20, .remover_fim, .inserir_no_inicio 5, .remover 0]
    (by simp [validas, Op.pre, Op.depois, Op.insere])

/-! ## Client loops -/

theorem inserir_em_ordem_Repr {s : Estado} {cs : List (Nat × Int)} (xs : List Int) (j : Int)
    (h : Representa s.mem s.lista cs) (hj : j = cs.length) :
    ∃ s1 cs1, inserir_em_ordem s xs j = .ok s1 ∧ Representa s1.mem s1.lista cs1 ∧
      cs1.map Prod.snd = cs.map Prod.snd ++ xs := by
  induction xs generalizing s cs j with
  | nil => exact ⟨s, cs, rfl, h, by simp⟩
  | cons x xs ih =>
    have htam := h.2
    obtain ⟨s1, hs1, hr1, _⟩ := inserir_Repr x j h (by omega) (by omega)
    have hk : j.toNat = cs.length := by omega
    rw [hk, List.take_length, List.drop_length] at hr1
    obtain ⟨s2, cs2, hs2, hr2, hm2⟩ := ih (j + 1) hr1 (by simp; omega)
    exact ⟨s2, cs2, by simp [inserir_em_ordem, hs1, hs2], hr2, by simp [hm2]⟩

/-- C8: inserting `x_0, ..., x_(k-1)` with `inserir(lista, x_j, j)` on a fresh list
returns every time, and afterwards `obter_elemento(lista, i)` returns `x_i` for every
index `i` of the sequence. -/
theorem posicional_em_ordem (m0 : Mem) (xs : List Int) :
    ∃ s, inserir_em_ordem (inicial m0) xs 0 = .ok s ∧
      ∀ (i : Nat) (x : Int), xs[i]? = some x →
        obter_elemento s.mem (some s.lista) (i : Int) = .ok x := by
  obtain ⟨s, cs, hs, hr, hm⟩ := inserir_em_ordem_Repr xs 0 (Representa_inicial m0) rfl
  refine ⟨s, hs, fun i x hx => ?_⟩
  have hlen : cs.length = xs.length := by
    have := congrArg List.length hm
    simpa using this
  have hi : i < xs.length := by
    by_contra hge
    rw [List.getElem?_eq_none (by omega)] at hx
    cases hx
  obtain ⟨c, hc, ho⟩ := obter_Repr (i : Int) hr (by omega) (by rw [hr.2]; omega)
  rw [ho]
  have hcx : (cs.map Prod.snd)[i]? = some c.2 := by
    rw [List.getElem?_map]
    simp at hc
    rw [hc]; rfl
  simp at hm
  rw [hm, hx] at hcx
  rw [Option.some.inj hcx]

theorem posicional_em_ordem_witness :
    ∃ s, inserir_em_ordem (inicial []) [7, 8, 9] 0 = .ok s ∧
      ∀ (i : Nat) (x : Int), [7, 8, 9][i]? = some x →
        obter_elemento s.mem (some s.lista) (i : Int) = .ok x :=
  posicional_em_ordem [] [7, 8, 9]

theorem inserir_todos_inicio_Repr {s : Estado} {cs : List (Nat × Int)} (xs : List Int)
    (h : Representa s.mem s.lista cs) :
    ∃ s1 cs1, inserir_todos inserir_no_inicio s xs = .ok s1 ∧
      Representa s1.mem s1.lista cs1 ∧ cs1.map Prod.snd = xs.reverse ++ cs.map Prod.snd := by
  induction xs generalizing s cs with
  | nil => exact ⟨s, cs, rfl, h, by simp⟩
  | cons x xs ih =>
    obtain ⟨s1, hs1, hr1, _⟩ := inserir_no_inicio_Repr x h
    obtain ⟨s2, cs2, hs2, hr2, hm2⟩ := ih hr1
    exact ⟨s2, cs2, by simp [inserir_todos, hs1, hs2], hr2, by simp [hm2]⟩

theorem inserir_todos_fim_Repr {s : Estado} {cs : List (Nat × Int)} (xs : List Int)
    (h : Representa s.mem s.lista cs) :
    ∃ s1 cs1, inserir_todos inserir_no_fim s xs = .ok s1 ∧
      Representa s1.mem s1.lista cs1 ∧ cs1.map Prod.snd = cs.map Prod.snd ++ xs := by
  induction xs generalizing s cs with
  | nil => exact ⟨s, cs, rfl, h, by simp⟩
  | cons x xs ih =>
    obtain ⟨s1, hs1, hr1, _⟩ := inserir_no_fim_Repr x h
    obtain ⟨s2, cs2, hs2, hr2, hm2⟩ := ih hr1
    exact ⟨s2, cs2, by simp [inserir_todos, hs1, hs2], hr2, by simp [hm2]⟩

theorem Representa_nil {m : Mem} {l : ListaDEnc} (h : Representa m l []) :
    l = criar_listad := by
  obtain ⟨⟨hi, hf⟩, ht⟩ := h
  cases l
  simp at hi hf ht
  simp [criar_listad, hi, hf, ht]

theorem remover_n_inicio_Repr {s : Estado} {cs : List (Nat × Int)}
    (h : Representa s.mem s.lista cs) :
    ∃ t, remover_n remover_inicio s cs.length = .ok (t, cs.map Prod.snd) ∧
      t.lista = criar_listad := by
  induction cs generalizing s with
  | nil => exact ⟨s, rfl, Representa_nil h⟩
  | cons c cs ih =>
    obtain ⟨s1, hs1, hr1, _⟩ := remover_inicio_Repr h
    obtain ⟨t, ht, hl⟩ := ih hr1
    exact ⟨t, by simp [remover_n, hs1, ht], hl⟩

theorem remover_n_fim_Repr {s : Estado} {cs : List (Nat × Int)}
    (h : Representa s.mem s.lista cs) :
    ∃ t, remover_n remover_fim s cs.length = .ok (t, (cs.map Prod.snd).reverse) ∧
      t.lista = criar_listad := by
  induction cs using List.reverseRecOn generalizing s with
  | nil => exact ⟨s, rfl, Representa_nil h⟩
  | append_singleton ds c ih =>
    obtain ⟨s1, hs1, hr1, _⟩ := remover_fim_Repr h
    obtain ⟨t, ht, hl⟩ := ih hr1
    exact ⟨t, by simp [remover_n, hs1, ht], hl⟩

/-- C9: items `x_1, ..., x_n` inserted into a fresh list all at the same end come back
in reverse insertion order from `n` removals at that end and in insertion order from `n`
removals at the opposite end; every call returns and the list record ends as
`criar_listad` left it (empty). -/
theorem ida_e_volta (m0 : Mem) (xs : List Int) :
    (∃ s, inserir_todos inserir_no_inicio (inicial m0) xs = .ok s ∧
      (∃ t, remover_n remover_inicio s xs.length = .ok (t, xs.reverse) ∧
        t.lista = criar_listad ∧ estah_vazia (some t.lista) = .ok true) ∧
      (∃ t, remover_n remover_fim s xs.length = .ok (t, xs) ∧
        t.lista = criar_listad ∧ estah_vazia (some t.lista) = .ok true)) ∧
    (∃ s, inserir_todos inserir_no_fim (inicial m0) xs = .ok s ∧
      (∃ t, remover_n remover_fim s xs.length = .ok (t, xs.reverse) ∧
        t.lista = criar_listad ∧ estah_vazia (some t.lista) = .ok true) ∧
      (∃ t, remover_n remover_inicio s xs.length = .ok (t, xs) ∧
        t.lista = criar_listad ∧ estah_vazia (some t.lista) = .ok true)) := by
  constructor
  · obtain ⟨s, cs, hs, hr, hm⟩ := inserir_todos_inicio_Repr xs (Representa_inicial m0)
    have hm2 : cs.map Prod.snd = xs.reverse := by simpa using hm
    have hlen : cs.length = xs.length := by
      have := congrArg List.length hm2
      simpa using this
    obtain ⟨t1, ht1, hl1⟩ := remover_n_inicio_Repr hr
    obtain ⟨t2, ht2, hl2⟩ := remover_n_fim_Repr hr
    rw [hlen, hm2] at ht1 ht2
    rw [List.reverse_reverse] at ht2
    exact ⟨s, hs, ⟨t1, ht1, hl1, by rw [hl1]; rfl⟩, ⟨t2, ht2, hl2, by rw [hl2]; rfl⟩⟩
  · obtain ⟨s, cs, hs, hr, hm⟩ := inserir_todos_fim_Repr xs (Representa_inicial m0)
    have hm2 : cs.map Prod.snd = xs := by simpa using hm
    have hlen : cs.length = xs.length := by
      have := congrArg List.length hm2
      simpa using this
    obtain ⟨t1, ht1, hl1⟩ := remover_n_fim_Repr hr
    obtain ⟨t2, ht2, hl2⟩ := remover_n_inicio_Repr hr
    rw [hlen, hm2] at ht1 ht2
    exact ⟨s, hs, ⟨t1, ht1, hl1, by rw [hl1]; rfl⟩, ⟨t2, ht2, hl2, by rw [hl2]; rfl⟩⟩

/-! ## Single-element boundary -/

theorem remover_zero {m : Mem} {l : ListaDEnc} {c : Nat × Int} {cs : List (Nat × Int)}
    (h : Representa m l (c :: cs)) : remover m (some l) 0 = remover_inicio m (some l) := by
  have hine := Repr_inicio_ne h (by simp)
  have hpos : (0 : Int) < l.tam := by rw [h.2]; simp
  simp [remover, hpos, hine]

theorem Representa_um {m : Mem} {l : ListaDEnc} {a : Nat} {y : Int}
    (h : Representa m l [(a, y)]) :
    l = { inicio := some a, fim := some a, tam := 1 } ∧
      consultar m a = some { item := y, ant := none, prox := none } := by
  obtain ⟨⟨hi, q, hq, hqn, hf⟩, ht⟩ := h
  subst hqn
  refine ⟨?_, hq⟩
  cases l
  simp at hi hf ht
  simp [hi, hf, ht]

theorem aplicar_primeiro (m0 : Mem) (x : Int) (ins : Op)
    (hins : ins = .inserir x 0 ∨ ins = .inserir_no_inicio x ∨ ins = .inserir_no_fim x) :
    ∃ s1, ins.aplicar (inicial m0) = .ok s1 ∧ Representa s1.mem s1.lista [(m0.length, x)] := by
  rcases hins with rfl | rfl | rfl
  · obtain ⟨s1, hs, hr, _⟩ := inserir_Repr x 0 (Representa_inicial m0) (le_refl _) (le_refl _)
    exact ⟨s1, hs, by simpa using hr⟩
  · obtain ⟨s1, hs, hr, _⟩ := inserir_no_inicio_Repr x (Representa_inicial m0)
    exact ⟨s1, hs, hr⟩
  · obtain ⟨s1, hs, hr, _⟩ := inserir_no_fim_Repr x (Representa_inicial m0)
    exact ⟨s1, hs, by simpa using hr⟩

/-- C10: after one insertion of `x` into a fresh list (by `inserir` at position 0,
`inserir_no_inicio` or `inserir_no_fim`), `remover_inicio` and `remover(lista, 0)` both
return `x` and leave the record exactly as `criar_listad` made it (`inicio` and `fim`
`NULL`, `tam` 0, `estah_vazia` true); `inserir_no_fim(y)` on that record behaves, in any
store, as on the record of a fresh list, and gives as on a fresh list a record whose
`inicio` and `fim` are the one new node, `tam` 1, the node holding `y` with both links
`NULL`. -/
theorem fronteira_um_elemento (m0 : Mem) (x y : Int) (ins : Op)
    (hins : ins = .inserir x 0 ∨ ins = .inserir_no_inicio x ∨ ins = .inserir_no_fim x) :
    ∃ s1 s2 s3 s4 a b,
      ins.aplicar (inicial m0) = .ok s1 ∧
      remover_inicio s1.mem (some s1.lista) = .ok (s2, x) ∧
      remover s1.mem (some s1.lista) 0 = .ok (s2, x) ∧
      s2.lista = { inicio := none, fim := none, tam := 0 } ∧
      s2.lista = criar_listad ∧
      estah_vazia (some s2.lista) = .ok true ∧
      (∀ m : Mem, inserir_no_fim m (some s2.lista) y = inserir_no_fim m (some criar_listad) y) ∧
      inserir_no_fim s2.mem (some s2.lista) y = .ok s3 ∧
      inserir_no_fim m0 (some criar_listad) y = .ok s4 ∧
      s3.lista = { inicio := some a, fim := some a, tam := 1 } ∧
      consultar s3.mem a = some { item := y, ant := none, prox := none } ∧
      s4.lista = { inicio := some b, fim := some b, tam := 1 } ∧
      consultar s4.mem b = some { item := y, ant := none, prox := none } ∧
      elementos s3.mem s3.lista = some [y] ∧
      elementos s4.mem s4.lista = some [y] := by
  obtain ⟨s1, hs1, hr1⟩ := aplicar_primeiro m0 x ins hins
  obtain ⟨s2, hs2, hr2, _⟩ := remover_inicio_Repr hr1
  have hl2 := Representa_nil hr2
  obtain ⟨s3, hs3, hr3, _⟩ := inserir_no_fim_Repr y hr2
  obtain ⟨s4, hs4, hr4, _⟩ := inserir_no_fim_Repr y (Representa_inicial m0)
  have hr3b : Representa s3.mem s3.lista [(s2.mem.length, y)] := by simpa using hr3
  have hr4b : Representa s4.mem s4.lista [(m0.length, y)] := by simpa using hr4
  obtain ⟨e3, n3⟩ := Representa_um hr3b
  obtain ⟨e4, n4⟩ := Representa_um hr4b
  refine ⟨s1, s2, s3, s4, s2.mem.length, m0.length, hs1, hs2, ?_, hl2, hl2, ?_, ?_, hs3, hs4,
    e3, n3, e4, n4, ?_, ?_⟩
  · rw [remover_zero hr1]; exact hs2
  · rw [hl2]; rfl
  · intro m; rw [hl2]
  · rw [elementos_Repr hr3b]; rfl
  · rw [elementos_Repr hr4b]; rfl

theorem fronteira_um_elemento_witness :
    ∃ s1 s2 s3 s4 a b,
      (Op.inserir_no_fim 7).aplicar (inicial []) = .ok s1 ∧
      remover_inicio s1.mem (some s1.lista) = .ok (s2, 7) ∧
      remover s1.mem (some s1.lista) 0 = .ok (s2, 7) ∧
      s2.lista = { inicio := none, fim := none, tam := 0 } ∧
      s2.lista = criar_listad ∧
      estah_vazia (some s2.lista) = .ok true ∧
      (∀ m : Mem, inserir_no_fim m (some s2.lista) 9 = inserir_no_fim m (some criar_listad) 9) ∧
      inserir_no_fim s2.mem (some s2.lista) 9 = .ok s3 ∧
      inserir_no_fim [] (some criar_listad) 9 = .ok s4 ∧
      s3.lista = { inicio := some a, fim := some a, tam := 1 } ∧
      consultar s3.mem a = some { item := 9, ant := none, prox := none } ∧
      s4.lista = { inicio := some b, fim := some b, tam := 1 } ∧
      consultar s4.mem b = some { item := 9, ant := none, prox := none } ∧
      elementos s3.mem s3.lista = some [9] ∧
      elementos s4.mem s4.lista = some [9] :=
  fronteira_um_elemento [] 7 9 (.inserir_no_fim 7) (Or.inr (Or.inr rfl))

/-! ## The scenario of the specification -/

/-- C11: from a fresh list, `inserir(10, 0)` gives `[10]`, `inserir(20, 1)` gives
`[10, 20]`, `inserir(15, 1)` gives `[10, 15, 20]`; `remover(lista, 1)` then returns 15
and leaves `[10, 20]`, `obter_fim` returns 20 and `obter_tamanho` returns 2. -/
theorem cenario_concreto (m0 : Mem) :
    ∃ s1 s2 s3 s4,
      inserir m0 (some criar_listad) 10 0 = .ok s1 ∧
      elementos s1.mem s1.lista = some [10] ∧
      inserir s1.mem (some s1.lista) 20 1 = .ok s2 ∧
      elementos s2.mem s2.lista = some [10, 20] ∧
      inserir s2.mem (some s2.lista) 15 1 = .ok s3 ∧
      elementos s3.mem s3.lista = some [10, 15, 20] ∧
      remover s3.mem (some s3.lista) 1 = .ok (s4, 15) ∧
      elementos s4.mem s4.lista = some [10, 20] ∧
      obter_fim s4.mem (some s4.lista) = .ok 20 ∧
      obter_tamanho (some s4.lista) = .ok 2 := by
  have h0 : Representa m0 criar_listad [] := Representa_inicial m0
  obtain ⟨s1, hs1, hr1, ht1⟩ := inserir_Repr 10 0 h0 (le_refl _) (le_refl _)
  have hr1b : Representa s1.mem s1.lista [(m0.length, 10)] := by simpa using hr1
  have ht1b : s1.lista.tam = 1 := by rw [ht1]; rfl
  obtain ⟨s2, hs2, hr2, ht2⟩ := inserir_Repr 20 1 hr1b (by decide) (by rw [ht1b])
  have hr2b : Representa s2.mem s2.lista [(m0.length, 10), (s1.mem.length, 20)] := by
    simpa using hr2
  have ht2b : s2.lista.tam = 2 := by rw [ht2, ht1b]; rfl
  obtain ⟨s3, hs3, hr3, ht3⟩ := inserir_Repr 15 1 hr2b (by decide) (by rw [ht2b]; decide)
  have hr3b : Representa s3.mem s3.lista
      [(m0.length, 10), (s2.mem.length, 15), (s1.mem.length, 20)] := by
    simpa using hr3
  have ht3b : s3.lista.tam = 3 := by rw [ht3, ht2b]; rfl
  obtain ⟨s4, c, hc, hs4, hr4, ht4⟩ := remover_Repr 1 hr3b (by decide) (by rw [ht3b]; decide)
  have hcv : c = (s2.mem.length, 15) := by
    simp at hc
    exact hc.symm
  subst hcv
  have hr4b : Representa s4.mem s4.lista [(m0.length, 10), (s1.mem.length, 20)] := by
    simpa using hr4
  have hr4c : Representa s4.mem s4.lista ([(m0.length, 10)] ++ [(s1.mem.length, 20)]) := hr4b
  refine ⟨s1, s2, s3, s4, hs1, ?_, hs2, ?_, hs3, ?_, hs4, ?_, obter_fim_Repr hr4c, ?_⟩
  · rw [elementos_Repr hr1b]; rfl
  · rw [elementos_Repr hr2b]; rfl
  · rw [elementos_Repr hr3b]; rfl
  · rw [elementos_Repr hr4b]; rfl
  · simp [obter_tamanho, ht4, ht3b]

/-! ## Precondition failures -/

theorem ler_erro {m : Mem} {p : Ptr} {e : Erro} (h : ler m p = .error e) :
    e = .indefinido := by
  unfold ler at h
  split at h
  · cases h; rfl
  · split at h
    · cases h
    · cases h; rfl

theorem modificar_erro {m : Mem} {p : Ptr} {f : DNoh → DNoh} {e : Erro}
    (h : modificar m p f = .error e) : e = .indefinido := by
  unfold modificar at h
  split at h
  · cases h; rfl
  · split at h
    · cases h
    · cases h; rfl

theorem avancar_erro {m : Mem} {k : Nat} {p : Ptr} {e : Erro}
    (h : avancar m k p = .error e) : e = .indefinido := by
  induction k generalizing p with
  | zero => cases h
  | succ k ih =>
    unfold avancar at h
    split at h
    · next e2 he2 =>
      cases h
      exact ler_erro he2
    · exact ih h

theorem inserir_no_inicio_erro {m : Mem} {l : ListaDEnc} {x : Int} {e : Erro}
    (h : inserir_no_inicio m (some l) x = .error e) : e = .indefinido := by
  simp only [inserir_no_inicio, criar_noh] at h
  split at h
  · cases h
  · split at h
    · next e2 he2 =>
      cases h
      exact modificar_erro he2
    · cases h

theorem inserir_no_fim_erro {m : Mem} {l : ListaDEnc} {x : Int} {e : Erro}
    (h : inserir_no_fim m (some l) x = .error e) : e = .indefinido := by
  simp only [inserir_no_fim, criar_noh] at h
  split at h
  · cases h
  · split at h
    · next e2 he2 =>
      cases h
      exact modificar_erro he2
    · cases h

/-- With a handle that is not `NULL`, `inserir` stops at a failed `assert` exactly when
the position is out of range, whatever the store holds. -/
theorem inserir_aborta_sse (m : Mem) (l : ListaDEnc) (x pos : Int) :
    inserir m (some l) x pos = .error .abortado ↔ (pos < 0 ∨ pos > l.tam) := by
  constructor
  · intro h
    by_contra hin
    have hg : pos ≥ 0 ∧ pos ≤ l.tam := by omega
    simp only [inserir, hg, not_true_eq_false, and_self, if_false] at h
    split at h
    · cases inserir_no_inicio_erro h
    · split at h
      · cases inserir_no_fim_erro h
      · split at h
        · next e he => cases h; cases avancar_erro he
        · split at h
          · next e he => cases h; cases ler_erro he
          · simp only [criar_noh] at h
            split at h
            · next e he => cases h; cases ler_erro he
            · split at h
              · next e he => cases h; cases modificar_erro he
              · split at h
                · next e he => cases h; cases modificar_erro he
                · cases h
  · intro h
    have hg : ¬ (pos ≥ 0 ∧ pos ≤ l.tam) := by omega
    simp [inserir, hg]

/-- C12: on a well-formed list `obter_elemento` and `remover` stop at a failed `assert`
exactly when `pos < 0` or `pos >= tam`, and return (the same element) otherwise; in
particular `obter_elemento(lista, obter_tamanho(lista))` always aborts. -/
theorem acesso_fora_de_alcance (m : Mem) (l : ListaDEnc) (pos : Int) (hwf : BemFormada m l) :
    (obter_elemento m (some l) pos = .error .abortado ↔ (pos < 0 ∨ pos ≥ l.tam)) ∧
    (remover m (some l) pos = .error .abortado ↔ (pos < 0 ∨ pos ≥ l.tam)) ∧
    ((0 ≤ pos ∧ pos < l.tam) → ∃ x s, obter_elemento m (some l) pos = .ok x ∧
      remover m (some l) pos = .ok (s, x)) ∧
    (∀ n, obter_tamanho (some l) = .ok n → obter_elemento m (some l) n = .error .abortado) := by
  obtain ⟨cs, hcs⟩ := hwf
  have hin : (0 ≤ pos ∧ pos < l.tam) → ∃ x s, obter_elemento m (some l) pos = .ok x ∧
      remover m (some l) pos = .ok (s, x) := by
    rintro ⟨h0, hu⟩
    obtain ⟨c, hc, ho⟩ := obter_Repr pos hcs h0 hu
    obtain ⟨s, c2, hc2, hr, _⟩ := remover_Repr pos hcs h0 hu
    rw [hc] at hc2
    cases hc2
    exact ⟨c.2, s, ho, hr⟩
  refine ⟨⟨fun h => ?_, fun h => ?_⟩, ⟨fun h => ?_, fun h => ?_⟩, hin, fun n hn => ?_⟩
  · by_contra hout
    obtain ⟨x, s, ho, _⟩ := hin (by omega)
    rw [ho] at h
    cases h
  · have hg : ¬ (pos ≥ 0 ∧ pos < l.tam) := by omega
    simp [obter_elemento, hg]
  · by_contra hout
    obtain ⟨x, s, _, hr⟩ := hin (by omega)
    rw [hr] at h
    cases h
  · have hg : ¬ (pos ≥ 0 ∧ pos < l.tam) := by omega
    simp [remover, hg]
  · simp only [obter_tamanho] at hn
    cases hn
    simp [obter_elemento]

theorem acesso_fora_de_alcance_witness :
    (obter_elemento [some { item := 10, ant := none, prox := some 1 },
        some { item := 20, ant := some 0, prox := none }]
        (some { inicio := some 0, fim := some 1, tam := 2 }) 2 = .error .abortado ↔
      ((2 : Int) < 0 ∨ (2 : Int) ≥ (2 : Int))) :=
  (acesso_fora_de_alcance _ { inicio := some 0, fim := some 1, tam := 2 } 2
    ⟨_, exemplo_Representa⟩).1

/-- C13: with a handle that is not `NULL`, `inserir` stops at a failed `assert` exactly
when `pos < 0` or `pos > tam`, whatever the store holds; it then stops with the store and
the record exactly as received (no node created, no field assigned) and never returns a
state, so the position is not clamped into range. -/
theorem inserir_rejeita_posicao (m : Mem) (l : ListaDEnc) (x pos : Int) :
    (inserir m (some l) x pos = .error .abortado ↔ (pos < 0 ∨ pos > l.tam)) ∧
    (inserir_parada m (some l) x pos = .aborta m (some l) ↔ (pos < 0 ∨ pos > l.tam)) ∧
    (∀ m1 l1, inserir_parada m (some l) x pos = .aborta m1 l1 → m1 = m ∧ l1 = some l) ∧
    (∀ s, inserir_parada m (some l) x pos = .retorna s ↔ inserir m (some l) x pos = .ok s) ∧
    ((pos < 0 ∨ pos > l.tam) → ∀ s, inserir m (some l) x pos ≠ .ok s) := by
  have hiff := inserir_aborta_sse m l x pos
  refine ⟨hiff, ⟨fun h => ?_, fun h => ?_⟩, fun m1 l1 h => ?_, fun s => ⟨fun h => ?_, fun h => ?_⟩,
    fun h s hs => ?_⟩
  · by_contra hin
    have hg : pos ≥ 0 ∧ pos ≤ l.tam := by omega
    simp only [inserir_parada, hg, not_true_eq_false, and_self, if_false] at h
    split at h
    · cases h
    · next he => exact hin (hiff.1 he)
    · cases h
  · have hg : ¬ (pos ≥ 0 ∧ pos ≤ l.tam) := by omega
    simp [inserir_parada, hg]
  · simp only [inserir_parada] at h
    split at h
    · cases h; exact ⟨rfl, rfl⟩
    · split at h
      · cases h
      · cases h; exact ⟨rfl, rfl⟩
      · cases h
  · simp only [inserir_parada] at h
    split at h
    · cases h
    · split at h
      · next s2 hs2 => cases h; exact hs2
      · cases h
      · cases h
  · have hg : pos ≥ 0 ∧ pos ≤ l.tam := by
      by_contra hout
      have : inserir m (some l) x pos = .error .abortado := hiff.2 (by omega)
      rw [this] at h
      cases h
    simp [inserir_parada, hg, h]
  · rw [hiff.2 h] at hs
    cases hs

/-- C14: on the empty record every removal and every element read stops at a failed
`assert`, for every position; on a well-formed list that is not empty `remover_inicio`,
`remover_fim`, `obter_inicio` and `obter_fim` return. -/
theorem violacoes_lista_vazia (m : Mem) (l : ListaDEnc) (hwf : BemFormada m l) :
    (l.tam = 0 →
      l = criar_listad ∧
      remover_inicio m (some l) = .error .abortado ∧
      remover_fim m (some l) = .error .abortado ∧
      (∀ pos, remover m (some l) pos = .error .abortado) ∧
      obter_inicio m (some l) = .error .abortado ∧
      obter_fim m (some l) = .error .abortado ∧
      (∀ pos, obter_elemento m (some l) pos = .error .abortado)) ∧
    (l.tam ≠ 0 →
      (∃ r, remover_inicio m (some l) = .ok r) ∧
      (∃ r, remover_fim m (some l) = .ok r) ∧
      (∃ x, obter_inicio m (some l) = .ok x) ∧
      (∃ x, obter_fim m (some l) = .ok x)) := by
  obtain ⟨cs, hcs⟩ := hwf
  have htam := hcs.2
  constructor
  · intro hz
    have hnil : cs = [] := by
      apply List.eq_nil_of_length_eq_zero
      omega
    subst hnil
    have hl := Representa_nil hcs
    subst hl
    refine ⟨rfl, rfl, rfl, fun pos => ?_, rfl, rfl, fun pos => ?_⟩
    · have hg : ¬ (pos ≥ 0 ∧ pos < criar_listad.tam) := by
        simp only [criar_listad]; omega
      simp [remover, hg]
    · have hg : ¬ (pos ≥ 0 ∧ pos < criar_listad.tam) := by
        simp only [criar_listad]; omega
      simp [obter_elemento, hg]
  · intro hnz
    cases cs with
    | nil => simp at htam; exact absurd htam hnz
    | cons c cs =>
      obtain ⟨s1, hs1, _, _⟩ := remover_inicio_Repr hcs
      refine ⟨⟨_, hs1⟩, ?_, ⟨_, obter_inicio_Repr hcs⟩, ?_⟩
      · rcases List.eq_nil_or_concat (c :: cs) with hnil | ⟨ds, d, hds⟩
        · cases hnil
        · rw [List.concat_eq_append] at hds
          rw [hds] at hcs
          obtain ⟨s2, hs2, _, _⟩ := remover_fim_Repr hcs
          exact ⟨_, hs2⟩
      · rcases List.eq_nil_or_concat (c :: cs) with hnil | ⟨ds, d, hds⟩
        · cases hnil
        · rw [List.concat_eq_append] at hds
          rw [hds] at hcs
          exact ⟨_, obter_fim_Repr hcs⟩

theorem violacoes_lista_vazia_witness :
    (criar_listad = criar_listad ∧
      remover_inicio [] (some criar_listad) = .error .abortado ∧
      remover_fim [] (some criar_listad) = .error .abortado ∧
      (∀ pos, remover [] (some criar_listad) pos = .error .abortado) ∧
      obter_inicio [] (some criar_listad) = .error .abortado ∧
      obter_fim [] (some criar_listad) = .error .abortado ∧
      (∀ pos, obter_elemento [] (some criar_listad) pos = .error .abortado)) ∧
    ((∃ r, remover_inicio [some { item := 10, ant := none, prox := some 1 },
        some { item := 20, ant := some 0, prox := none }]
        (some { inicio := some 0, fim := some 1, tam := 2 }) = .ok r) ∧
      (∃ r, remover_fim [some { item := 10, ant := none, prox := some 1 },
        some { item := 20, ant := some 0, prox := none }]
        (some { inicio := some 0, fim := some 1, tam := 2 }) = .ok r) ∧
      (∃ x, obter_inicio [some { item := 10, ant := none, prox := some 1 },
        some { item := 20, ant := some 0, prox := none }]
        (some { inicio := some 0, fim := some 1, tam := 2 }) = .ok x) ∧
      (∃ x, obter_fim [some { item := 10, ant := none, prox := some 1 },
        some { item := 20, ant := some 0, prox := none }]
        (some { inicio := some 0, fim := some 1, tam := 2 }) = .ok x)) :=
  ⟨(violacoes_lista_vazia [] criar_listad ⟨[], Representa_inicial []⟩).1 rfl,
    (violacoes_lista_vazia _ { inicio := some 0, fim := some 1, tam := 2 }
      ⟨_, exemplo_Representa⟩).2 (by decide)⟩

/-! ## Emptiness test, end removals, read-only calls -/

/-- C15: `estah_vazia` is true on a fresh list; after every precondition-respecting
sequence of calls it returns true exactly when `obter_tamanho` returns 0; and after any
further insertion it returns false. -/
theorem estah_vazia_tamanho (m0 : Mem) (ops : List Op) (hv : validas 0 ops) :
    estah_vazia (some criar_listad) = .ok true ∧
    ∃ s b n, executar (inicial m0) ops = .ok s ∧
      estah_vazia (some s.lista) = .ok b ∧ obter_tamanho (some s.lista) = .ok n ∧
      (b = true ↔ n = 0) ∧
      ∀ op : Op, op.insere = true → op.pre s.lista.tam →
        ∃ s1, op.aplicar s = .ok s1 ∧ estah_vazia (some s1.lista) = .ok false := by
  refine ⟨rfl, ?_⟩
  obtain ⟨s, cs, hs, hr, _⟩ := executar_Repr ops (Representa_inicial m0) hv
  refine ⟨s, s.lista.inicio == none, s.lista.tam, hs, rfl, rfl, ?_, fun op hop hp => ?_⟩
  · have hv := (Representa_vazio hr).1
    simp [hv]
  · obtain ⟨s1, cs1, hs1, hr1, ht1⟩ := aplicar_Repr op hr hp
    refine ⟨s1, hs1, ?_⟩
    have hne : s1.lista.tam ≠ 0 := by
      have hnn : 0 ≤ s.lista.tam := by rw [hr.2]; simp
      rw [ht1]
      simp [Op.depois, hop]
      omega
    have hine : s1.lista.inicio ≠ none := fun h => hne ((Representa_vazio hr1).1.2 h)
    simp [estah_vazia, hine]

theorem estah_vazia_tamanho_witness :
    estah_vazia (some criar_listad) = .ok true ∧
    ∃ s b n, executar (inicial []) [.inserir 10 0, .remover_fim] = .ok s ∧
      estah_vazia (some s.lista) = .ok b ∧ obter_tamanho (some s.lista) = .ok n ∧
      (b = true ↔ n = 0) ∧
      ∀ op : Op, op.insere = true → op.pre s.lista.tam →
        ∃ s1, op.aplicar s = .ok s1 ∧ estah_vazia (some s1.lista) = .ok false :=
  estah_vazia_tamanho [] [.inserir 10 0, .remover_fim]
    (by simp [validas, Op.pre, Op.depois, Op.insere])

/-- C16: on a well-formed list whose element sequence `L` is not empty, `remover_inicio`
returns the first element of `L` and leaves `L` without it, `remover_fim` returns the
last element of `L` and leaves `L` without it; each leaves a well-formed list and takes
exactly 1 from `tam`. -/
theorem remocoes_nas_pontas (m : Mem) (l : ListaDEnc) (L : List Int)
    (hwf : BemFormada m l) (hL : elementos m l = some L) (hne : L ≠ []) :
    (∃ s x, remover_inicio m (some l) = .ok (s, x) ∧ L.head? = some x ∧
      BemFormada s.mem s.lista ∧ elementos s.mem s.lista = some L.tail ∧
      s.lista.tam = l.tam - 1) ∧
    (∃ s x, remover_fim m (some l) = .ok (s, x) ∧ L.getLast? = some x ∧
      BemFormada s.mem s.lista ∧ elementos s.mem s.lista = some L.dropLast ∧
      s.lista.tam = l.tam - 1) := by
  obtain ⟨cs, hcs, hmap⟩ := BemFormada_elementos hwf hL
  subst hmap
  have hcne : cs ≠ [] := by
    intro h
    subst h
    exact hne rfl
  constructor
  · cases cs with
    | nil => exact absurd rfl hcne
    | cons c cs =>
      obtain ⟨s, hs, hr, ht⟩ := remover_inicio_Repr hcs
      exact ⟨s, c.2, hs, rfl, ⟨_, hr⟩, by rw [elementos_Repr hr]; rfl, ht⟩
  · rcases List.eq_nil_or_concat cs with hnil | ⟨ds, d, hds⟩
    · exact absurd hnil hcne
    · rw [List.concat_eq_append] at hds
      subst hds
      obtain ⟨s, hs, hr, ht⟩ := remover_fim_Repr hcs
      refine ⟨s, d.2, hs, by simp, ⟨_, hr⟩, ?_, ht⟩
      rw [elementos_Repr hr]
      simp [List.dropLast_concat]

theorem remocoes_nas_pontas_witness :
    (∃ s x, remover_inicio [some { item := 10, ant := none, prox := some 1 },
        some { item := 20, ant := some 0, prox := none }]
        (some { inicio := some 0, fim := some 1, tam := 2 }) = .ok (s, x) ∧
      [10, 20].head? = some x ∧
      BemFormada s.mem s.lista ∧ elementos s.mem s.lista = some [10, 20].tail ∧
      s.lista.tam = 2 - 1) ∧
    (∃ s x, remover_fim [some { item := 10, ant := none, prox := some 1 },
        some { item := 20, ant := some 0, prox := none }]
        (some { inicio := some 0, fim := some 1, tam := 2 }) = .ok (s, x) ∧
      [10, 20].getLast? = some x ∧
      BemFormada s.mem s.lista ∧ elementos s.mem s.lista = some [10, 20].dropLast ∧
      s.lista.tam = 2 - 1) :=
  remocoes_nas_pontas _ { inicio := some 0, fim := some 1, tam := 2 } [10, 20]
    ⟨_, exemplo_Representa⟩ (by decide) (by decide)

/-- C17: a read-only call (`estah_vazia`, `obter_tamanho`, `obter_inicio`, `obter_fim`,
`obter_elemento`) that returns leaves the state it received: `inicio`, `fim`, `tam` and
every cell of the store, hence every node's `item`, `ant` and `prox`, are as they
were. -/
theorem consultas_nao_alteram (s s1 : Estado) (q : Consulta) (v : Valor)
    (h : q.aplicar s = .ok (s1, v)) :
    s1 = s ∧ s1.lista.inicio = s.lista.inicio ∧ s1.lista.fim = s.lista.fim ∧
      s1.lista.tam = s.lista.tam ∧ (∀ a, consultar s1.mem a = consultar s.mem a) ∧
      nos_frente s1.mem s1.lista = nos_frente s.mem s.lista ∧
      nos_tras s1.mem s1.lista = nos_tras s.mem s.lista := by
  have hs : s1 = s := by
    cases q <;> simp only [Consulta.aplicar] at h <;> split at h <;> cases h <;> rfl
  subst hs
  exact ⟨rfl, rfl, rfl, rfl, fun _ => rfl, rfl, rfl⟩

theorem consultas_nao_alteram_witness :
    (Consulta.obter_elemento 1).aplicar
        (Estado.mk [some { item := 10, ant := none, prox := some 1 },
          some { item := 20, ant := some 0, prox := none }]
          { inicio := some 0, fim := some 1, tam := 2 }) =
      .ok (Estado.mk [some { item := 10, ant := none, prox := some 1 },
          some { item := 20, ant := some 0, prox := none }]
          { inicio := some 0, fim := some 1, tam := 2 }, .inteiro 20) ∧
    ∀ a, consultar [some { item := 10, ant := none, prox := some 1 },
          some { item := 20, ant := some 0, prox := none }] a =
        consultar [some { item := 10, ant := none, prox := some 1 },
          some { item := 20, ant := some 0, prox := none }] a :=
  ⟨rfl, (consultas_nao_alteram
    (Estado.mk [some { item := 10, ant := none, prox := some 1 },
      some { item := 20, ant := some 0, prox := none }]
      { inicio := some 0, fim := some 1, tam := 2 })
    (Estado.mk [some { item := 10, ant := none, prox := some 1 },
      some { item := 20, ant := some 0, prox := none }]
      { inicio := some 0, fim := some 1, tam := 2 })
    (.obter_elemento 1) (.inteiro 20) rfl).2.2.2.2.1⟩

/-! ## Release of the list -/

theorem remover_inicio_mortos {m : Mem} {l : ListaDEnc} {c : Nat × Int}
    {cs : List (Nat × Int)} {s : Estado} {x : Int}
    (h : Representa m l (c :: cs)) (hs : remover_inicio m (some l) = .ok (s, x)) :
    consultar s.mem c.1 = none ∧ ∀ a, consultar m a = none → consultar s.mem a = none := by
  obtain ⟨hseg, _⟩ := h
  obtain ⟨hi, q, hq, hrest⟩ := hseg
  have hcl := consultar_lt hq
  cases cs with
  | nil =>
    obtain ⟨hqn, _⟩ := hrest
    subst hqn
    simp [remover_inicio, hi, ler, hq, apagar] at hs
    obtain ⟨hs, _⟩ := hs
    subst hs
    refine ⟨consultar_set_eq none hcl, fun a ha => ?_⟩
    have hne : c.1 ≠ a := by
      intro hca
      rw [← hca, hq] at ha
      cases ha
    show consultar (List.set m c.1 none) a = none
    rw [consultar_set_ne _ hne]
    exact ha
  | cons d ds =>
    obtain ⟨hqd, q2, hq2, _⟩ := hrest
    subst hqd
    have hcd : c.1 ≠ d.1 := by
      intro hcd
      rw [hcd, hq2] at hq
      have := congrArg DNoh.ant (Option.some.inj hq)
      cases this
    have e1 : consultar (List.set m d.1 (some ({ item := d.2, ant := none, prox := q2 } : DNoh)))
        c.1 = some { item := c.2, ant := none, prox := some d.1 } := by
      rw [consultar_set_ne _ (Ne.symm hcd)]; exact hq
    simp [remover_inicio, hi, ler, hq, modificar, hq2, e1, apagar] at hs
    obtain ⟨hs, _⟩ := hs
    subst hs
    refine ⟨consultar_set_eq none (by simp; omega), fun a ha => ?_⟩
    have hne : c.1 ≠ a := by
      intro hca
      rw [← hca, hq] at ha
      cases ha
    have hne2 : d.1 ≠ a := by
      intro hda
      rw [← hda, hq2] at ha
      cases ha
    show consultar (List.set (List.set m d.1 _) c.1 none) a = none
    rw [consultar_set_ne _ hne, consultar_set_ne _ hne2]
    exact ha

theorem liberar_laco_Repr {s : Estado} {cs : List (Nat × Int)} (fuel : Nat)
    (h : Representa s.mem s.lista cs) (hf : cs.length ≤ fuel) :
    ∃ s1, liberar_laco fuel s = some (.ok (s1, cs.map Prod.fst)) ∧
      s1.lista = criar_listad ∧ (∀ c ∈ cs, consultar s1.mem c.1 = none) ∧
      (∀ a, consultar s.mem a = none → consultar s1.mem a = none) := by
  induction cs generalizing s fuel with
  | nil =>
    have hi : s.lista.inicio = none := h.1.1
    refine ⟨s, ?_, Representa_nil h, fun c hc => absurd hc (List.not_mem_nil c), fun a ha => ha⟩
    cases fuel <;> simp [liberar_laco, hi]
  | cons c cs ih =>
    have hi : s.lista.inicio = some c.1 := h.1.1
    cases fuel with
    | zero => simp at hf
    | succ fuel =>
      obtain ⟨s2, hs2, hr2, _⟩ := remover_inicio_Repr h
      obtain ⟨hdead, hkeep⟩ := remover_inicio_mortos h hs2
      obtain ⟨s3, hs3, hl3, hd3, hk3⟩ := ih fuel hr2 (by simpa using hf)
      refine ⟨s3, ?_, hl3, fun e he => ?_, fun a ha => hk3 a (hkeep a ha)⟩
      · simp [liberar_laco, hi, remover_zero h, hs2, hs3]
      · rcases List.mem_cons.1 he with rfl | hmem
        · exact hk3 _ hdead
        · exact hd3 e hmem

/-- C18: on a well-formed list with `tam == n` the loop of `liberar_lista` ends (any
bound of at least `n` iterations is enough) after exactly `n` calls of
`remover(lista, 0)`, none of which aborts; the nodes at `inicio` in the successive
iterations are the nodes of the list in head-to-tail order; the loop ends with `inicio`
and `fim` `NULL` and `tam` 0, every node of the list deleted, and `liberar_lista`
returns. -/
theorem liberar_lista_libera (m : Mem) (l : ListaDEnc) (fuel : Nat)
    (hwf : BemFormada m l) (hf : l.tam ≤ (fuel : Int)) :
    ∃ s cs, nos_frente m l = some cs ∧
      liberar_laco fuel { mem := m, lista := l } = some (.ok (s, cs.map Prod.fst)) ∧
      ((cs.map Prod.fst).length : Int) = l.tam ∧
      s.lista.inicio = none ∧ s.lista.fim = none ∧ s.lista.tam = 0 ∧
      (∀ c ∈ cs, consultar s.mem c.1 = none) ∧
      liberar_lista m (some l) fuel = some (.ok s.mem) := by
  obtain ⟨cs, hcs⟩ := hwf
  have htam := hcs.2
  have hr : Representa ({ mem := m, lista := l } : Estado).mem
      ({ mem := m, lista := l } : Estado).lista cs := hcs
  obtain ⟨s, hs, hl, hd, _⟩ := liberar_laco_Repr fuel hr (by omega)
  refine ⟨s, cs, nos_frente_Repr hcs, hs, by simp [htam], ?_, ?_, ?_, hd, ?_⟩
  · rw [hl]; rfl
  · rw [hl]; rfl
  · rw [hl]; rfl
  · simp [liberar_lista, hs]

theorem liberar_lista_libera_witness :
    ∃ s cs, nos_frente [some { item := 10, ant := none, prox := some 1 },
        some { item := 20, ant := some 0, prox := none }]
        { inicio := some 0, fim := some 1, tam := 2 } = some cs ∧
      liberar_laco 2
        { mem := [some { item := 10, ant := none, prox := some 1 },
            some { item := 20, ant := some 0, prox := none }],
          lista := { inicio := some 0, fim := some 1, tam := 2 } } =
        some (.ok (s, cs.map Prod.fst)) ∧
      ((cs.map Prod.fst).length : Int) = 2 ∧
      s.lista.inicio = none ∧ s.lista.fim = none ∧ s.lista.tam = 0 ∧
      (∀ c ∈ cs, consultar s.mem c.1 = none) ∧
      liberar_lista [some { item := 10, ant := none, prox := some 1 },
        some { item := 20, ant := some 0, prox := none }]
        (some { inicio := some 0, fim := some 1, tam := 2 }) 2 = some (.ok s.mem) :=
  liberar_lista_libera _ { inicio := some 0, fim := some 1, tam := 2 } 2
    ⟨_, exemplo_Representa⟩ (by decide)

end Listadenc

namespace Filavet

/-! ## Circular indices -/

theorem fv_incrementar_val {i : Int} (h0 : 0 ≤ i) (h1 : i < TAM_MAX) :
    incrementar i = if i = 99 then 0 else i + 1 := by
  unfold TAM_MAX at h1
  unfold incrementar TAM_MAX
  rw [Int.tmod_eq_emod (by omega) (by decide)]
  split <;> omega

theorem fv_incrementar_faixa {i : Int} (h0 : 0 ≤ i) (h1 : i < TAM_MAX) :
    0 ≤ incrementar i ∧ incrementar i < TAM_MAX := by
  rw [fv_incrementar_val h0 h1]
  unfold TAM_MAX at *
  split <;> omega

theorem fv_Conteudo_set {itens : List Int} {q : List Int} {i fim : Int} (x : Int)
    (hc : Conteudo itens i q) (hlen : (q.length : Int) = (fim - i) % TAM_MAX)
    (hi0 : 0 ≤ i) (hi1 : i < TAM_MAX) (hf0 : 0 ≤ fim) (hf1 : fim < TAM_MAX)
    (hfl : fim.toNat < itens.length) :
    Conteudo (itens.set fim.toNat x) i (q ++ [x]) := by
  induction q generalizing i with
  | nil =>
    have hif : i = fim := by
      unfold TAM_MAX at *
      simp at hlen
      omega
    subst hif
    exact ⟨by simp [List.getElem?_set_self hfl], trivial⟩
  | cons y q ih =>
    obtain ⟨hy, hrest⟩ := hc
    obtain ⟨hn0, hn1⟩ := fv_incrementar_faixa hi0 hi1
    have hval := fv_incrementar_val hi0 hi1
    have hne : fim.toNat ≠ i.toNat := by
      unfold TAM_MAX at *
      simp at hlen
      omega
    refine ⟨?_, ih hrest ?_ hn0 hn1⟩
    · rw [List.getElem?_set_ne hne]
      exact hy
    · rw [hval]
      unfold TAM_MAX at *
      simp at hlen
      split <;> omega

theorem fv_Representa_criar (itens0 : List Int) (h0 : (itens0.length : Int) = TAM_MAX) :
    Representa (criar_fila itens0) [] := by
  unfold TAM_MAX at h0
  refine ⟨h0, ?_, ?_, ?_, ?_, ?_, trivial⟩ <;> simp [criar_fila, TAM_MAX]

theorem fv_Representa_vazia {f : FilaVet} {q : List Int} (h : Representa f q) :
    f.inicio = f.fim ↔ q = [] := by
  obtain ⟨_, hi0, hi1, hf0, hf1, hlen, _⟩ := h
  unfold TAM_MAX at *
  constructor
  · intro he
    rw [he] at hlen
    simp at hlen
    exact hlen
  · intro hq
    subst hq
    simp at hlen
    omega

theorem fv_Representa_length {f : FilaVet} {q : List Int} (h : Representa f q) :
    (q.length : Int) ≤ TAM_MAX - 1 := by
  obtain ⟨_, hi0, hi1, hf0, hf1, hlen, _⟩ := h
  unfold TAM_MAX at *
  omega

theorem fv_inserir_Repr {f : FilaVet} {q : List Int} (x : Int) (h : Representa f q)
    (hq : (q.length : Int) < TAM_MAX - 1) :
    ∃ f1, inserir (some f) x = .ok f1 ∧ Representa f1 (q ++ [x]) := by
  obtain ⟨hl, hi0, hi1, hf0, hf1, hlen, hc⟩ := h
  obtain ⟨hn0, hn1⟩ := fv_incrementar_faixa hf0 hf1
  have hval := fv_incrementar_val hf0 hf1
  have hfl : f.fim.toNat < f.itens.length := by
    unfold TAM_MAX at *
    omega
  have hnc : incrementar f.fim ≠ f.inicio := by
    rw [hval]
    unfold TAM_MAX at *
    split <;> omega
  refine ⟨{ f with itens := f.itens.set f.fim.toNat x, fim := incrementar f.fim },
    by simp [inserir, hnc, escrever_item, hf0, hf1, hfl],
    ?_, hi0, hi1, hn0, hn1, ?_, fv_Conteudo_set x hc hlen hi0 hi1 hf0 hf1 hfl⟩
  · simpa using hl
  · show ((q ++ [x]).length : Int) = (incrementar f.fim - f.inicio) % TAM_MAX
    rw [hval]
    unfold TAM_MAX at *
    simp
    split <;> omega

theorem fv_remover_Repr {f : FilaVet} {q : List Int} {x : Int} (h : Representa f (x :: q)) :
    ∃ f1, remover (some f) = .ok (f1, x) ∧ Representa f1 q := by
  have hne : f.inicio ≠ f.fim := fun he => by
    have := (fv_Representa_vazia h).1 he
    cases this
  obtain ⟨hl, hi0, hi1, hf0, hf1, hlen, hx, hc⟩ := h
  obtain ⟨hn0, hn1⟩ := fv_incrementar_faixa hi0 hi1
  have hval := fv_incrementar_val hi0 hi1
  refine ⟨{ f with inicio := incrementar f.inicio },
    by simp [remover, hne, ler_item, hi0, hi1, hx],
    hl, hn0, hn1, hf0, hf1, ?_, hc⟩
  show (q.length : Int) = (f.fim - incrementar f.inicio) % TAM_MAX
  rw [hval]
  unfold TAM_MAX at *
  simp at hlen
  split <;> omega

theorem fv_obter_inicio_Repr {f : FilaVet} {q : List Int} {x : Int} (h : Representa f (x :: q)) :
    obter_inicio (some f) = .ok x := by
  have hne : f.inicio ≠ f.fim := fun he => by
    have := (fv_Representa_vazia h).1 he
    cases this
  obtain ⟨hl, hi0, hi1, hf0, hf1, hlen, hx, hc⟩ := h
  simp [obter_inicio, hne, ler_item, hi0, hi1, hx]

theorem fv_inserir_cheia {f : FilaVet} {q : List Int} (x : Int) (h : Representa f q)
    (hq : ¬ (q.length : Int) < TAM_MAX - 1) : inserir (some f) x = .error .abortado := by
  obtain ⟨hl, hi0, hi1, hf0, hf1, hlen, hc⟩ := h
  have hval := fv_incrementar_val hf0 hf1
  have hnc : incrementar f.fim = f.inicio := by
    rw [hval]
    unfold TAM_MAX at *
    split <;> omega
  simp [inserir, hnc]

theorem fv_remover_vazia {f : FilaVet} (h : Representa f []) :
    remover (some f) = .error .abortado := by
  have he := (fv_Representa_vazia h).2 rfl
  simp [remover, he]

/-! ## Refinement of the first-in first-out queue -/

theorem fv_executar_refina {f : FilaVet} {q : List Int} (ops : List Op) (h : Representa f q)
    {q2 outs : List Int} (hm : fila_abstrata q ops = some (q2, outs)) :
    ∃ f2, executar f ops = .ok (f2, outs) ∧ Representa f2 q2 := by
  induction ops generalizing f q outs with
  | nil =>
    simp only [fila_abstrata, Option.some.injEq, Prod.mk.injEq] at hm
    obtain ⟨hq, ho⟩ := hm
    subst hq ho
    exact ⟨f, rfl, h⟩
  | cons op ops ih =>
    cases op with
    | inserir x =>
      simp only [fila_abstrata] at hm
      split at hm
      · next hlt =>
        obtain ⟨f1, hf1, hr1⟩ := fv_inserir_Repr x h hlt
        obtain ⟨f2, hf2, hr2⟩ := ih hr1 hm
        exact ⟨f2, by simp [executar, hf1, hf2], hr2⟩
      · cases hm
    | remover =>
      cases q with
      | nil => simp [fila_abstrata] at hm
      | cons y q1 =>
        simp only [fila_abstrata] at hm
        obtain ⟨f1, hf1, hr1⟩ := fv_remover_Repr h
        cases hrec : fila_abstrata q1 ops with
        | none => simp [hrec] at hm
        | some r =>
          obtain ⟨q3, out3⟩ := r
          simp only [hrec, Option.some.injEq, Prod.mk.injEq] at hm
          obtain ⟨hq, ho⟩ := hm
          subst hq ho
          obtain ⟨f2, hf2, hr2⟩ := ih hr1 hrec
          exact ⟨f2, by simp [executar, hf1, hf2], hr2⟩

theorem fv_executar_abstrai {f : FilaVet} {q : List Int} (ops : List Op) (h : Representa f q)
    {f2 : FilaVet} {outs : List Int} (he : executar f ops = .ok (f2, outs)) :
    ∃ q2, fila_abstrata q ops = some (q2, outs) ∧ Representa f2 q2 := by
  induction ops generalizing f q outs with
  | nil =>
    simp only [executar, Except.ok.injEq, Prod.mk.injEq] at he
    obtain ⟨hf, ho⟩ := he
    subst hf ho
    exact ⟨q, rfl, h⟩
  | cons op ops ih =>
    cases op with
    | inserir x =>
      by_cases hlt : (q.length : Int) < TAM_MAX - 1
      · obtain ⟨f1, hf1, hr1⟩ := fv_inserir_Repr x h hlt
        simp only [executar, hf1] at he
        obtain ⟨q2, hq2, hr2⟩ := ih hr1 he
        exact ⟨q2, by simp [fila_abstrata, hlt, hq2], hr2⟩
      · simp [executar, fv_inserir_cheia x h hlt] at he
    | remover =>
      cases q with
      | nil => simp [executar, fv_remover_vazia h] at he
      | cons y q1 =>
        obtain ⟨f1, hf1, hr1⟩ := fv_remover_Repr h
        simp only [executar, hf1] at he
        cases hrec : executar f1 ops with
        | error e => simp [hrec] at he
        | ok r =>
          obtain ⟨f3, out3⟩ := r
          simp only [hrec, Except.ok.injEq, Prod.mk.injEq] at he
          obtain ⟨hf, ho⟩ := he
          subst hf ho
          obtain ⟨q2, hq2, hr2⟩ := ih hr1 hrec
          exact ⟨q2, by simp [fila_abstrata, hq2], hr2⟩

theorem fv_inserir_todos_Repr {f : FilaVet} {q : List Int} (xs : List Int) (h : Representa f q)
    (hcap : (q.length : Int) + xs.length ≤ TAM_MAX - 1) :
    ∃ f1, inserir_todos f xs = .ok f1 ∧ Representa f1 (q ++ xs) := by
  induction xs generalizing f q with
  | nil => exact ⟨f, rfl, by simpa using h⟩
  | cons x xs ih =>
    simp only [List.length_cons, Nat.cast_add, Nat.cast_one] at hcap
    obtain ⟨f1, hf1, hr1⟩ := fv_inserir_Repr x h (by omega)
    obtain ⟨f2, hf2, hr2⟩ := ih hr1 (by simp; omega)
    exact ⟨f2, by simp [inserir_todos, hf1, hf2], by simpa using hr2⟩

theorem fv_esvaziar_Repr {f : FilaVet} {q : List Int} (fuel : Nat) (h : Representa f q)
    (hf : q.length ≤ fuel) :
    ∃ f1, esvaziar fuel f = some (.ok (f1, q)) ∧ Representa f1 [] := by
  induction q generalizing f fuel with
  | nil =>
    have he := (fv_Representa_vazia h).2 rfl
    exact ⟨f, by cases fuel <;> simp [esvaziar, he], h⟩
  | cons x q ih =>
    have hne : f.inicio ≠ f.fim := fun he => by
      have := (fv_Representa_vazia h).1 he
      cases this
    cases fuel with
    | zero => simp at hf
    | succ fuel =>
      obtain ⟨f1, hf1, hr1⟩ := fv_remover_Repr h
      obtain ⟨f2, hf2, hr2⟩ := ih fuel hr1 (by simpa using hf)
      exact ⟨f2, by simp [esvaziar, hne, hf1, hf2], hr2⟩

/-- C19: on a queue fresh from `criar_fila`, (1) inserting `n <= TAM_MAX - 1` items and
then calling `remover` until `estah_vazia` is true returns exactly the items in
insertion order and leaves the queue empty (any bound of at least `n` iterations is
enough for the loop); (2) a sequence of `inserir` and `remover` calls runs to the end
exactly when it is allowed on the first-in first-out queue of capacity `TAM_MAX - 1`,
and then every `remover` returns what that queue returns: the oldest item not yet
removed. -/
theorem fila_vet_fifo (itens0 : List Int) (h0 : (itens0.length : Int) = TAM_MAX)
    (xs : List Int) (ops : List Op) :
    ((xs.length : Int) ≤ TAM_MAX - 1 →
      ∃ f, inserir_todos (criar_fila itens0) xs = .ok f ∧
        ∀ fuel, xs.length ≤ fuel →
          ∃ f1, esvaziar fuel f = some (.ok (f1, xs)) ∧ estah_vazia (some f1) = .ok true) ∧
    (∀ q outs, fila_abstrata [] ops = some (q, outs) →
      ∃ f, executar (criar_fila itens0) ops = .ok (f, outs)) ∧
    (∀ f outs, executar (criar_fila itens0) ops = .ok (f, outs) →
      ∃ q, fila_abstrata [] ops = some (q, outs)) := by
  have hr0 := fv_Representa_criar itens0 h0
  refine ⟨fun hn => ?_, fun q outs hm => ?_, fun f outs he => ?_⟩
  · obtain ⟨f, hf, hr⟩ := fv_inserir_todos_Repr xs hr0 (by simpa using hn)
    refine ⟨f, hf, fun fuel hfu => ?_⟩
    obtain ⟨f1, hf1, hr1⟩ := fv_esvaziar_Repr fuel hr (by simpa using hfu)
    refine ⟨f1, by simpa using hf1, ?_⟩
    have he := (fv_Representa_vazia hr1).2 rfl
    simp [estah_vazia, he]
  · obtain ⟨f, hf, _⟩ := fv_executar_refina ops hr0 hm
    exact ⟨f, hf⟩
  · obtain ⟨q, hq, _⟩ := fv_executar_abstrai ops hr0 he
    exact ⟨q, hq⟩

theorem fila_vet_fifo_witness :
    ∃ f, inserir_todos (criar_fila (List.replicate 100 0)) [1, 2, 3] = .ok f ∧
      ∀ fuel, [1, 2, 3].length ≤ fuel →
        ∃ f1, esvaziar fuel f = some (.ok (f1, [1, 2, 3])) ∧
          estah_vazia (some f1) = .ok true :=
  (fila_vet_fifo (List.replicate 100 0) (by decide) [1, 2, 3] []).1 (by decide)

end Filavet

namespace Filaenc

/-! ## Store and chain lemmas -/

theorem fe_consultar_lt {m : Mem} {a : Nat} {n : Noh} (h : consultar m a = some n) :
    a < m.length := by
  by_contra hlt
  have : m[a]? = none := List.getElem?_eq_none (by omega)
  simp [consultar, this] at h

theorem fe_consultar_set_eq {m : Mem} {a : Nat} (v : Option Noh) (h : a < m.length) :
    consultar (m.set a v) a = v := by
  unfold consultar
  rw [List.getElem?_set_self h]
  cases v <;> rfl

theorem fe_consultar_set_ne {m : Mem} {a b : Nat} (v : Option Noh) (h : b ≠ a) :
    consultar (m.set b v) a = consultar m a := by
  unfold consultar
  rw [List.getElem?_set_ne h]

theorem fe_consultar_append {m : Mem} {a : Nat} (e : Mem) (h : a < m.length) :
    consultar (m ++ e) a = consultar m a := by
  unfold consultar
  rw [List.getElem?_append_left h]

theorem fe_consultar_novo (m : Mem) (n : Noh) :
    consultar (m ++ [some n]) m.length = some n := by
  unfold consultar
  simp

theorem fe_Trecho_cons {m : Mem} {f n : Ptr} {c : Nat × Int} {cs : List (Nat × Int)} :
    Trecho m f (c :: cs) n ↔
      f = some c.1 ∧ ∃ q, consultar m c.1 = some { item := c.2, prox := q } ∧
        Trecho m q cs n := Iff.rfl

theorem fe_Trecho_append {m : Mem} {c1 c2 : List (Nat × Int)} {f n : Ptr} :
    Trecho m f (c1 ++ c2) n ↔ ∃ mid, Trecho m f c1 mid ∧ Trecho m mid c2 n := by
  induction c1 generalizing f with
  | nil =>
    constructor
    · intro h
      exact ⟨f, rfl, h⟩
    · rintro ⟨mid, h1, h⟩
      have hfm : f = mid := h1
      subst hfm
      exact h
  | cons c cs ih =>
    simp only [List.cons_append, fe_Trecho_cons, ih]
    constructor
    · rintro ⟨hf, q, hq, mid, h1, h2⟩
      exact ⟨mid, ⟨hf, q, hq, h1⟩, h2⟩
    · rintro ⟨mid, ⟨hf, q, hq, h1⟩, h2⟩
      exact ⟨hf, q, hq, mid, h1, h2⟩

theorem fe_Trecho_set {m : Mem} {cs : List (Nat × Int)} {f n : Ptr} (b : Nat)
    (v : Option Noh) (hb : ∀ c ∈ cs, c.1 ≠ b) (h : Trecho m f cs n) :
    Trecho (m.set b v) f cs n := by
  induction cs generalizing f with
  | nil => exact h
  | cons d ds ih =>
    obtain ⟨hf, q, hq, hrest⟩ := h
    refine ⟨hf, q, ?_, ih (fun c hc => hb c (List.mem_cons_of_mem _ hc)) hrest⟩
    rw [fe_consultar_set_ne v (Ne.symm (hb d (List.mem_cons_self _ _)))]
    exact hq

theorem fe_Trecho_novo {m : Mem} {cs : List (Nat × Int)} {f n : Ptr} (e : Mem)
    (h : Trecho m f cs n) : Trecho (m ++ e) f cs n := by
  induction cs generalizing f with
  | nil => exact h
  | cons d ds ih =>
    obtain ⟨hf, q, hq, hrest⟩ := h
    refine ⟨hf, q, ?_, ih hrest⟩
    rw [fe_consultar_append e (fe_consultar_lt hq)]
    exact hq

theorem fe_Trecho_unico {m : Mem} {cs cs2 : List (Nat × Int)} {f : Ptr}
    (h : Trecho m f cs none) (h2 : Trecho m f cs2 none) : cs = cs2 := by
  induction cs generalizing f cs2 with
  | nil =>
    cases cs2 with
    | nil => rfl
    | cons d ds =>
      have hf : f = none := h
      obtain ⟨hf2, _⟩ := h2
      rw [hf] at hf2
      cases hf2
  | cons c cs ih =>
    cases cs2 with
    | nil =>
      obtain ⟨hf, _⟩ := h
      have hf2 : f = none := h2
      rw [hf2] at hf
      cases hf
    | cons d ds =>
      obtain ⟨hf, q, hq, hrest⟩ := h
      obtain ⟨hf2, q2, hq2, hrest2⟩ := h2
      rw [hf] at hf2
      have hcd : c.1 = d.1 := Option.some.inj hf2
      rw [← hcd, hq] at hq2
      have hnode := Option.some.inj hq2
      have hitem : c.2 = d.2 := congrArg Noh.item hnode
      have hprox : q = q2 := congrArg Noh.prox hnode
      subst hprox
      have := ih hrest hrest2
      subst this
      have : c = d := Prod.ext hcd hitem
      rw [this]

theorem fe_Trecho_nodup {m : Mem} {cs : List (Nat × Int)} {f : Ptr}
    (h : Trecho m f cs none) : (cs.map Prod.fst).Nodup := by
  induction cs generalizing f with
  | nil => exact List.nodup_nil
  | cons c cs ih =>
    have hall := h
    obtain ⟨hf, q, hq, hrest⟩ := h
    rw [List.map_cons, List.nodup_cons]
    refine ⟨?_, ih hrest⟩
    intro hmem
    obtain ⟨d, hd, hdc⟩ := List.mem_map.1 hmem
    obtain ⟨s, t, hst⟩ := List.append_of_mem hd
    rw [hst] at hall
    have hsplit : Trecho m f ((c :: s) ++ d :: t) none := hall
    rw [fe_Trecho_append] at hsplit
    obtain ⟨mid, _, hsuf⟩ := hsplit
    have hmid : mid = f := by
      obtain ⟨hm, _⟩ := hsuf
      rw [hm, hf, hdc]
    rw [hmid] at hsuf
    have := congrArg List.length (fe_Trecho_unico hall hsuf)
    simp at this
    omega

/-! ## Queue operations on a represented queue -/

theorem fe_Representa_criar (m0 : Mem) : Representa m0 criar_fila [] :=
  ⟨rfl, rfl⟩

theorem fe_inserir_Repr {m : Mem} {f : FilaEnc} {cs : List (Nat × Int)} (x : Int)
    (h : Representa m f cs) :
    ∃ s, inserir m (some f) x = .ok s ∧ Representa s.mem s.fila (cs ++ [(m.length, x)]) := by
  obtain ⟨hseg, hfim⟩ := h
  have hnd := fe_Trecho_nodup hseg
  rcases List.eq_nil_or_concat cs with hnil | ⟨ds, b, hds⟩
  · subst hnil
    have hi : f.inicio = none := hseg
    have hf : f.fim = none := hfim
    refine ⟨Estado.mk (m ++ [some { item := x, prox := none }])
      { inicio := some m.length, fim := some m.length },
      by simp [inserir, hf], ⟨rfl, none, fe_consultar_novo m _, rfl⟩, rfl⟩
  · rw [List.concat_eq_append] at hds
    subst hds
    have hf : f.fim = some b.1 := by simpa using hfim
    rw [fe_Trecho_append] at hseg
    obtain ⟨mid, hpre, hmid, q, hq, hqn⟩ := hseg
    have hqn2 : q = none := hqn
    subst hqn2
    have hbl := fe_consultar_lt hq
    have hq1 : consultar (m ++ [some { item := x, prox := none }]) b.1 =
        some { item := b.2, prox := none } := by
      rw [fe_consultar_append _ hbl]; exact hq
    have hdisj : ∀ c ∈ ds, c.1 ≠ b.1 := by
      intro c hc hcb
      rw [List.map_append, List.nodup_append] at hnd
      exact hnd.2.2 (List.mem_map.2 ⟨c, hc, rfl⟩) (by simp [hcb])
    refine ⟨Estado.mk (List.set (m ++ [some { item := x, prox := none }]) b.1
        (some { item := b.2, prox := some m.length })) { f with fim := some m.length },
      by simp [inserir, hf, modificar, hq1], ?_, by simp⟩
    show Trecho _ f.inicio ((ds ++ [b]) ++ [(m.length, x)]) none
    rw [fe_Trecho_append]
    refine ⟨some m.length, ?_, rfl, none, ?_, rfl⟩
    · rw [fe_Trecho_append]
      refine ⟨mid, fe_Trecho_set _ _ hdisj (fe_Trecho_novo _ hpre), hmid, some m.length, ?_, rfl⟩
      exact fe_consultar_set_eq _ (by simp; omega)
    · show consultar (List.set _ b.1 _) m.length = _
      rw [fe_consultar_set_ne _ (by omega)]
      exact fe_consultar_novo m _

theorem fe_Representa_inicio_ne {m : Mem} {f : FilaEnc} {c : Nat × Int}
    {cs : List (Nat × Int)} (h : Representa m f (c :: cs)) : f.inicio ≠ none := by
  obtain ⟨⟨hi, _⟩, _⟩ := h
  rw [hi]
  exact Option.some_ne_none _

theorem fe_remover_Repr {m : Mem} {f : FilaEnc} {c : Nat × Int} {cs : List (Nat × Int)}
    (h : Representa m f (c :: cs)) :
    ∃ s, remover m (some f) = .ok (s, c.2) ∧ Representa s.mem s.fila cs := by
  have hine := fe_Representa_inicio_ne h
  obtain ⟨hseg, hfim⟩ := h
  have hnd := fe_Trecho_nodup hseg
  obtain ⟨hi, q, hq, hrest⟩ := hseg
  have hcl := fe_consultar_lt hq
  rw [List.map_cons, List.nodup_cons] at hnd
  have hfr : Trecho (m.set c.1 none) q cs none :=
    fe_Trecho_set _ _ (fun d hd hdc => hnd.1 (List.mem_map.2 ⟨d, hd, hdc⟩)) hrest
  cases cs with
  | nil =>
    have hqn : q = none := hrest
    subst hqn
    refine ⟨Estado.mk (m.set c.1 none) { inicio := none, fim := none },
      by simp [remover, hi, ler, hq, apagar], hfr, rfl⟩
  | cons d ds =>
    obtain ⟨hqd, _⟩ := hrest
    subst hqd
    refine ⟨Estado.mk (m.set c.1 none) { f with inicio := some d.1 },
      by simp [remover, hi, ler, hq, apagar], hfr, ?_⟩
    simpa using hfim

theorem fe_obter_inicio_Repr {m : Mem} {f : FilaEnc} {c : Nat × Int}
    {cs : List (Nat × Int)} (h : Representa m f (c :: cs)) :
    obter_inicio m (some f) = .ok c.2 := by
  obtain ⟨⟨hi, q, hq, _⟩, _⟩ := h
  simp [obter_inicio, hi, ler, hq]

theorem fe_remover_vazia {m : Mem} {f : FilaEnc} (h : Representa m f []) :
    remover m (some f) = .error .abortado := by
  have hi : f.inicio = none := h.1
  simp [remover, hi]

theorem fe_inserir_todos_Repr {s : Estado} {cs : List (Nat × Int)} (xs : List Int)
    (h : Representa s.mem s.fila cs) :
    ∃ s1 cs1, inserir_todos s xs = .ok s1 ∧ Representa s1.mem s1.fila cs1 ∧
      cs1.map Prod.snd = cs.map Prod.snd ++ xs := by
  induction xs generalizing s cs with
  | nil => exact ⟨s, cs, rfl, h, by simp⟩
  | cons x xs ih =>
    obtain ⟨s1, hs1, hr1⟩ := fe_inserir_Repr x h
    obtain ⟨s2, cs2, hs2, hr2, hm2⟩ := ih hr1
    exact ⟨s2, cs2, by simp [inserir_todos, hs1, hs2], hr2, by simp [hm2]⟩

theorem fe_esvaziar_Repr {s : Estado} {cs : List (Nat × Int)} (fuel : Nat)
    (h : Representa s.mem s.fila cs) (hf : cs.length ≤ fuel) :
    ∃ s1, esvaziar fuel s = some (.ok (s1, cs.map Prod.snd)) ∧
      Representa s1.mem s1.fila [] := by
  induction cs generalizing s fuel with
  | nil =>
    have hi : s.fila.inicio = none := h.1
    exact ⟨s, by cases fuel <;> simp [esvaziar, hi], h⟩
  | cons c cs ih =>
    have hine := fe_Representa_inicio_ne h
    cases fuel with
    | zero => simp at hf
    | succ fuel =>
      obtain ⟨s1, hs1, hr1⟩ := fe_remover_Repr h
      obtain ⟨s2, hs2, hr2⟩ := ih fuel hr1 (by simpa using hf)
      exact ⟨s2, by simp [esvaziar, hine, hs1, hs2], hr2⟩

theorem fe_executar_Repr {s s1 : Estado} {cs : List (Nat × Int)} (ops : List Op)
    (h : Representa s.mem s.fila cs) (he : executar s ops = .ok s1) :
    ∃ cs1, Representa s1.mem s1.fila cs1 := by
  induction ops generalizing s cs with
  | nil =>
    simp only [executar, Except.ok.injEq] at he
    subst he
    exact ⟨cs, h⟩
  | cons op ops ih =>
    cases op with
    | inserir x =>
      obtain ⟨s2, hs2, hr2⟩ := fe_inserir_Repr x h
      simp only [executar, hs2] at he
      exact ih hr2 he
    | remover =>
      cases cs with
      | nil => simp [executar, fe_remover_vazia h] at he
      | cons c cs =>
        obtain ⟨s2, hs2, hr2⟩ := fe_remover_Repr h
        simp only [executar, hs2] at he
        exact ih hr2 he

/-- C20: on a queue fresh from `criar_fila`, (1) inserting `x_1, ..., x_n` and then
calling `remover` until `estah_vazia` is true returns exactly `x_1, ..., x_n` in
insertion order and leaves the queue empty (any bound of at least `n` iterations is
enough for the loop); (2) in every state reached by calls of `inserir` and `remover` in
which the queue is not empty, `obter_inicio` returns, leaves the state as it was, and
its value is the one the next `remover` returns. -/
theorem fila_enc_fifo (m0 : Mem) (xs : List Int) (ops : List Op) :
    (∃ s, inserir_todos (inicial m0) xs = .ok s ∧
      ∀ fuel, xs.length ≤ fuel →
        ∃ s1, esvaziar fuel s = some (.ok (s1, xs)) ∧
          estah_vazia (some s1.fila) = .ok true) ∧
    (∀ s, executar (inicial m0) ops = .ok s → estah_vazia (some s.fila) = .ok false →
      ∃ x s1, obter_inicio s.mem (some s.fila) = .ok x ∧
        obter_inicio_estado s = .ok (s, x) ∧
        remover s.mem (some s.fila) = .ok (s1, x)) := by
  have hr0 : Representa (inicial m0).mem (inicial m0).fila [] := fe_Representa_criar m0
  constructor
  · obtain ⟨s, cs, hs, hr, hm⟩ := fe_inserir_todos_Repr xs hr0
    have hm2 : cs.map Prod.snd = xs := by simpa using hm
    have hlen : cs.length = xs.length := by
      have := congrArg List.length hm2
      simpa using this
    refine ⟨s, hs, fun fuel hfu => ?_⟩
    obtain ⟨s1, hs1, hr1⟩ := fe_esvaziar_Repr fuel hr (by omega)
    rw [hm2] at hs1
    refine ⟨s1, hs1, ?_⟩
    have hi : s1.fila.inicio = none := hr1.1
    simp [estah_vazia, hi]
  · intro s he hnv
    obtain ⟨cs, hr⟩ := fe_executar_Repr ops hr0 he
    cases cs with
    | nil =>
      have hi : s.fila.inicio = none := hr.1
      simp [estah_vazia, hi] at hnv
    | cons c cs =>
      obtain ⟨s1, hs1, _⟩ := fe_remover_Repr hr
      have ho := fe_obter_inicio_Repr hr
      exact ⟨c.2, s1, ho, by simp [obter_inicio_estado, ho], hs1⟩

theorem fila_enc_fifo_witness :
    ∃ x s1, obter_inicio
        [some { item := 1, prox := some 1 }, some { item := 2, prox := none }]
        (some { inicio := some 0, fim := some 1 }) = .ok x ∧
      obter_inicio_estado
        (Estado.mk [some { item := 1, prox := some 1 }, some { item := 2, prox := none }]
          { inicio := some 0, fim := some 1 }) =
        .ok (Estado.mk [some { item := 1, prox := some 1 }, some { item := 2, prox := none }]
          { inicio := some 0, fim := some 1 }, x) ∧
      remover [some { item := 1, prox := some 1 }, some { item := 2, prox := none }]
        (some { inicio := some 0, fim := some 1 }) = .ok (s1, x) :=
  (fila_enc_fifo [] [1, 2, 3] [.inserir 1, .inserir 2]).2
    (Estado.mk [some { item := 1, prox := some 1 }, some { item := 2, prox := none }]
      { inicio := some 0, fim := some 1 }) rfl rfl

end Filaenc

namespace Listadenc

/-! ## The documented example of `obter_fim` -/

theorem imprimir_fins_Repr {s : Estado} {cs : List (Nat × Int)} {c : Nat × Int} (fuel : Nat)
    (h : Representa s.mem s.lista (cs ++ [c])) (hf : cs.length + 1 ≤ fuel) :
    ∃ s1, imprimir_fins fuel s = some (.ok (s1, List.replicate (cs.length + 1) c.2)) := by
  induction cs generalizing s fuel with
  | nil =>
    cases fuel with
    | zero => simp at hf
    | succ fuel =>
      have hine := Repr_inicio_ne h (by simp)
      have hfim := obter_fim_Repr h
      have h1 : Representa s.mem s.lista [c] := h
      obtain ⟨s1, hs1, hr1, _⟩ := remover_inicio_Repr h1
      have hi1 : s1.lista.inicio = none := hr1.1.1
      refine ⟨s1, ?_⟩
      have hend : imprimir_fins fuel s1 = some (.ok (s1, [])) := by
        cases fuel <;> simp [imprimir_fins, hi1]
      simp [imprimir_fins, hine, hfim, hs1, hend]
  | cons d ds ih =>
    cases fuel with
    | zero => simp at hf
    | succ fuel =>
      have hine := Repr_inicio_ne h (by simp)
      have h2 : Representa s.mem s.lista ((d :: ds) ++ [c]) := h
      have hfim := obter_fim_Repr h2
      have h1 : Representa s.mem s.lista (d :: (ds ++ [c])) := h
      obtain ⟨s1, hs1, hr1, _⟩ := remover_inicio_Repr h1
      obtain ⟨s2, hs2⟩ := ih fuel hr1 (by simpa using hf)
      refine ⟨s2, ?_⟩
      simp [imprimir_fins, hine, hfim, hs1, hs2, List.replicate_succ]

/-- C27, as amended: the documented example of `obter_fim` run on the code.  After
`inserir(1, 0)`, `inserir(3, 1)`, `inserir(2, 1)` on a fresh list the loop
`while (!estah_vazia(li)) { print obter_fim(li); remover_inicio(li); }` ends (three
iterations are enough) and prints 3, 3, 3: `obter_fim` reads the last element, which
stays 3 while `remover_inicio` takes elements from the head. -/
theorem exemplo_obter_fim (m0 : Mem) (fuel : Nat) (hf : 3 ≤ fuel) :
    ∃ s s1, executar (inicial m0) [.inserir 1 0, .inserir 3 1, .inserir 2 1] = .ok s ∧
      elementos s.mem s.lista = some [1, 2, 3] ∧
      imprimir_fins fuel s = some (.ok (s1, [3, 3, 3])) ∧
      imprimir_fins fuel s ≠ some (.ok (s1, [3, 2, 1])) := by
  have h0 : Representa m0 criar_listad [] := Representa_inicial m0
  obtain ⟨s1, hs1, hr1, ht1⟩ := inserir_Repr 1 0 h0 (le_refl _) (le_refl _)
  have hr1b : Representa s1.mem s1.lista [(m0.length, 1)] := by simpa using hr1
  have ht1b : s1.lista.tam = 1 := by rw [ht1]; rfl
  obtain ⟨s2, hs2, hr2, ht2⟩ := inserir_Repr 3 1 hr1b (by decide) (by rw [ht1b])
  have hr2b : Representa s2.mem s2.lista [(m0.length, 1), (s1.mem.length, 3)] := by
    simpa using hr2
  have ht2b : s2.lista.tam = 2 := by rw [ht2, ht1b]; rfl
  obtain ⟨s3, hs3, hr3, _⟩ := inserir_Repr 2 1 hr2b (by decide) (by rw [ht2b]; decide)
  have hr3b : Representa s3.mem s3.lista
      ([(m0.length, 1), (s2.mem.length, 2)] ++ [(s1.mem.length, 3)]) := by
    simpa using hr3
  obtain ⟨s4, hs4⟩ := imprimir_fins_Repr fuel hr3b (by simpa using hf)
  have hs4b : imprimir_fins fuel s3 = some (.ok (s4, [3, 3, 3])) := hs4
  have hex : executar (inicial m0) [.inserir 1 0, .inserir 3 1, .inserir 2 1] = .ok s3 := by
    have e1 : inserir (inicial m0).mem (some (inicial m0).lista) 1 0 = .ok s1 := hs1
    simp [executar, Op.aplicar, e1, hs2, hs3]
  refine ⟨s3, s4, hex, ?_, hs4b, ?_⟩
  · rw [elementos_Repr hr3b]; rfl
  · rw [hs4b]
    intro hcon
    simp at hcon

theorem exemplo_obter_fim_witness :
    ∃ s s1, executar (inicial []) [.inserir 1 0, .inserir 3 1, .inserir 2 1] = .ok s ∧
      elementos s.mem s.lista = some [1, 2, 3] ∧
      imprimir_fins 3 s = some (.ok (s1, [3, 3, 3])) ∧
      imprimir_fins 3 s ≠ some (.ok (s1, [3, 2, 1])) :=
  exemplo_obter_fim [] 3 (by decide)

end Listadenc

namespace Filavet

/-! ## Capacity of the circular buffer -/

theorem fv_cheia_sse {f : FilaVet} {q : List Int} (h : Representa f q) :
    incrementar f.fim = f.inicio ↔ (q.length : Int) = TAM_MAX - 1 := by
  obtain ⟨_, hi0, hi1, hf0, hf1, hlen, _⟩ := h
  rw [fv_incrementar_val hf0 hf1]
  unfold TAM_MAX at *
  constructor
  · intro he
    split at he <;> omega
  · intro he
    split <;> omega

theorem fv_contagem {f : FilaVet} {q : List Int} (h : Representa f q) :
    (q.length : Int) = (f.fim - f.inicio + TAM_MAX) % TAM_MAX := by
  obtain ⟨_, hi0, hi1, hf0, hf1, hlen, _⟩ := h
  unfold TAM_MAX at *
  omega

/-- C28, as amended: a queue reached from `criar_fila` that holds fewer than
`TAM_MAX - 1` items is not full and `inserir` returns on it; one that holds
`TAM_MAX - 1` items is full and `inserir` aborts; so `TAM_MAX - 1` consecutive
`inserir` calls on a fresh queue all return. -/
theorem capacidade_fila_vet (itens0 : List Int) (h0 : (itens0.length : Int) = TAM_MAX)
    (ops : List Op) (f : FilaVet) (outs : List Int) (x : Int)
    (he : executar (criar_fila itens0) ops = .ok (f, outs)) :
    ∃ q, fila_abstrata [] ops = some (q, outs) ∧
      ((q.length : Int) < TAM_MAX - 1 →
        estah_cheia (some f) = .ok false ∧ ∃ f1, inserir (some f) x = .ok f1) ∧
      ((q.length : Int) = TAM_MAX - 1 →
        estah_cheia (some f) = .ok true ∧ inserir (some f) x = .error .abortado) ∧
      (∀ xs : List Int, (xs.length : Int) ≤ TAM_MAX - 1 →
        ∃ f2, inserir_todos (criar_fila itens0) xs = .ok f2) := by
  have hr0 := fv_Representa_criar itens0 h0
  obtain ⟨q, hq, hr⟩ := fv_executar_abstrai ops hr0 he
  have hc := fv_cheia_sse hr
  refine ⟨q, hq, fun hlt => ?_, fun heq => ?_, fun xs hxs => ?_⟩
  · have hne : ¬ incrementar f.fim = f.inicio := fun hh => by
      have := hc.1 hh
      omega
    obtain ⟨f1, hf1, _⟩ := fv_inserir_Repr x hr hlt
    exact ⟨by simp [estah_cheia, hne], f1, hf1⟩
  · have hfull := hc.2 heq
    exact ⟨by simp [estah_cheia, hfull], fv_inserir_cheia x hr (by omega)⟩
  · obtain ⟨f2, hf2, _⟩ := fv_inserir_todos_Repr xs hr0 (by simpa using hxs)
    exact ⟨f2, hf2⟩

theorem capacidade_fila_vet_witness :
    ∃ q, fila_abstrata [] [.inserir 1, .inserir 2, .remover] = some (q, [1]) ∧
      ((q.length : Int) < TAM_MAX - 1 →
        estah_cheia (some (FilaVet.mk ((List.replicate 100 0).set 0 1 |>.set 1 2) 1 2)) =
          .ok false ∧
        ∃ f1, inserir (some (FilaVet.mk ((List.replicate 100 0).set 0 1 |>.set 1 2) 1 2)) 5 =
          .ok f1) :=
  (capacidade_fila_vet (List.replicate 100 0) (by decide)
    [.inserir 1, .inserir 2, .remover]
    (FilaVet.mk ((List.replicate 100 0).set 0 1 |>.set 1 2) 1 2) [1] 5 rfl).imp
    (fun _ h => ⟨h.1, h.2.1⟩)

/-- C28 as stated fails: after 99 `inserir` calls on a fresh queue the queue holds 99
items, fewer than `TAM_MAX`, yet `estah_cheia` is true and the next `inserir` aborts;
100 consecutive `inserir` calls do not all return. -/
theorem capacidade_fila_vet_contra :
    ∃ f, inserir_todos (criar_fila (List.replicate 100 0)) (List.replicate 99 7) = .ok f ∧
      Representa f (List.replicate 99 7) ∧
      (((List.replicate 99 (7 : Int)).length : Int) < TAM_MAX) ∧
      estah_cheia (some f) = .ok true ∧
      inserir (some f) 7 = .error .abortado ∧
      ∀ f2 outs, executar (criar_fila (List.replicate 100 0))
        (List.replicate 100 (Op.inserir 7)) ≠ .ok (f2, outs) := by
  have hr0 := fv_Representa_criar (List.replicate 100 0) (by decide)
  obtain ⟨f, hf, hr⟩ := fv_inserir_todos_Repr (List.replicate 99 7) hr0 (by decide)
  have hr2 : Representa f (List.replicate 99 7) := by simpa using hr
  have hfull := (fv_cheia_sse hr2).2 (by decide)
  refine ⟨f, hf, hr2, by decide, by simp [estah_cheia, hfull],
    fv_inserir_cheia 7 hr2 (by decide), fun f2 outs he => ?_⟩
  obtain ⟨q, hq, _⟩ := fv_executar_abstrai _ hr0 he
  have hnone : fila_abstrata [] (List.replicate 100 (Op.inserir 7)) = none := by decide
  rw [hnone] at hq
  cases hq

end Filavet

namespace Pilhavet

/-! ## Array stack -/

theorem pv_take_set (l : List Int) (n : Nat) (x : Int) (h : n < l.length) :
    (l.set n x).take (n + 1) = l.take n ++ [x] := by
  induction l generalizing n with
  | nil => simp at h
  | cons a l ih =>
    cases n with
    | zero => simp
    | succ n =>
      simp only [List.length_cons] at h
      simp [ih n (by omega)]

theorem pv_take_snoc {l : List Int} {n : Nat} {ys : List Int} {x : Int}
    (h : l.take (n + 1) = ys ++ [x]) (hn : n < l.length) :
    l[n]? = some x ∧ l.take n = ys := by
  have hlen : ys.length = n := by
    have := congrArg List.length h
    simp at this
    omega
  have h2 : l.take (n + 1) = l.take n ++ [l[n]] := by
    rw [List.take_succ, List.getElem?_eq_getElem hn]
    rfl
  rw [h2] at h
  have hlen2 : (l.take n).length = ys.length := by simp; omega
  have := List.append_inj h hlen2
  refine ⟨?_, this.1⟩
  rw [List.getElem?_eq_getElem hn]
  simpa using this.2

theorem pv_Representa_criar (itens0 : List Int) (h0 : (itens0.length : Int) = TAM_MAX) :
    Representa (criar_pilha itens0) [] := by
  refine ⟨h0, le_refl _, ?_, ?_⟩
  · show (0 : Int) ≤ TAM_MAX
    unfold TAM_MAX; decide
  · simp [criar_pilha]

theorem pv_Representa_length {p : PilhaVet} {xs : List Int} (h : Representa p xs) :
    (xs.length : Int) = p.topo := by
  obtain ⟨hl, h0, h1, ht⟩ := h
  rw [← ht, List.length_take]
  omega

theorem pv_empilhar_Repr {p : PilhaVet} {xs : List Int} (x : Int) (h : Representa p xs)
    (hq : (xs.length : Int) < TAM_MAX) :
    ∃ p1, empilhar (some p) x = .ok p1 ∧ Representa p1 (xs ++ [x]) := by
  have hlen := pv_Representa_length h
  obtain ⟨hl, h0, h1, ht⟩ := h
  have hne : ¬ p.topo = TAM_MAX := by omega
  have hlt : p.topo < TAM_MAX := by omega
  have hfl : p.topo.toNat < p.itens.length := by omega
  refine ⟨{ itens := p.itens.set p.topo.toNat x, topo := p.topo + 1 },
    by simp [empilhar, hne, escrever_item, h0, hlt, hfl], ?_, ?_, ?_, ?_⟩
  · simpa using hl
  · show 0 ≤ p.topo + 1
    omega
  · show p.topo + 1 ≤ TAM_MAX
    omega
  · show (p.itens.set p.topo.toNat x).take (p.topo + 1).toNat = xs ++ [x]
    have : (p.topo + 1).toNat = p.topo.toNat + 1 := by omega
    rw [this, pv_take_set _ _ _ hfl, ht]

theorem pv_desempilhar_Repr {p : PilhaVet} {xs : List Int} {x : Int}
    (h : Representa p (xs ++ [x])) :
    ∃ p1, desempilhar (some p) = .ok (p1, x) ∧ obter_topo (some p) = .ok x ∧
      Representa p1 xs := by
  have hlen := pv_Representa_length h
  obtain ⟨hl, h0, h1, ht⟩ := h
  simp only [List.length_append, List.length_singleton, Nat.cast_add, Nat.cast_one] at hlen
  have hne : ¬ p.topo = 0 := by omega
  have hk : p.topo.toNat = (p.topo - 1).toNat + 1 := by omega
  rw [hk] at ht
  obtain ⟨hx, hys⟩ := pv_take_snoc ht (by omega)
  have hr : ler_item p.itens (p.topo - 1) = .ok x := by
    have ha : 0 ≤ p.topo - 1 := by omega
    have hb : p.topo - 1 < TAM_MAX := by omega
    unfold ler_item
    rw [if_pos ⟨ha, hb⟩, hx]
  refine ⟨{ p with topo := p.topo - 1 }, by simp [desempilhar, hne, hr],
    by simp [obter_topo, hne, hr], hl, ?_, ?_, hys⟩
  · show 0 ≤ p.topo - 1
    omega
  · show p.topo - 1 ≤ TAM_MAX
    omega

theorem pv_empilhar_todos_Repr {p : PilhaVet} {ys : List Int} (xs : List Int)
    (h : Representa p ys) (hcap : (ys.length : Int) + xs.length ≤ TAM_MAX) :
    ∃ p1, empilhar_todos p xs = .ok p1 ∧ Representa p1 (ys ++ xs) := by
  induction xs generalizing p ys with
  | nil => exact ⟨p, rfl, by simpa using h⟩
  | cons x xs ih =>
    simp only [List.length_cons, Nat.cast_add, Nat.cast_one] at hcap
    obtain ⟨p1, hp1, hr1⟩ := pv_empilhar_Repr x h (by omega)
    obtain ⟨p2, hp2, hr2⟩ := ih hr1 (by simp; omega)
    exact ⟨p2, by simp [empilhar_todos, hp1, hp2], by simpa using hr2⟩

theorem pv_esvaziar_Repr {p : PilhaVet} {xs : List Int} (fuel : Nat) (h : Representa p xs)
    (hf : xs.length ≤ fuel) :
    ∃ p1, esvaziar fuel p = some (.ok (p1, xs.reverse)) ∧ Representa p1 [] := by
  induction xs using List.reverseRecOn generalizing p fuel with
  | nil =>
    have ht := pv_Representa_length h
    have hz : p.topo = 0 := by simpa using ht.symm
    exact ⟨p, by cases fuel <;> simp [esvaziar, hz], h⟩
  | append_singleton ys x ih =>
    have ht := pv_Representa_length h
    simp only [List.length_append, List.length_singleton, Nat.cast_add, Nat.cast_one] at ht
    have hne : ¬ p.topo = 0 := by omega
    cases fuel with
    | zero => simp at hf
    | succ fuel =>
      obtain ⟨p1, hp1, _, hr1⟩ := pv_desempilhar_Repr h
      obtain ⟨p2, hp2, hr2⟩ := ih fuel hr1 (by simpa using hf)
      exact ⟨p2, by simp [esvaziar, hne, hp1, hp2], hr2⟩

/-- C21: (1) pushing `n <= TAM_MAX` items with `empilhar` onto a stack fresh from
`criar_pilha` and then calling `desempilhar` until `estah_vazia` is true returns the
items in reverse push order and leaves the stack empty (any bound of at least `n`
iterations is enough for the loop); (2) on every stack that is not full,
`desempilhar` after `empilhar(s, x)` returns `x` and leaves `topo` and the cells
`itens[0 .. topo - 1]` as they were before the push. -/
theorem pilha_vet_lifo (itens0 : List Int) (h0 : (itens0.length : Int) = TAM_MAX)
    (xs : List Int) (p : PilhaVet) (ys : List Int) (x : Int) :
    ((xs.length : Int) ≤ TAM_MAX →
      ∃ p1, empilhar_todos (criar_pilha itens0) xs = .ok p1 ∧
        ∀ fuel, xs.length ≤ fuel →
          ∃ p2, esvaziar fuel p1 = some (.ok (p2, xs.reverse)) ∧
            estah_vazia (some p2) = .ok true) ∧
    (Representa p ys → estah_cheia (some p) = .ok false →
      ∃ p1 p2, empilhar (some p) x = .ok p1 ∧ desempilhar (some p1) = .ok (p2, x) ∧
        p2.topo = p.topo ∧ p2.itens.take p2.topo.toNat = p.itens.take p.topo.toNat ∧
        Representa p2 ys) := by
  constructor
  · intro hn
    obtain ⟨p1, hp1, hr1⟩ := pv_empilhar_todos_Repr xs (pv_Representa_criar itens0 h0)
      (by simpa using hn)
    refine ⟨p1, hp1, fun fuel hfu => ?_⟩
    obtain ⟨p2, hp2, hr2⟩ := pv_esvaziar_Repr fuel hr1 (by simpa using hfu)
    refine ⟨p2, by simpa using hp2, ?_⟩
    have hz : p2.topo = 0 := by simpa using (pv_Representa_length hr2).symm
    simp [estah_vazia, hz]
  · intro hr hnf
    have hlen := pv_Representa_length hr
    have hne : p.topo ≠ TAM_MAX := by
      intro he
      simp [estah_cheia, he] at hnf
    have hle := hr.2.2.1
    obtain ⟨p1, hp1, hr1⟩ := pv_empilhar_Repr x hr (by omega)
    obtain ⟨p2, hp2, _, hr2⟩ := pv_desempilhar_Repr hr1
    have ht2 := pv_Representa_length hr2
    refine ⟨p1, p2, hp1, hp2, by omega, ?_, hr2⟩
    rw [hr2.2.2.2, hr.2.2.2]

theorem pilha_vet_lifo_witness :
    ∃ p1, empilhar_todos (criar_pilha (List.replicate 1000000 0)) [1, 2, 3] = .ok p1 ∧
      ∀ fuel, [1, 2, 3].length ≤ fuel →
        ∃ p2, esvaziar fuel p1 = some (.ok (p2, [1, 2, 3].reverse)) ∧
          estah_vazia (some p2) = .ok true :=
  (pilha_vet_lifo (List.replicate 1000000 0) (by rw [List.length_replicate]; rfl) [1, 2, 3]
    (criar_pilha []) [] 0).1 (by unfold TAM_MAX; decide)

end Pilhavet

namespace Pilhaenc

/-! ## Store and chain lemmas -/

theorem pe_consultar_lt {m : Mem} {a : Nat} {n : Noh} (h : consultar m a = some n) :
    a < m.length := by
  by_contra hlt
  have : m[a]? = none := List.getElem?_eq_none (by omega)
  simp [consultar, this] at h

theorem pe_consultar_set_eq {m : Mem} {a : Nat} (v : Option Noh) (h : a < m.length) :
    consultar (m.set a v) a = v := by
  unfold consultar
  rw [List.getElem?_set_self h]
  cases v <;> rfl

theorem pe_consultar_set_ne {m : Mem} {a b : Nat} (v : Option Noh) (h : b ≠ a) :
    consultar (m.set b v) a = consultar m a := by
  unfold consultar
  rw [List.getElem?_set_ne h]

theorem pe_consultar_append {m : Mem} {a : Nat} (e : Mem) (h : a < m.length) :
    consultar (m ++ e) a = consultar m a := by
  unfold consultar
  rw [List.getElem?_append_left h]

theorem pe_consultar_novo (m : Mem) (n : Noh) :
    consultar (m ++ [some n]) m.length = some n := by
  unfold consultar
  simp

theorem pe_Trecho_cons {m : Mem} {f n : Ptr} {c : Nat × Int} {cs : List (Nat × Int)} :
    Trecho m f (c :: cs) n ↔
      f = some c.1 ∧ ∃ q, consultar m c.1 = some { item := c.2, prox := q } ∧
        Trecho m q cs n := Iff.rfl

theorem pe_Trecho_append {m : Mem} {c1 c2 : List (Nat × Int)} {f n : Ptr} :
    Trecho m f (c1 ++ c2) n ↔ ∃ mid, Trecho m f c1 mid ∧ Trecho m mid c2 n := by
  induction c1 generalizing f with
  | nil =>
    constructor
    · intro h
      exact ⟨f, rfl, h⟩
    · rintro ⟨mid, h1, h⟩
      have hfm : f = mid := h1
      subst hfm
      exact h
  | cons c cs ih =>
    simp only [List.cons_append, pe_Trecho_cons, ih]
    constructor
    · rintro ⟨hf, q, hq, mid, h1, h2⟩
      exact ⟨mid, ⟨hf, q, hq, h1⟩, h2⟩
    · rintro ⟨mid, ⟨hf, q, hq, h1⟩, h2⟩
      exact ⟨hf, q, hq, mid, h1, h2⟩

theorem pe_Trecho_set {m : Mem} {cs : List (Nat × Int)} {f n : Ptr} (b : Nat)
    (v : Option Noh) (hb : ∀ c ∈ cs, c.1 ≠ b) (h : Trecho m f cs n) :
    Trecho (m.set b v) f cs n := by
  induction cs generalizing f with
  | nil => exact h
  | cons d ds ih =>
    obtain ⟨hf, q, hq, hrest⟩ := h
    refine ⟨hf, q, ?_, ih (fun c hc => hb c (List.mem_cons_of_mem _ hc)) hrest⟩
    rw [pe_consultar_set_ne v (Ne.symm (hb d (List.mem_cons_self _ _)))]
    exact hq

theorem pe_Trecho_novo {m : Mem} {cs : List (Nat × Int)} {f n : Ptr} (e : Mem)
    (h : Trecho m f cs n) : Trecho (m ++ e) f cs n := by
  induction cs generalizing f with
  | nil => exact h
  | cons d ds ih =>
    obtain ⟨hf, q, hq, hrest⟩ := h
    refine ⟨hf, q, ?_, ih hrest⟩
    rw [pe_consultar_append e (pe_consultar_lt hq)]
    exact hq

theorem pe_Trecho_unico {m : Mem} {cs cs2 : List (Nat × Int)} {f : Ptr}
    (h : Trecho m f cs none) (h2 : Trecho m f cs2 none) : cs = cs2 := by
  induction cs generalizing f cs2 with
  | nil =>
    cases cs2 with
    | nil => rfl
    | cons d ds =>
      have hf : f = none := h
      obtain ⟨hf2, _⟩ := h2
      rw [hf] at hf2
      cases hf2
  | cons c cs ih =>
    cases cs2 with
    | nil =>
      obtain ⟨hf, _⟩ := h
      have hf2 : f = none := h2
      rw [hf2] at hf
      cases hf
    | cons d ds =>
      obtain ⟨hf, q, hq, hrest⟩ := h
      obtain ⟨hf2, q2, hq2, hrest2⟩ := h2
      rw [hf] at hf2
      have hcd : c.1 = d.1 := Option.some.inj hf2
      rw [← hcd, hq] at hq2
      have hnode := Option.some.inj hq2
      have hitem : c.2 = d.2 := congrArg Noh.item hnode
      have hprox : q = q2 := congrArg Noh.prox hnode
      subst hprox
      have := ih hrest hrest2
      subst this
      have : c = d := Prod.ext hcd hitem
      rw [this]

theorem pe_Trecho_nodup {m : Mem} {cs : List (Nat × Int)} {f : Ptr}
    (h : Trecho m f cs none) : (cs.map Prod.fst).Nodup := by
  induction cs generalizing f with
  | nil => exact List.nodup_nil
  | cons c cs ih =>
    have hall := h
    obtain ⟨hf, q, hq, hrest⟩ := h
    rw [List.map_cons, List.nodup_cons]
    refine ⟨?_, ih hrest⟩
    intro hmem
    obtain ⟨d, hd, hdc⟩ := List.mem_map.1 hmem
    obtain ⟨s, t, hst⟩ := List.append_of_mem hd
    rw [hst] at hall
    have hsplit : Trecho m f ((c :: s) ++ d :: t) none := hall
    rw [pe_Trecho_append] at hsplit
    obtain ⟨mid, _, hsuf⟩ := hsplit
    have hmid : mid = f := by
      obtain ⟨hm, _⟩ := hsuf
      rw [hm, hf, hdc]
    rw [hmid] at hsuf
    have := congrArg List.length (pe_Trecho_unico hall hsuf)
    simp at this
    omega

/-! ## Stack operations on a represented stack -/

theorem pe_empilhar_Repr {m : Mem} {p : PilhaEnc} {cs : List (Nat × Int)} (x : Int)
    (h : Representa m p cs) :
    ∃ s, empilhar m (some p) x = .ok s ∧ Representa s.mem s.pilha ((m.length, x) :: cs) := by
  refine ⟨Estado.mk (m ++ [some ({ item := x, prox := p.topo } : Noh)])
    { topo := some m.length }, rfl, rfl, p.topo, pe_consultar_novo m _, pe_Trecho_novo _ h⟩

theorem pe_desempilhar_Repr {m : Mem} {p : PilhaEnc} {c : Nat × Int}
    {cs : List (Nat × Int)} (h : Representa m p (c :: cs)) :
    ∃ s, desempilhar m (some p) = .ok (s, c.2) ∧ obter_topo m (some p) = .ok c.2 ∧
      Representa s.mem s.pilha cs := by
  have hnd := pe_Trecho_nodup h
  obtain ⟨hi, q, hq, hrest⟩ := h
  rw [List.map_cons, List.nodup_cons] at hnd
  have hfr : Trecho (m.set c.1 none) q cs none :=
    pe_Trecho_set _ _ (fun d hd hdc => hnd.1 (List.mem_map.2 ⟨d, hd, hdc⟩)) hrest
  refine ⟨Estado.mk (m.set c.1 none) { topo := q },
    by simp [desempilhar, hi, ler, hq, apagar], by simp [obter_topo, hi, ler, hq], hfr⟩

theorem pe_desempilhar_vazia {m : Mem} {p : PilhaEnc} (h : Representa m p []) :
    desempilhar m (some p) = .error .abortado := by
  have hi : p.topo = none := h
  simp [desempilhar, hi]

theorem pe_empilhar_todos_Repr {s : Estado} {cs : List (Nat × Int)} (xs : List Int)
    (h : Representa s.mem s.pilha cs) :
    ∃ s1 cs1, empilhar_todos s xs = .ok s1 ∧ Representa s1.mem s1.pilha cs1 ∧
      cs1.map Prod.snd = xs.reverse ++ cs.map Prod.snd := by
  induction xs generalizing s cs with
  | nil => exact ⟨s, cs, rfl, h, by simp⟩
  | cons x xs ih =>
    obtain ⟨s1, hs1, hr1⟩ := pe_empilhar_Repr x h
    obtain ⟨s2, cs2, hs2, hr2, hm2⟩ := ih hr1
    exact ⟨s2, cs2, by simp [empilhar_todos, hs1, hs2], hr2, by simp [hm2]⟩

theorem pe_esvaziar_Repr {s : Estado} {cs : List (Nat × Int)} (fuel : Nat)
    (h : Representa s.mem s.pilha cs) (hf : cs.length ≤ fuel) :
    ∃ s1, esvaziar fuel s = some (.ok (s1, cs.map Prod.snd)) ∧
      Representa s1.mem s1.pilha [] := by
  induction cs generalizing s fuel with
  | nil =>
    have hi : s.pilha.topo = none := h
    exact ⟨s, by cases fuel <;> simp [esvaziar, hi], h⟩
  | cons c cs ih =>
    have hine : s.pilha.topo ≠ none := by
      have hi : s.pilha.topo = some c.1 := h.1
      rw [hi]
      exact Option.some_ne_none _
    cases fuel with
    | zero => simp at hf
    | succ fuel =>
      obtain ⟨s1, hs1, _, hr1⟩ := pe_desempilhar_Repr h
      obtain ⟨s2, hs2, hr2⟩ := ih fuel hr1 (by simpa using hf)
      exact ⟨s2, by simp [esvaziar, hine, hs1, hs2], hr2⟩

theorem pe_executar_Repr {s s1 : Estado} {cs : List (Nat × Int)} (ops : List Op)
    (h : Representa s.mem s.pilha cs) (he : executar s ops = .ok s1) :
    ∃ cs1, Representa s1.mem s1.pilha cs1 := by
  induction ops generalizing s cs with
  | nil =>
    simp only [executar, Except.ok.injEq] at he
    subst he
    exact ⟨cs, h⟩
  | cons op ops ih =>
    cases op with
    | empilhar x =>
      obtain ⟨s2, hs2, hr2⟩ := pe_empilhar_Repr x h
      simp only [executar, hs2] at he
      exact ih hr2 he
    | desempilhar =>
      cases cs with
      | nil => simp [executar, pe_desempilhar_vazia h] at he
      | cons c cs =>
        obtain ⟨s2, hs2, _, hr2⟩ := pe_desempilhar_Repr h
        simp only [executar, hs2] at he
        exact ih hr2 he

/-- C22: on a stack fresh from `criar_pilha`, (1) pushing `x_1, ..., x_n` with
`empilhar` and then calling `desempilhar` until `estah_vazia` is true returns
`x_n, ..., x_1` and leaves the stack empty (any bound of at least `n` iterations is
enough for the loop); (2) in every state reached by calls of `empilhar` and
`desempilhar` in which the stack is not empty, `obter_topo` returns, leaves the state
as it was, and its value is the one the next `desempilhar` returns. -/
theorem pilha_enc_lifo (m0 : Mem) (xs : List Int) (ops : List Op) :
    (∃ s, empilhar_todos (inicial m0) xs = .ok s ∧
      ∀ fuel, xs.length ≤ fuel →
        ∃ s1, esvaziar fuel s = some (.ok (s1, xs.reverse)) ∧
          estah_vazia (some s1.pilha) = .ok true) ∧
    (∀ s, executar (inicial m0) ops = .ok s → estah_vazia (some s.pilha) = .ok false →
      ∃ x s1, obter_topo s.mem (some s.pilha) = .ok x ∧
        obter_topo_estado s = .ok (s, x) ∧
        desempilhar s.mem (some s.pilha) = .ok (s1, x)) := by
  have hr0 : Representa (inicial m0).mem (inicial m0).pilha [] := rfl
  constructor
  · obtain ⟨s, cs, hs, hr, hm⟩ := pe_empilhar_todos_Repr xs hr0
    have hm2 : cs.map Prod.snd = xs.reverse := by simpa using hm
    have hlen : cs.length = xs.length := by
      have := congrArg List.length hm2
      simpa using this
    refine ⟨s, hs, fun fuel hfu => ?_⟩
    obtain ⟨s1, hs1, hr1⟩ := pe_esvaziar_Repr fuel hr (by omega)
    rw [hm2] at hs1
    refine ⟨s1, hs1, ?_⟩
    have hi : s1.pilha.topo = none := hr1
    simp [estah_vazia, hi]
  · intro s he hnv
    obtain ⟨cs, hr⟩ := pe_executar_Repr ops hr0 he
    cases cs with
    | nil =>
      have hi : s.pilha.topo = none := hr
      simp [estah_vazia, hi] at hnv
    | cons c cs =>
      obtain ⟨s1, hs1, ho, _⟩ := pe_desempilhar_Repr hr
      exact ⟨c.2, s1, ho, by simp [obter_topo_estado, ho], hs1⟩

theorem pilha_enc_lifo_witness :
    ∃ x s1, obter_topo
        [some { item := 1, prox := none }, some { item := 2, prox := some 0 }]
        (some { topo := some 1 }) = .ok x ∧
      obter_topo_estado
        (Estado.mk [some { item := 1, prox := none }, some { item := 2, prox := some 0 }]
          { topo := some 1 }) =
        .ok (Estado.mk [some { item := 1, prox := none }, some { item := 2, prox := some 0 }]
          { topo := some 1 }, x) ∧
      desempilhar [some { item := 1, prox := none }, some { item := 2, prox := some 0 }]
        (some { topo := some 1 }) = .ok (s1, x) :=
  (pilha_enc_lifo [] [1, 2, 3] [.empilhar 1, .empilhar 2]).2
    (Estado.mk [some { item := 1, prox := none }, some { item := 2, prox := some 0 }]
      { topo := some 1 }) rfl rfl

end Pilhaenc

namespace Filadvet

/-! ## Circular indices of the deque -/

theorem fd_incrementar_val {i : Int} (h0 : 0 ≤ i) (h1 : i < TAM_MAX) :
    incrementar i = if i = 99 then 0 else i + 1 := by
  unfold TAM_MAX at h1
  unfold incrementar TAM_MAX
  rw [Int.tmod_eq_emod (by omega) (by decide)]
  split <;> omega

theorem fd_decrementar_val {i : Int} (h0 : 0 ≤ i) (h1 : i < TAM_MAX) :
    decrementar i = if i = 0 then 99 else i - 1 := by
  unfold TAM_MAX at h1
  unfold decrementar TAM_MAX
  rw [Int.tmod_eq_emod (by omega) (by decide)]
  split <;> omega

theorem fd_Representa_criar (itens0 : List Int) (h0 : (itens0.length : Int) = TAM_MAX) :
    Representa (criar_fila_d itens0) [] := by
  unfold TAM_MAX at h0
  refine ⟨h0, ?_, ?_, ?_, ?_, ?_, fun k hk => absurd hk (Nat.not_lt_zero k)⟩ <;>
    simp [criar_fila_d, TAM_MAX]

theorem fd_Representa_vazia {f : FilaDVet} {q : List Int} (h : Representa f q) :
    f.inicio = f.fim ↔ q = [] := by
  obtain ⟨_, hi0, hi1, hf0, hf1, hlen, _⟩ := h
  unfold TAM_MAX at *
  constructor
  · intro he
    apply List.eq_nil_of_length_eq_zero
    omega
  · intro hq
    subst hq
    simp only [List.length_nil, Nat.cast_zero] at hlen
    omega

theorem fd_cheia_sse {f : FilaDVet} {q : List Int} (h : Representa f q) :
    incrementar f.fim = f.inicio ↔ (q.length : Int) = TAM_MAX - 1 := by
  obtain ⟨_, hi0, hi1, hf0, hf1, hlen, _⟩ := h
  rw [fd_incrementar_val hf0 hf1]
  unfold TAM_MAX at *
  constructor
  · intro he
    split at he <;> omega
  · intro he
    split <;> omega

theorem fd_inserir_no_fim_Repr {f : FilaDVet} {q : List Int} (x : Int) (h : Representa f q)
    (hq : (q.length : Int) < TAM_MAX - 1) :
    ∃ f1, inserir_no_fim (some f) x = .ok f1 ∧ Representa f1 (q ++ [x]) := by
  have hnc : incrementar f.fim ≠ f.inicio := fun hh => by
    have := (fd_cheia_sse h).1 hh
    omega
  obtain ⟨hl, hi0, hi1, hf0, hf1, hlen, hall⟩ := h
  have hval := fd_incrementar_val hf0 hf1
  have hfl : f.fim.toNat < f.itens.length := by
    unfold TAM_MAX at *
    omega
  refine ⟨{ f with itens := f.itens.set f.fim.toNat x, fim := incrementar f.fim },
    by simp [inserir_no_fim, hnc, escrever_item, hf0, hf1, hfl],
    by simpa using hl, hi0, hi1, ?_, ?_, ?_, fun k hk => ?_⟩
  · show 0 ≤ incrementar f.fim
    rw [hval]; split <;> omega
  · show incrementar f.fim < TAM_MAX
    rw [hval]; unfold TAM_MAX at *; split <;> omega
  · show ((q ++ [x]).length : Int) = (incrementar f.fim - f.inicio + TAM_MAX) % TAM_MAX
    rw [hval]
    unfold TAM_MAX at *
    simp only [List.length_append, List.length_singleton, Nat.cast_add, Nat.cast_one]
    split <;> omega
  · show (f.itens.set f.fim.toNat x)[((f.inicio + (k : Int)) % TAM_MAX).toNat]? = (q ++ [x])[k]?
    simp only [List.length_append, List.length_singleton] at hk
    by_cases hk2 : k < q.length
    · have hne : f.fim.toNat ≠ ((f.inicio + (k : Int)) % TAM_MAX).toNat := by
        unfold TAM_MAX at *
        omega
      rw [List.getElem?_set_ne hne, List.getElem?_append_left hk2]
      exact hall k hk2
    · have hkq : k = q.length := by omega
      have hidx : ((f.inicio + (k : Int)) % TAM_MAX).toNat = f.fim.toNat := by
        unfold TAM_MAX at *
        omega
      rw [hidx, List.getElem?_set_self hfl, hkq, List.getElem?_append_right (le_refl _)]
      simp

theorem fd_inserir_no_inicio_Repr {f : FilaDVet} {q : List Int} (x : Int)
    (h : Representa f q) (hq : (q.length : Int) < TAM_MAX - 1) :
    ∃ f1, inserir_no_inicio (some f) x = .ok f1 ∧ Representa f1 (x :: q) := by
  have hnc : incrementar f.fim ≠ f.inicio := fun hh => by
    have := (fd_cheia_sse h).1 hh
    omega
  obtain ⟨hl, hi0, hi1, hf0, hf1, hlen, hall⟩ := h
  have hval := fd_decrementar_val hi0 hi1
  have hd0 : 0 ≤ decrementar f.inicio := by rw [hval]; split <;> omega
  have hd1 : decrementar f.inicio < TAM_MAX := by
    rw [hval]; unfold TAM_MAX at *; split <;> omega
  have hfl : (decrementar f.inicio).toNat < f.itens.length := by
    unfold TAM_MAX at *
    omega
  refine ⟨FilaDVet.mk (f.itens.set (decrementar f.inicio).toNat x) (decrementar f.inicio) f.fim,
    by simp [inserir_no_inicio, hnc, escrever_item, hd0, hd1, hfl],
    by simpa using hl, hd0, hd1, hf0, hf1, ?_, fun k hk => ?_⟩
  · show ((x :: q).length : Int) = (f.fim - decrementar f.inicio + TAM_MAX) % TAM_MAX
    rw [hval]
    unfold TAM_MAX at *
    simp only [List.length_cons, Nat.cast_add, Nat.cast_one]
    split <;> omega
  · show (f.itens.set (decrementar f.inicio).toNat x)[((decrementar f.inicio + (k : Int)) %
        TAM_MAX).toNat]? = (x :: q)[k]?
    cases k with
    | zero =>
      have hidx : ((decrementar f.inicio + ((0 : Nat) : Int)) % TAM_MAX).toNat =
          (decrementar f.inicio).toNat := by
        unfold TAM_MAX at *
        omega
      rw [hidx, List.getElem?_set_self hfl, List.getElem?_cons_zero]
    | succ k =>
      simp only [List.length_cons] at hk
      have hk2 : k < q.length := by omega
      have hidx : ((decrementar f.inicio + ((k + 1 : Nat) : Int)) % TAM_MAX).toNat =
          ((f.inicio + (k : Int)) % TAM_MAX).toNat := by
        rw [hval]
        unfold TAM_MAX at *
        split <;> omega
      have hne : (decrementar f.inicio).toNat ≠ ((f.inicio + (k : Int)) % TAM_MAX).toNat := by
        rw [hval]
        unfold TAM_MAX at *
        split <;> omega
      rw [hidx, List.getElem?_set_ne hne, List.getElem?_cons_succ]
      exact hall k hk2

theorem fd_remover_do_inicio_Repr {f : FilaDVet} {q : List Int} {x : Int}
    (h : Representa f (x :: q)) :
    ∃ f1, remover_do_inicio (some f) = .ok (f1, x) ∧ obter_inicio (some f) = .ok x ∧
      Representa f1 q := by
  have hne : f.inicio ≠ f.fim := fun he => by
    have := (fd_Representa_vazia h).1 he
    cases this
  obtain ⟨hl, hi0, hi1, hf0, hf1, hlen, hall⟩ := h
  have hval := fd_incrementar_val hi0 hi1
  have hx : f.itens[f.inicio.toNat]? = some x := by
    have := hall 0 (by simp)
    have hidx : ((f.inicio + ((0 : Nat) : Int)) % TAM_MAX).toNat = f.inicio.toNat := by
      unfold TAM_MAX at *
      omega
    rw [hidx, List.getElem?_cons_zero] at this
    exact this
  have hr : ler_item f.itens f.inicio = .ok x := by
    unfold ler_item
    rw [if_pos ⟨hi0, hi1⟩, hx]
  refine ⟨{ f with inicio := incrementar f.inicio }, by simp [remover_do_inicio, hne, hr],
    by simp [obter_inicio, hne, hr], hl, ?_, ?_, hf0, hf1, ?_, fun k hk => ?_⟩
  · show 0 ≤ incrementar f.inicio
    rw [hval]; split <;> omega
  · show incrementar f.inicio < TAM_MAX
    rw [hval]; unfold TAM_MAX at *; split <;> omega
  · show (q.length : Int) = (f.fim - incrementar f.inicio + TAM_MAX) % TAM_MAX
    rw [hval]
    unfold TAM_MAX at *
    simp only [List.length_cons, Nat.cast_add, Nat.cast_one] at hlen
    split <;> omega
  · show f.itens[((incrementar f.inicio + (k : Int)) % TAM_MAX).toNat]? = q[k]?
    have hidx : ((incrementar f.inicio + (k : Int)) % TAM_MAX).toNat =
        ((f.inicio + ((k + 1 : Nat) : Int)) % TAM_MAX).toNat := by
      rw [hval]
      unfold TAM_MAX at *
      split <;> omega
    rw [hidx]
    have := hall (k + 1) (by simpa using hk)
    rw [this, List.getElem?_cons_succ]

theorem fd_remover_do_fim_Repr {f : FilaDVet} {q : List Int} {x : Int}
    (h : Representa f (q ++ [x])) :
    ∃ f1, remover_do_fim (some f) = .ok (f1, x) ∧ obter_fim (some f) = .ok x ∧
      Representa f1 q := by
  have hne : f.inicio ≠ f.fim := fun he => by
    have := (fd_Representa_vazia h).1 he
    simp at this
  obtain ⟨hl, hi0, hi1, hf0, hf1, hlen, hall⟩ := h
  simp only [List.length_append, List.length_singleton, Nat.cast_add, Nat.cast_one] at hlen
  have hval := fd_decrementar_val hf0 hf1
  have hd0 : 0 ≤ decrementar f.fim := by rw [hval]; split <;> omega
  have hd1 : decrementar f.fim < TAM_MAX := by
    rw [hval]; unfold TAM_MAX at *; split <;> omega
  have hx : f.itens[(decrementar f.fim).toNat]? = some x := by
    have := hall q.length (by simp)
    have hidx : ((f.inicio + (q.length : Int)) % TAM_MAX).toNat =
        (decrementar f.fim).toNat := by
      rw [hval]
      unfold TAM_MAX at *
      split <;> omega
    rw [hidx, List.getElem?_append_right (le_refl _)] at this
    simpa using this
  have hr : ler_item f.itens (decrementar f.fim) = .ok x := by
    unfold ler_item
    rw [if_pos ⟨hd0, hd1⟩, hx]
  refine ⟨{ f with fim := decrementar f.fim }, by simp [remover_do_fim, hne, hr],
    by simp [obter_fim, hne, hr], hl, hi0, hi1, hd0, hd1, ?_, fun k hk => ?_⟩
  · show (q.length : Int) = (decrementar f.fim - f.inicio + TAM_MAX) % TAM_MAX
    rw [hval]
    unfold TAM_MAX at *
    split <;> omega
  · show f.itens[((f.inicio + (k : Int)) % TAM_MAX).toNat]? = q[k]?
    have := hall k (by simp; omega)
    rw [this, List.getElem?_append_left hk]

theorem fd_conteudo_Repr {f : FilaDVet} {q : List Int} (h : Representa f q) :
    conteudo f = q := by
  obtain ⟨_, _, _, _, _, hlen, hall⟩ := h
  have hn : ((f.fim - f.inicio + TAM_MAX) % TAM_MAX).toNat = q.length := by omega
  unfold conteudo
  rw [hn]
  apply List.ext_getElem?
  intro k
  by_cases hk : k < q.length
  · rw [List.getElem?_map, List.getElem?_range hk, Option.map_some', hall k hk,
      List.getElem?_eq_getElem hk]
    rfl
  · rw [List.getElem?_eq_none (by simpa using hk), List.getElem?_eq_none (by omega)]

end Filadvet

namespace Filadvet

theorem fd_inserir_cheia {f : FilaDVet} {q : List Int} (x : Int) (h : Representa f q)
    (hq : ¬ (q.length : Int) < TAM_MAX - 1) :
    inserir_no_fim (some f) x = .error .abortado ∧
      inserir_no_inicio (some f) x = .error .abortado := by
  have hlen := h.2.2.2.2.2.1
  have hi0 := h.2.1
  have hi1 := h.2.2.1
  have hf0 := h.2.2.2.1
  have hf1 := h.2.2.2.2.1
  have hnc : incrementar f.fim = f.inicio := (fd_cheia_sse h).2 (by
    unfold TAM_MAX at *
    omega)
  exact ⟨by simp [inserir_no_fim, hnc], by simp [inserir_no_inicio, hnc]⟩

theorem fd_remover_vazia {f : FilaDVet} (h : Representa f []) :
    remover_do_inicio (some f) = .error .abortado ∧
      remover_do_fim (some f) = .error .abortado := by
  have he := (fd_Representa_vazia h).2 rfl
  exact ⟨by simp [remover_do_inicio, he], by simp [remover_do_fim, he]⟩

/-! ## Refinement of the double-ended sequence -/

theorem fd_executar_refina {f : FilaDVet} {q : List Int} (ops : List Op) (h : Representa f q)
    {q2 outs : List Int} (hm : deque_abstrato q ops = some (q2, outs)) :
    ∃ f2, executar f ops = .ok (f2, outs) ∧ Representa f2 q2 := by
  induction ops generalizing f q outs with
  | nil =>
    simp only [deque_abstrato, Option.some.injEq, Prod.mk.injEq] at hm
    obtain ⟨hq, ho⟩ := hm
    subst hq ho
    exact ⟨f, rfl, h⟩
  | cons op ops ih =>
    cases op with
    | inserir_no_fim x =>
      simp only [deque_abstrato] at hm
      split at hm
      · next hlt =>
        obtain ⟨f1, hf1, hr1⟩ := fd_inserir_no_fim_Repr x h hlt
        obtain ⟨f2, hf2, hr2⟩ := ih hr1 hm
        exact ⟨f2, by simp [executar, hf1, hf2], hr2⟩
      · cases hm
    | inserir_no_inicio x =>
      simp only [deque_abstrato] at hm
      split at hm
      · next hlt =>
        obtain ⟨f1, hf1, hr1⟩ := fd_inserir_no_inicio_Repr x h hlt
        obtain ⟨f2, hf2, hr2⟩ := ih hr1 hm
        exact ⟨f2, by simp [executar, hf1, hf2], hr2⟩
      · cases hm
    | remover_do_inicio =>
      cases q with
      | nil => simp [deque_abstrato] at hm
      | cons y q1 =>
        simp only [deque_abstrato] at hm
        obtain ⟨f1, hf1, _, hr1⟩ := fd_remover_do_inicio_Repr h
        cases hrec : deque_abstrato q1 ops with
        | none => simp [hrec] at hm
        | some r =>
          obtain ⟨q3, out3⟩ := r
          simp only [hrec, Option.some.injEq, Prod.mk.injEq] at hm
          obtain ⟨hq, ho⟩ := hm
          subst hq ho
          obtain ⟨f2, hf2, hr2⟩ := ih hr1 hrec
          exact ⟨f2, by simp [executar, hf1, hf2], hr2⟩
    | remover_do_fim =>
      rcases List.eq_nil_or_concat q with hnil | ⟨q1, y, hq1⟩
      · subst hnil
        simp [deque_abstrato] at hm
      · rw [List.concat_eq_append] at hq1
        subst hq1
        have hgl : (q1 ++ [y]).getLast? = some y := by simp
        have hdl : (q1 ++ [y]).dropLast = q1 := by simp
        simp only [deque_abstrato, hgl, hdl] at hm
        obtain ⟨f1, hf1, _, hr1⟩ := fd_remover_do_fim_Repr h
        cases hrec : deque_abstrato q1 ops with
        | none => simp [hrec] at hm
        | some r =>
          obtain ⟨q3, out3⟩ := r
          simp only [hrec, Option.some.injEq, Prod.mk.injEq] at hm
          obtain ⟨hq, ho⟩ := hm
          subst hq ho
          obtain ⟨f2, hf2, hr2⟩ := ih hr1 hrec
          exact ⟨f2, by simp [executar, hf1, hf2], hr2⟩

theorem fd_executar_abstrai {f : FilaDVet} {q : List Int} (ops : List Op)
    (h : Representa f q) {f2 : FilaDVet} {outs : List Int}
    (he : executar f ops = .ok (f2, outs)) :
    ∃ q2, deque_abstrato q ops = some (q2, outs) ∧ Representa f2 q2 := by
  induction ops generalizing f q outs with
  | nil =>
    simp only [executar, Except.ok.injEq, Prod.mk.injEq] at he
    obtain ⟨hf, ho⟩ := he
    subst hf ho
    exact ⟨q, rfl, h⟩
  | cons op ops ih =>
    cases op with
    | inserir_no_fim x =>
      by_cases hlt : (q.length : Int) < TAM_MAX - 1
      · obtain ⟨f1, hf1, hr1⟩ := fd_inserir_no_fim_Repr x h hlt
        simp only [executar, hf1] at he
        obtain ⟨q2, hq2, hr2⟩ := ih hr1 he
        exact ⟨q2, by simp [deque_abstrato, hlt, hq2], hr2⟩
      · simp [executar, (fd_inserir_cheia x h hlt).1] at he
    | inserir_no_inicio x =>
      by_cases hlt : (q.length : Int) < TAM_MAX - 1
      · obtain ⟨f1, hf1, hr1⟩ := fd_inserir_no_inicio_Repr x h hlt
        simp only [executar, hf1] at he
        obtain ⟨q2, hq2, hr2⟩ := ih hr1 he
        exact ⟨q2, by simp [deque_abstrato, hlt, hq2], hr2⟩
      · simp [executar, (fd_inserir_cheia x h hlt).2] at he
    | remover_do_inicio =>
      cases q with
      | nil => simp [executar, (fd_remover_vazia h).1] at he
      | cons y q1 =>
        obtain ⟨f1, hf1, _, hr1⟩ := fd_remover_do_inicio_Repr h
        simp only [executar, hf1] at he
        cases hrec : executar f1 ops with
        | error e => simp [hrec] at he
        | ok r =>
          obtain ⟨f3, out3⟩ := r
          simp only [hrec, Except.ok.injEq, Prod.mk.injEq] at he
          obtain ⟨hf, ho⟩ := he
          subst hf ho
          obtain ⟨q2, hq2, hr2⟩ := ih hr1 hrec
          exact ⟨q2, by simp [deque_abstrato, hq2], hr2⟩
    | remover_do_fim =>
      rcases List.eq_nil_or_concat q with hnil | ⟨q1, y, hq1⟩
      · subst hnil
        simp [executar, (fd_remover_vazia h).2] at he
      · rw [List.concat_eq_append] at hq1
        subst hq1
        obtain ⟨f1, hf1, _, hr1⟩ := fd_remover_do_fim_Repr h
        simp only [executar, hf1] at he
        cases hrec : executar f1 ops with
        | error e => simp [hrec] at he
        | ok r =>
          obtain ⟨f3, out3⟩ := r
          simp only [hrec, Except.ok.injEq, Prod.mk.injEq] at he
          obtain ⟨hf, ho⟩ := he
          subst hf ho
          obtain ⟨q2, hq2, hr2⟩ := ih hr1 hrec
          exact ⟨q2, by simp [deque_abstrato, hq2], hr2⟩

/-- C23: in every state `f` reached from `criar_fila_d` by calls that return, with `S`
the items at indices `inicio, ..., fim - 1` modulo `TAM_MAX` (`conteudo f`): the run
is one the double-ended sequence of the specification allows, with the same removed
items and final contents `S`; when `f` is not full `inserir_no_fim(x)` leaves
`S ++ [x]` and `inserir_no_inicio(x)` leaves `x :: S`; when `f` is not empty
`remover_do_inicio` and `obter_inicio` return the first element of `S`,
`remover_do_fim` and `obter_fim` the last, and the removals leave `S` without that
element.  Every run the double-ended sequence allows returns on the code. -/
theorem fila_d_vet_refina (itens0 : List Int) (h0 : (itens0.length : Int) = TAM_MAX)
    (ops : List Op) (x : Int) :
    (∀ f outs, executar (criar_fila_d itens0) ops = .ok (f, outs) →
      deque_abstrato [] ops = some (conteudo f, outs) ∧
      (estah_cheia (some f) = .ok false →
        ∃ f1 f2, inserir_no_fim (some f) x = .ok f1 ∧ conteudo f1 = conteudo f ++ [x] ∧
          inserir_no_inicio (some f) x = .ok f2 ∧ conteudo f2 = x :: conteudo f) ∧
      (estah_vazia (some f) = .ok false →
        ∃ a b f1 f2, (conteudo f).head? = some a ∧ (conteudo f).getLast? = some b ∧
          remover_do_inicio (some f) = .ok (f1, a) ∧ conteudo f1 = (conteudo f).tail ∧
          remover_do_fim (some f) = .ok (f2, b) ∧ conteudo f2 = (conteudo f).dropLast ∧
          obter_inicio (some f) = .ok a ∧ obter_fim (some f) = .ok b)) ∧
    (∀ q outs, deque_abstrato [] ops = some (q, outs) →
      ∃ f, executar (criar_fila_d itens0) ops = .ok (f, outs) ∧ conteudo f = q) := by
  have hr0 := fd_Representa_criar itens0 h0
  constructor
  · intro f outs he
    obtain ⟨q, hq, hr⟩ := fd_executar_abstrai ops hr0 he
    have hc := fd_conteudo_Repr hr
    rw [hc]
    refine ⟨hq, fun hnf => ?_, fun hnv => ?_⟩
    · have hlt : (q.length : Int) < TAM_MAX - 1 := by
        by_contra hge
        have hfull : incrementar f.fim = f.inicio := (fd_cheia_sse hr).2 (by
          have := hr.2.2.2.2.2.1
          have := hr.2.1
          have := hr.2.2.1
          have := hr.2.2.2.1
          have := hr.2.2.2.2.1
          unfold TAM_MAX at *
          omega)
        simp [estah_cheia, hfull] at hnf
      obtain ⟨f1, hf1, hr1⟩ := fd_inserir_no_fim_Repr x hr hlt
      obtain ⟨f2, hf2, hr2⟩ := fd_inserir_no_inicio_Repr x hr hlt
      exact ⟨f1, f2, hf1, fd_conteudo_Repr hr1, hf2, fd_conteudo_Repr hr2⟩
    · have hne : q ≠ [] := by
        intro hnil
        have he2 := (fd_Representa_vazia hr).2 hnil
        simp [estah_vazia, he2] at hnv
      cases q with
      | nil => exact absurd rfl hne
      | cons a q1 =>
        obtain ⟨f1, hf1, ho1, hr1⟩ := fd_remover_do_inicio_Repr hr
        rcases List.eq_nil_or_concat (a :: q1) with hnil | ⟨q2, b, hq2⟩
        · cases hnil
        · rw [List.concat_eq_append] at hq2
          have hrb : Representa f (q2 ++ [b]) := by rw [← hq2]; exact hr
          obtain ⟨f2, hf2, ho2, hr2⟩ := fd_remover_do_fim_Repr hrb
          refine ⟨a, b, f1, f2, rfl, ?_, hf1, fd_conteudo_Repr hr1, hf2, ?_, ho1, ho2⟩
          · rw [hq2]; simp
          · rw [fd_conteudo_Repr hr2, hq2]; simp
  · intro q outs hm
    obtain ⟨f, hf, hr⟩ := fd_executar_refina ops hr0 hm
    exact ⟨f, hf, fd_conteudo_Repr hr⟩

theorem fila_d_vet_refina_witness :
    ∃ f, executar (criar_fila_d (List.replicate 100 0))
        [.inserir_no_inicio 2, .inserir_no_inicio 3, .remover_do_inicio,
          .inserir_no_fim 1, .remover_do_fim, .remover_do_fim] = .ok (f, [3, 1, 2]) ∧
      conteudo f = [] :=
  (fila_d_vet_refina (List.replicate 100 0) (by decide)
    [.inserir_no_inicio 2, .inserir_no_inicio 3, .remover_do_inicio,
      .inserir_no_fim 1, .remover_do_fim, .remover_do_fim] 0).2 [] [3, 1, 2] (by decide)

end Filadvet

namespace Filadvet

/-! ## The slot the circular buffers leave unused -/

/-- C29: in every state reached from creation by calls that return, for the queue
(`FilaVet`) and for the deque (`FilaDVet`): the items stored (the contents `q` of the
abstract queue after the same calls) number `(fim - inicio + TAM_MAX) mod TAM_MAX`,
`estah_cheia` is true exactly when that number is `TAM_MAX - 1`, `estah_vazia` exactly
when it is 0, and it never exceeds `TAM_MAX - 1`. -/
theorem um_espaco_vago (itensV itensD : List Int)
    (hV : (itensV.length : Int) = Filavet.TAM_MAX) (hD : (itensD.length : Int) = TAM_MAX)
    (opsV : List Filavet.Op) (opsD : List Op) :
    (∀ f outs, Filavet.executar (Filavet.criar_fila itensV) opsV = .ok (f, outs) →
      ∃ q, Filavet.fila_abstrata [] opsV = some (q, outs) ∧
        (q.length : Int) = (f.fim - f.inicio + Filavet.TAM_MAX) % Filavet.TAM_MAX ∧
        (Filavet.estah_cheia (some f) = .ok true ↔ (q.length : Int) = Filavet.TAM_MAX - 1) ∧
        (Filavet.estah_vazia (some f) = .ok true ↔ q.length = 0) ∧
        (q.length : Int) ≤ Filavet.TAM_MAX - 1) ∧
    (∀ f outs, executar (criar_fila_d itensD) opsD = .ok (f, outs) →
      ∃ q, deque_abstrato [] opsD = some (q, outs) ∧ conteudo f = q ∧
        (q.length : Int) = (f.fim - f.inicio + TAM_MAX) % TAM_MAX ∧
        (estah_cheia (some f) = .ok true ↔ (q.length : Int) = TAM_MAX - 1) ∧
        (estah_vazia (some f) = .ok true ↔ q.length = 0) ∧
        (q.length : Int) ≤ TAM_MAX - 1) := by
  constructor
  · intro f outs he
    obtain ⟨q, hq, hr⟩ := Filavet.fv_executar_abstrai opsV
      (Filavet.fv_Representa_criar itensV hV) he
    refine ⟨q, hq, Filavet.fv_contagem hr, ?_, ?_, Filavet.fv_Representa_length hr⟩
    · rw [← Filavet.fv_cheia_sse hr]
      simp [Filavet.estah_cheia]
    · have hv := Filavet.fv_Representa_vazia hr
      rw [List.length_eq_zero, ← hv]
      simp [Filavet.estah_vazia]
  · intro f outs he
    obtain ⟨q, hq, hr⟩ := fd_executar_abstrai opsD (fd_Representa_criar itensD hD) he
    have hlen := hr.2.2.2.2.2.1
    refine ⟨q, hq, fd_conteudo_Repr hr, hlen, ?_, ?_, ?_⟩
    · rw [← fd_cheia_sse hr]
      simp [estah_cheia]
    · have hv := fd_Representa_vazia hr
      rw [List.length_eq_zero, ← hv]
      simp [estah_vazia]
    · have := hr.2.1
      have := hr.2.2.1
      have := hr.2.2.2.1
      have := hr.2.2.2.2.1
      unfold TAM_MAX at *
      omega

theorem um_espaco_vago_witness :
    ∃ q, deque_abstrato [] [.inserir_no_inicio 2, .inserir_no_fim 3, .remover_do_inicio] =
        some (q, [2]) ∧
      conteudo (FilaDVet.mk ((List.replicate 100 0).set 99 2 |>.set 0 3) 0 1) = q ∧
      (q.length : Int) = ((1 : Int) - 0 + TAM_MAX) % TAM_MAX ∧
      (estah_cheia (some (FilaDVet.mk ((List.replicate 100 0).set 99 2 |>.set 0 3) 0 1)) =
        .ok true ↔ (q.length : Int) = TAM_MAX - 1) ∧
      (estah_vazia (some (FilaDVet.mk ((List.replicate 100 0).set 99 2 |>.set 0 3) 0 1)) =
        .ok true ↔ q.length = 0) ∧
      (q.length : Int) ≤ TAM_MAX - 1 :=
  (um_espaco_vago (List.replicate 100 0) (List.replicate 100 0) (by decide) (by decide) []
    [.inserir_no_inicio 2, .inserir_no_fim 3, .remover_do_inicio]).2
    (FilaDVet.mk ((List.replicate 100 0).set 99 2 |>.set 0 3) 0 1) [2] rfl

end Filadvet

namespace Listavet

/-! ## The shifting loops -/

theorem lv_ler_item (itens : List Int) (i : Int) (x : Int) (h0 : 0 ≤ i) (h1 : i < TAM_MAX)
    (hx : itens[i.toNat]? = some x) :
    ler_item itens i = .ok x := by
  unfold ler_item
  rw [if_pos ⟨h0, h1⟩, hx]

theorem lv_escrever_item (itens : List Int) (i : Int) (x : Int) (h0 : 0 ≤ i)
    (h1 : i < TAM_MAX) (hl : i.toNat < itens.length) :
    escrever_item itens i x = .ok (itens.set i.toNat x) := by
  unfold escrever_item
  rw [if_pos ⟨h0, h1, hl⟩]

theorem lv_existe_item (itens : List Int) (k : Nat) (h : k < itens.length) :
    ∃ x, itens[k]? = some x :=
  ⟨itens[k], List.getElem?_eq_getElem h⟩

theorem lv_deslocar_direita (pos : Int) (n : Nat) (itens : List Int) (i : Int)
    (hp : 0 ≤ pos) (hi : i = pos + n) (hlt : i < TAM_MAX) (hl : i.toNat < itens.length) :
    ∃ itens1, deslocar_direita pos n itens i = .ok itens1 ∧ itens1.length = itens.length ∧
      ∀ j : Nat, itens1[j]? =
        if pos.toNat < j ∧ j ≤ i.toNat then itens[j - 1]? else itens[j]? := by
  induction n generalizing itens i with
  | zero =>
    refine ⟨itens, rfl, rfl, fun j => ?_⟩
    have : ¬ (pos.toNat < j ∧ j ≤ i.toNat) := by
      simp only [Nat.cast_zero, add_zero] at hi
      omega
    rw [if_neg this]
  | succ n ih =>
    simp only [Nat.cast_add, Nat.cast_one] at hi
    have hgt : i > pos := by omega
    obtain ⟨x, hx⟩ := lv_existe_item itens (i - 1).toNat (by omega)
    have hr := lv_ler_item itens (i - 1) x (by omega) (by omega) hx
    have hw := lv_escrever_item itens i x (by omega) hlt hl
    obtain ⟨itens2, h2, hlen2, hidx2⟩ := ih (itens.set i.toNat x)
      (i - 1) (by omega) (by omega) (by rw [List.length_set]; omega)
    refine ⟨itens2, ?_, by rw [hlen2, List.length_set], fun j => ?_⟩
    · rw [deslocar_direita, if_pos hgt, hr]
      dsimp only
      rw [hw]
      exact h2
    rw [hidx2 j]
    by_cases hj1 : pos.toNat < j ∧ j ≤ (i - 1).toNat
    · rw [if_pos hj1, if_pos ⟨hj1.1, by omega⟩, List.getElem?_set_ne (by omega)]
    · rw [if_neg hj1]
      by_cases hj2 : j = i.toNat
      · have hc : pos.toNat < j ∧ j ≤ i.toNat := by omega
        rw [if_pos hc, hj2, List.getElem?_set_self hl]
        have : i.toNat - 1 = (i - 1).toNat := by omega
        rw [this, hx]
      · have hc : ¬ (pos.toNat < j ∧ j ≤ i.toNat) := by omega
        rw [if_neg hc, List.getElem?_set_ne (Ne.symm hj2)]

theorem lv_deslocar_esquerda (u : Int) (n : Nat) (itens : List Int) (i : Int)
    (hi0 : 0 ≤ i) (hi : i + n = u - 1) (hu : u ≤ TAM_MAX) (hl : u.toNat ≤ itens.length) :
    ∃ itens1, deslocar_esquerda u n itens i = .ok itens1 ∧ itens1.length = itens.length ∧
      ∀ j : Nat, itens1[j]? =
        if i.toNat ≤ j ∧ j < (u - 1).toNat then itens[j + 1]? else itens[j]? := by
  induction n generalizing itens i with
  | zero =>
    refine ⟨itens, rfl, rfl, fun j => ?_⟩
    have : ¬ (i.toNat ≤ j ∧ j < (u - 1).toNat) := by
      simp only [Nat.cast_zero, add_zero] at hi
      omega
    rw [if_neg this]
  | succ n ih =>
    simp only [Nat.cast_add, Nat.cast_one] at hi
    have hlt : i < u - 1 := by omega
    obtain ⟨x, hx⟩ := lv_existe_item itens (i + 1).toNat (by omega)
    have hr := lv_ler_item itens (i + 1) x (by omega) (by omega) hx
    have hw := lv_escrever_item itens i x hi0 (by omega) (by omega)
    obtain ⟨itens2, h2, hlen2, hidx2⟩ := ih (itens.set i.toNat x)
      (i + 1) (by omega) (by omega) (by rw [List.length_set]; exact hl)
    refine ⟨itens2, ?_, by rw [hlen2, List.length_set], fun j => ?_⟩
    · rw [deslocar_esquerda, if_pos hlt, hr]
      dsimp only
      rw [hw]
      exact h2
    rw [hidx2 j]
    by_cases hj1 : (i + 1).toNat ≤ j ∧ j < (u - 1).toNat
    · rw [if_pos hj1, if_pos ⟨by omega, hj1.2⟩, List.getElem?_set_ne (by omega)]
    · rw [if_neg hj1]
      by_cases hj2 : j = i.toNat
      · have hc : i.toNat ≤ j ∧ j < (u - 1).toNat := by omega
        rw [if_pos hc, hj2, List.getElem?_set_self (by omega)]
        have : i.toNat + 1 = (i + 1).toNat := by omega
        rw [this, hx]
      · have hc : ¬ (i.toNat ≤ j ∧ j < (u - 1).toNat) := by omega
        rw [if_neg hc, List.getElem?_set_ne (Ne.symm hj2)]

/-! ## Contents after `inserir`, `remover` and `obter` -/

theorem lv_inserido_idx (L : List Int) (p : Nat) (x : Int) (j : Nat) (hp : p ≤ L.length) :
    (L.take p ++ [x] ++ L.drop p)[j]? =
      if j < p then L[j]? else if j = p then some x else L[j - 1]? := by
  have hlen : (L.take p).length = p := by rw [List.length_take]; omega
  by_cases h1 : j < p
  · rw [if_pos h1, List.append_assoc, List.getElem?_append_left (by omega),
      List.getElem?_take_of_lt h1]
  · rw [if_neg h1, List.append_assoc, List.getElem?_append_right (by omega), hlen]
    by_cases h2 : j = p
    · rw [if_pos h2, h2, Nat.sub_self, List.singleton_append, List.getElem?_cons_zero]
    · rw [if_neg h2]
      obtain ⟨k, hk⟩ : ∃ k, j - p = k + 1 := ⟨j - p - 1, by omega⟩
      rw [hk, List.singleton_append, List.getElem?_cons_succ, List.getElem?_drop]
      congr 1
      omega

theorem lv_inserir_spec (l : ListaVet) (x pos : Int) (hb : BemFormada l)
    (hn : l.ultimo < TAM_MAX) (h0 : 0 ≤ pos) (h1 : pos ≤ l.ultimo) :
    ∃ l1, inserir (some l) x pos = .ok l1 ∧ BemFormada l1 ∧ l1.ultimo = l.ultimo + 1 ∧
      conteudo l1 = (conteudo l).take pos.toNat ++ [x] ++ (conteudo l).drop pos.toNat := by
  obtain ⟨hlen, hu0, hu1⟩ := hb
  obtain ⟨itens1, hd, hlen1, hidx⟩ := lv_deslocar_direita pos (l.ultimo - pos).toNat l.itens
    l.ultimo h0 (by omega) hn (by omega)
  have hw := lv_escrever_item itens1 pos x h0 (by omega) (by omega)
  refine ⟨ListaVet.mk (itens1.set pos.toNat x) (l.ultimo + 1), ?_, ?_, rfl, ?_⟩
  · unfold inserir
    dsimp only
    rw [if_neg (by omega), if_neg (by intro h; exact h ⟨h0, h1⟩), hd]
    dsimp only
    rw [hw]
  · exact ⟨by rw [List.length_set, hlen1]; exact hlen, by show 0 ≤ l.ultimo + 1; omega,
      by show l.ultimo + 1 ≤ TAM_MAX; omega⟩
  · apply List.ext_getElem?
    intro j
    have hcl : (conteudo l).length = l.ultimo.toNat := by
      unfold conteudo
      rw [List.length_take]
      omega
    rw [lv_inserido_idx _ _ _ _ (by omega)]
    unfold conteudo
    dsimp only
    rw [List.getElem?_take, List.getElem?_set, hidx j, List.getElem?_take, List.getElem?_take]
    have hu : (l.ultimo + 1).toNat = l.ultimo.toNat + 1 := by omega
    have hp1 : pos.toNat < itens1.length := by omega
    rw [hu, if_pos hp1]
    split_ifs <;> first | rfl | (exfalso; omega)

theorem lv_remover_spec (l : ListaVet) (pos : Int) (hb : BemFormada l)
    (h0 : 0 ≤ pos) (h1 : pos < l.ultimo) :
    ∃ l1 x, remover (some l) pos = .ok (l1, x) ∧ BemFormada l1 ∧
      l1.ultimo = l.ultimo - 1 ∧ (conteudo l)[pos.toNat]? = some x ∧
      conteudo l1 = (conteudo l).eraseIdx pos.toNat := by
  obtain ⟨hlen, hu0, hu1⟩ := hb
  obtain ⟨x, hx⟩ := lv_existe_item l.itens pos.toNat (by omega)
  have hr := lv_ler_item l.itens pos x h0 (by omega) hx
  obtain ⟨itens1, hd, hlen1, hidx⟩ := lv_deslocar_esquerda l.ultimo (l.ultimo - 1 - pos).toNat
    l.itens pos h0 (by omega) hu1 (by omega)
  refine ⟨ListaVet.mk itens1 (l.ultimo - 1), x, ?_, ?_, rfl, ?_, ?_⟩
  · unfold remover
    dsimp only
    rw [if_neg (by omega), if_neg (by intro h; exact h ⟨h0, h1⟩), hr]
    dsimp only
    rw [hd]
  · exact ⟨by rw [hlen1]; exact hlen, by show 0 ≤ l.ultimo - 1; omega,
      by show l.ultimo - 1 ≤ TAM_MAX; omega⟩
  · unfold conteudo
    rw [List.getElem?_take, if_pos (by omega), hx]
  · apply List.ext_getElem?
    intro j
    rw [List.getElem?_eraseIdx]
    unfold conteudo
    dsimp only
    rw [List.getElem?_take, hidx j, List.getElem?_take, List.getElem?_take]
    have hu : (l.ultimo - 1).toNat + 1 = l.ultimo.toNat := by omega
    split_ifs <;> first | rfl | (exfalso; omega)

theorem lv_obter_spec (l : ListaVet) (pos : Int) (hb : BemFormada l)
    (h0 : 0 ≤ pos) (h1 : pos < l.ultimo) :
    ∃ x, obter (some l) pos = .ok x ∧ (conteudo l)[pos.toNat]? = some x := by
  obtain ⟨hlen, hu0, hu1⟩ := hb
  obtain ⟨x, hx⟩ := lv_existe_item l.itens pos.toNat (by omega)
  refine ⟨x, ?_, ?_⟩
  · unfold obter
    dsimp only
    rw [if_neg (by omega), if_neg (by intro h; exact h ⟨h0, h1⟩)]
    exact lv_ler_item l.itens pos x h0 (by omega) hx
  · unfold conteudo
    rw [List.getElem?_take, if_pos (by omega), hx]

theorem lv_conteudo_length (l : ListaVet) (hb : BemFormada l) :
    ((conteudo l).length : Int) = l.ultimo := by
  obtain ⟨hlen, hu0, hu1⟩ := hb
  unfold conteudo
  rw [List.length_take]
  omega

theorem lv_BemFormada_criar (itens0 : List Int) (h : (itens0.length : Int) = TAM_MAX) :
    BemFormada (criar_lista itens0) ∧ conteudo (criar_lista itens0) = [] := by
  refine ⟨⟨h, le_refl _, by show (0 : Int) ≤ TAM_MAX; unfold TAM_MAX; decide⟩, ?_⟩
  unfold conteudo criar_lista
  rfl

theorem lv_inserir_varios_spec (ps : List (Int × Int)) (l : ListaVet) (hb : BemFormada l)
    (hv : posicoes_validas l.ultimo ps) (hc : l.ultimo + ps.length ≤ TAM_MAX) :
    ∃ l1, inserir_varios l ps = .ok l1 ∧ BemFormada l1 ∧
      l1.ultimo = l.ultimo + ps.length ∧
      conteudo l1 = ps.foldl
        (fun L (p : Int × Int) => L.take p.2.toNat ++ [p.1] ++ L.drop p.2.toNat)
        (conteudo l) := by
  induction ps generalizing l with
  | nil => exact ⟨l, rfl, hb, by simp, rfl⟩
  | cons p ps ih =>
    obtain ⟨x, pos⟩ := p
    obtain ⟨h0, h1, hv1⟩ := hv
    simp only [List.length_cons, Nat.cast_add, Nat.cast_one] at hc
    obtain ⟨l1, hi, hb1, hu1, hc1⟩ := lv_inserir_spec l x pos hb (by omega) h0 h1
    obtain ⟨l2, hi2, hb2, hu2, hc2⟩ := ih l1 hb1 (by rw [hu1]; exact hv1) (by omega)
    refine ⟨l2, ?_, hb2, ?_, ?_⟩
    · rw [inserir_varios, hi]
      exact hi2
    · simp only [List.length_cons, Nat.cast_add, Nat.cast_one]
      omega
    · rw [hc2, hc1]
      rfl

theorem lv_esvaziar_spec (fuel : Nat) (l : ListaVet) (hb : BemFormada l)
    (hf : l.ultimo.toNat ≤ fuel) :
    ∃ l1, esvaziar fuel l = some (.ok (l1, conteudo l)) ∧ BemFormada l1 ∧ l1.ultimo = 0 := by
  induction fuel generalizing l with
  | zero =>
    have hz : l.ultimo = 0 := by
      have := hb.2.1
      omega
    refine ⟨l, ?_, hb, hz⟩
    rw [esvaziar, if_pos hz]
    unfold conteudo
    rw [hz]
    rfl
  | succ fuel ih =>
    by_cases hz : l.ultimo = 0
    · refine ⟨l, ?_, hb, hz⟩
      rw [esvaziar, if_pos hz]
      unfold conteudo
      rw [hz]
      rfl
    · have hpos : 0 < l.ultimo := by
        have := hb.2.1
        omega
      obtain ⟨l1, x, hr, hb1, hu1, hx, hc1⟩ := lv_remover_spec l 0 hb (le_refl _) hpos
      obtain ⟨l2, he, hb2, hu2⟩ := ih l1 hb1 (by omega)
      refine ⟨l2, ?_, hb2, hu2⟩
      rw [esvaziar, if_neg hz, hr]
      dsimp only
      rw [he]
      dsimp only
      have : conteudo l = x :: conteudo l1 := by
        rw [hc1]
        cases hcl : conteudo l with
        | nil => rw [hcl] at hx; exact absurd hx (by simp)
        | cons y ys =>
          rw [hcl] at hx
          simp only [Int.toNat_zero, List.getElem?_cons_zero, Option.some.injEq] at hx
          rw [hx]
          rfl
      rw [this]

/-! ## Failures of `inserir` -/

theorem lv_ler_item_erro (itens : List Int) (i : Int) (e : Erro)
    (h : ler_item itens i = .error e) : e = .indefinido := by
  unfold ler_item at h
  split at h
  · split at h
    · exact absurd h (by simp)
    · injection h with h
      exact h.symm
  · injection h with h
    exact h.symm

theorem lv_escrever_item_erro (itens : List Int) (i x : Int) (e : Erro)
    (h : escrever_item itens i x = .error e) : e = .indefinido := by
  unfold escrever_item at h
  split at h
  · exact absurd h (by simp)
  · injection h with h
    exact h.symm

theorem lv_deslocar_direita_erro (pos : Int) (n : Nat) (itens : List Int) (i : Int) (e : Erro)
    (h : deslocar_direita pos n itens i = .error e) : e = .indefinido := by
  induction n generalizing itens i with
  | zero => exact absurd h (by simp [deslocar_direita])
  | succ n ih =>
    rw [deslocar_direita] at h
    split at h
    · cases hr : ler_item itens (i - 1) with
      | error e1 =>
        rw [hr] at h
        injection h with h
        subst h
        exact lv_ler_item_erro _ _ _ hr
      | ok x =>
        rw [hr] at h
        dsimp only at h
        cases hw : escrever_item itens i x with
        | error e1 =>
          rw [hw] at h
          injection h with h
          subst h
          exact lv_escrever_item_erro _ _ _ _ hw
        | ok itens1 =>
          rw [hw] at h
          exact ih _ _ h
    · exact absurd h (by simp)

theorem lv_inserir_aborta (l : ListaVet) (x pos : Int) :
    inserir (some l) x pos = .error .abortado ↔
      (l.ultimo = TAM_MAX ∨ pos < 0 ∨ pos > l.ultimo) := by
  unfold inserir
  dsimp only
  by_cases hc : l.ultimo = TAM_MAX
  · rw [if_pos hc]
    exact ⟨fun _ => Or.inl hc, fun _ => rfl⟩
  · rw [if_neg hc]
    by_cases hp : pos ≥ 0 ∧ pos ≤ l.ultimo
    · rw [if_neg (not_not.mpr hp)]
      constructor
      · intro h
        exfalso
        cases hd : deslocar_direita pos (l.ultimo - pos).toNat l.itens l.ultimo with
        | error e =>
          rw [hd] at h
          injection h with h
          subst h
          exact absurd (lv_deslocar_direita_erro _ _ _ _ _ hd) (by decide)
        | ok itens1 =>
          rw [hd] at h
          dsimp only at h
          cases hw : escrever_item itens1 pos x with
          | error e =>
            rw [hw] at h
            injection h with h
            subst h
            exact absurd (lv_escrever_item_erro _ _ _ _ hw) (by decide)
          | ok itens2 =>
            rw [hw] at h
            exact absurd h (by simp)
      · intro h
        omega
    · rw [if_pos hp]
      exact ⟨fun _ => by omega, fun _ => rfl⟩

theorem lv_inserir_parada_aborta (l : ListaVet) (x pos : Int) (r : Option ListaVet)
    (h : inserir_parada (some l) x pos = .aborta r) : r = some l := by
  unfold inserir_parada at h
  dsimp only at h
  split at h
  · injection h with h
    exact h.symm
  · split at h
    · injection h with h
      exact h.symm
    · split at h
      · exact absurd h (by simp)
      · injection h with h
        exact h.symm
      · exact absurd h (by simp)

theorem lv_inserir_parada_sse (l : ListaVet) (x pos : Int) :
    inserir_parada (some l) x pos = .aborta (some l) ↔
      inserir (some l) x pos = .error .abortado := by
  rw [lv_inserir_aborta]
  unfold inserir_parada
  dsimp only
  by_cases hc : l.ultimo = TAM_MAX
  · rw [if_pos hc]
    exact ⟨fun _ => Or.inl hc, fun _ => rfl⟩
  · rw [if_neg hc]
    by_cases hp : pos ≥ 0 ∧ pos ≤ l.ultimo
    · rw [if_neg (not_not.mpr hp)]
      constructor
      · intro h
        exfalso
        cases hi : inserir (some l) x pos with
        | ok l1 =>
          rw [hi] at h
          exact absurd h (by simp)
        | error e =>
          cases e with
          | abortado =>
            have := (lv_inserir_aborta l x pos).mp hi
            omega
          | indefinido =>
            rw [hi] at h
            exact absurd h (by simp)
      · intro h
        omega
    · rw [if_pos hp]
      exact ⟨fun _ => by omega, fun _ => rfl⟩

theorem lv_exemplo_inserir (itens0 : List Int) (hi : (itens0.length : Int) = TAM_MAX) :
    ∃ l3, inserir_varios (criar_lista itens0) [(3, 0), (2, 0), (1, 0)] = .ok l3 ∧
      BemFormada l3 ∧ l3.ultimo = 3 ∧ conteudo l3 = [1, 2, 3] := by
  obtain ⟨hb, hc⟩ := lv_BemFormada_criar itens0 hi
  have hv : posicoes_validas (criar_lista itens0).ultimo [(3, 0), (2, 0), (1, 0)] := by
    show posicoes_validas 0 [(3, 0), (2, 0), (1, 0)]
    simp [posicoes_validas]
  have hcap : (criar_lista itens0).ultimo + ([(3, 0), (2, 0), (1, 0)] : List (Int × Int)).length
      ≤ TAM_MAX := by
    show (0 : Int) + ((3 : Nat) : Int) ≤ TAM_MAX
    unfold TAM_MAX
    decide
  obtain ⟨l3, hr, hb3, hu, hc3⟩ := lv_inserir_varios_spec [(3, 0), (2, 0), (1, 0)]
    (criar_lista itens0) hb hv hcap
  refine ⟨l3, hr, hb3, ?_, ?_⟩
  · rw [hu]
    rfl
  · rw [hc3, hc]
    rfl

/-! ## Claims C24, C25 and C30 -/

/-- C24: `inserir` of `listavet.cpp` shifts right and places the item.  For every
record whose array has `TAM_MAX` cells and whose `ultimo` is below `TAM_MAX`, and every
`pos` with `0 <= pos <= ultimo`, the call returns, the contents `itens[0 .. ultimo - 1]`
become the first `pos` items of the old contents, then `x`, then the remaining items,
and `ultimo` (the value `obter_tamanho` returns) grows by one.  In the documented
example `obter_tamanho` is 0 on the fresh list, and after inserting 3, 2, 1 each at
position 0 the contents are `[1, 2, 3]` and `obter_tamanho` is 3, whatever the fresh
array holds. -/
theorem lista_vet_inserir (l : ListaVet) (x pos : Int) (itens0 : List Int)
    (hl : (l.itens.length : Int) = TAM_MAX) (hn : l.ultimo < TAM_MAX)
    (h0 : 0 ≤ pos) (h1 : pos ≤ l.ultimo) (hi : (itens0.length : Int) = TAM_MAX) :
    (∃ l1, inserir (some l) x pos = .ok l1 ∧
      conteudo l1 = (conteudo l).take pos.toNat ++ [x] ++ (conteudo l).drop pos.toNat ∧
      l1.ultimo = l.ultimo + 1 ∧
      obter_tamanho (some l) = .ok l.ultimo ∧
      obter_tamanho (some l1) = .ok (l.ultimo + 1)) ∧
    (obter_tamanho (some (criar_lista itens0)) = .ok 0 ∧
      ∃ l3, inserir_varios (criar_lista itens0) [(3, 0), (2, 0), (1, 0)] = .ok l3 ∧
        conteudo l3 = [1, 2, 3] ∧ obter_tamanho (some l3) = .ok 3) := by
  constructor
  · obtain ⟨l1, hr, _, hu, hc⟩ := lv_inserir_spec l x pos ⟨hl, by omega, by omega⟩ hn h0 h1
    refine ⟨l1, hr, hc, hu, rfl, ?_⟩
    show Except.ok l1.ultimo = _
    rw [hu]
  · obtain ⟨l3, hr, _, hu, hc3⟩ := lv_exemplo_inserir itens0 hi
    refine ⟨rfl, l3, hr, hc3, ?_⟩
    show Except.ok l3.ultimo = _
    rw [hu]

theorem lista_vet_inserir_witness :
    ∃ l1, inserir (some (ListaVet.mk ((List.replicate 100 0).set 0 5 |>.set 1 6) 2)) 9 1
        = .ok l1 ∧
      conteudo l1 = [5, 9, 6] ∧ l1.ultimo = 3 := by
  obtain ⟨l1, hr, hc, hu, _, _⟩ :=
    (lista_vet_inserir (ListaVet.mk ((List.replicate 100 0).set 0 5 |>.set 1 6) 2) 9 1
      (List.replicate 100 0) (by decide) (by decide) (by decide) (by decide) (by decide)).1
  exact ⟨l1, hr, hc, hu⟩

/-- C25: `remover` of `listavet.cpp` returns the element and shifts left.  For
every well-formed record (array of `TAM_MAX` cells, `0 <= ultimo <= TAM_MAX`) and every
`pos` with `0 <= pos < ultimo`, `remover` returns the item at index `pos` of the
contents, leaves the contents with that index erased and `ultimo` one smaller, and
`obter` returns the same item with the record left as it was.  In the documented
example, after inserting 3, 2, 1 at position 0 the loop `remover(li, 0)` until empty
ends for every fuel of at least 3 and returns 1, 2, 3 in that order, leaving the list
empty. -/
theorem lista_vet_remover (l : ListaVet) (pos : Int) (itens0 : List Int)
    (hb : BemFormada l) (h0 : 0 ≤ pos) (h1 : pos < l.ultimo)
    (hi : (itens0.length : Int) = TAM_MAX) :
    (∃ l1 x, remover (some l) pos = .ok (l1, x) ∧
      (conteudo l)[pos.toNat]? = some x ∧
      conteudo l1 = (conteudo l).eraseIdx pos.toNat ∧
      l1.ultimo = l.ultimo - 1 ∧
      obter (some l) pos = .ok x ∧
      obter_estado l pos = .ok (l, x)) ∧
    (∃ l3, inserir_varios (criar_lista itens0) [(3, 0), (2, 0), (1, 0)] = .ok l3 ∧
      ∀ fuel, 3 ≤ fuel →
        ∃ l4, esvaziar fuel l3 = some (.ok (l4, [1, 2, 3])) ∧ conteudo l4 = [] ∧
          estah_vazia (some l4) = .ok true) := by
  constructor
  · obtain ⟨l1, x, hr, _, hu, hx, hc⟩ := lv_remover_spec l pos hb h0 h1
    obtain ⟨y, hy, hxy⟩ := lv_obter_spec l pos hb h0 h1
    have hyx : y = x := by
      rw [hx] at hxy
      injection hxy with hxy
      exact hxy.symm
    subst hyx
    refine ⟨l1, y, hr, hx, hc, hu, hy, ?_⟩
    unfold obter_estado
    rw [hy]
  · obtain ⟨l3, hr, hb3, hu3, hc3⟩ := lv_exemplo_inserir itens0 hi
    refine ⟨l3, hr, fun fuel hf => ?_⟩
    obtain ⟨l4, he, hb4, hu4⟩ := lv_esvaziar_spec fuel l3 hb3 (by rw [hu3]; exact hf)
    rw [hc3] at he
    refine ⟨l4, he, ?_, ?_⟩
    · unfold conteudo
      rw [hu4]
      rfl
    · show Except.ok (l4.ultimo == 0) = _
      rw [hu4]
      rfl

theorem lista_vet_remover_witness :
    ∃ l1, remover (some (ListaVet.mk ((List.replicate 100 0).set 0 5 |>.set 1 6) 2)) 0
        = .ok (l1, 5) ∧
      conteudo l1 = [6] := by
  obtain ⟨l1, x, hr, hx, hc, _⟩ :=
    (lista_vet_remover (ListaVet.mk ((List.replicate 100 0).set 0 5 |>.set 1 6) 2) 0
      (List.replicate 100 0) ⟨by decide, by decide, by decide⟩ (by decide) (by decide)
      (by decide)).1
  have hx5 : x = 5 := by
    have h5 : (conteudo (ListaVet.mk ((List.replicate 100 0).set 0 5 |>.set 1 6) 2))[(0 : Int).toNat]?
        = some 5 := by decide
    rw [h5] at hx
    injection hx with hx
    exact hx.symm
  subst hx5
  exact ⟨l1, hr, hc⟩

/-- C30: failure conditions of `inserir` of `listavet.cpp`.  For every record and
arguments the call aborts if and only if `ultimo` equals `TAM_MAX` (which is 100) or
`pos` lies outside `[0, ultimo]`, and at an abort the record is the one received, array
and `ultimo` alike.  On a fresh list every sequence of `TAM_MAX` insertions at valid
positions returns, the list is then full with `obter_tamanho` equal to `TAM_MAX`, and
every further insertion aborts.  `estah_cheia` is true exactly when `obter_tamanho`
returns `TAM_MAX`. -/
theorem lista_vet_inserir_falha (itens0 : List Int) (hi : (itens0.length : Int) = TAM_MAX) :
    (∀ (l : ListaVet) (x pos : Int),
      (inserir (some l) x pos = .error .abortado ↔
        (l.ultimo = TAM_MAX ∨ pos < 0 ∨ pos > l.ultimo)) ∧
      (inserir (some l) x pos = .error .abortado ↔
        inserir_parada (some l) x pos = .aborta (some l)) ∧
      (∀ r, inserir_parada (some l) x pos = .aborta r → r = some l)) ∧
    TAM_MAX = 100 ∧
    (∀ ps : List (Int × Int), posicoes_validas 0 ps → (ps.length : Int) = TAM_MAX →
      ∃ l1, inserir_varios (criar_lista itens0) ps = .ok l1 ∧
        obter_tamanho (some l1) = .ok TAM_MAX ∧
        estah_cheia (some l1) = .ok true ∧
        ∀ x pos, inserir (some l1) x pos = .error .abortado) ∧
    (∀ l : ListaVet, estah_cheia (some l) = .ok true ↔
      obter_tamanho (some l) = .ok TAM_MAX) := by
  refine ⟨fun l x pos => ⟨lv_inserir_aborta l x pos, (lv_inserir_parada_sse l x pos).symm,
    fun r h => lv_inserir_parada_aborta l x pos r h⟩, rfl, ?_, ?_⟩
  · intro ps hv hlen
    obtain ⟨hb0, _⟩ := lv_BemFormada_criar itens0 hi
    obtain ⟨l1, hr, _, hu, _⟩ := lv_inserir_varios_spec ps (criar_lista itens0) hb0 hv
      (by show (0 : Int) + ps.length ≤ TAM_MAX; omega)
    have hu1 : l1.ultimo = TAM_MAX := by
      rw [hu, ← hlen]
      show (0 : Int) + ps.length = ps.length
      omega
    refine ⟨l1, hr, ?_, ?_, fun x pos => (lv_inserir_aborta l1 x pos).mpr (Or.inl hu1)⟩
    · show Except.ok l1.ultimo = _
      rw [hu1]
    · show Except.ok (l1.ultimo == TAM_MAX) = _
      rw [hu1]
      simp
  · intro l
    show Except.ok (l.ultimo == TAM_MAX) = Except.ok true ↔ Except.ok l.ultimo = Except.ok TAM_MAX
    constructor
    · intro h
      injection h with h
      rw [beq_iff_eq] at h
      rw [h]
    · intro h
      injection h with h
      rw [h]
      simp

set_option maxRecDepth 100000 in
theorem lista_vet_inserir_falha_witness :
    ∃ l1, inserir_varios (criar_lista (List.replicate 100 0)) (List.replicate 100 (7, 0))
        = .ok l1 ∧ inserir (some l1) 8 0 = .error .abortado :=
  have h := (lista_vet_inserir_falha (List.replicate 100 0) (by decide)).2.2.1
    (List.replicate 100 (7, 0)) (by decide) (by decide)
  h.elim fun l1 hl1 => ⟨l1, hl1.1, hl1.2.2.2 8 0⟩

end Listavet

namespace Listaenc

/-! ## Store and chain lemmas -/

theorem le_consultar_lt {m : Mem} {a : Nat} {n : Noh} (h : consultar m a = some n) :
    a < m.length := by
  by_contra hlt
  have : m[a]? = none := List.getElem?_eq_none (by omega)
  simp [consultar, this] at h

theorem le_consultar_set_eq {m : Mem} {a : Nat} (v : Option Noh) (h : a < m.length) :
    consultar (m.set a v) a = v := by
  unfold consultar
  rw [List.getElem?_set_self h]
  cases v <;> rfl

theorem le_consultar_set_ne {m : Mem} {a b : Nat} (v : Option Noh) (h : b ≠ a) :
    consultar (m.set b v) a = consultar m a := by
  unfold consultar
  rw [List.getElem?_set_ne h]

theorem le_consultar_append {m : Mem} {a : Nat} (e : Mem) (h : a < m.length) :
    consultar (m ++ e) a = consultar m a := by
  unfold consultar
  rw [List.getElem?_append_left h]

theorem le_consultar_novo (m : Mem) (n : Noh) :
    consultar (m ++ [some n]) m.length = some n := by
  unfold consultar
  simp

theorem le_Trecho_cons {m : Mem} {f n : Ptr} {c : Nat × Int} {cs : List (Nat × Int)} :
    Trecho m f (c :: cs) n ↔
      f = some c.1 ∧ ∃ q, consultar m c.1 = some { item := c.2, prox := q } ∧
        Trecho m q cs n := Iff.rfl

theorem le_Trecho_append {m : Mem} {c1 c2 : List (Nat × Int)} {f n : Ptr} :
    Trecho m f (c1 ++ c2) n ↔ ∃ mid, Trecho m f c1 mid ∧ Trecho m mid c2 n := by
  induction c1 generalizing f with
  | nil =>
    constructor
    · intro h
      exact ⟨f, rfl, h⟩
    · rintro ⟨mid, h1, h⟩
      have hfm : f = mid := h1
      subst hfm
      exact h
  | cons c cs ih =>
    simp only [List.cons_append, le_Trecho_cons, ih]
    constructor
    · rintro ⟨hf, q, hq, mid, h1, h2⟩
      exact ⟨mid, ⟨hf, q, hq, h1⟩, h2⟩
    · rintro ⟨mid, ⟨hf, q, hq, h1⟩, h2⟩
      exact ⟨hf, q, hq, mid, h1, h2⟩

theorem le_Trecho_set {m : Mem} {cs : List (Nat × Int)} {f n : Ptr} (b : Nat)
    (v : Option Noh) (hb : ∀ c ∈ cs, c.1 ≠ b) (h : Trecho m f cs n) :
    Trecho (m.set b v) f cs n := by
  induction cs generalizing f with
  | nil => exact h
  | cons d ds ih =>
    obtain ⟨hf, q, hq, hrest⟩ := h
    refine ⟨hf, q, ?_, ih (fun c hc => hb c (List.mem_cons_of_mem _ hc)) hrest⟩
    rw [le_consultar_set_ne v (Ne.symm (hb d (List.mem_cons_self _ _)))]
    exact hq

theorem le_Trecho_novo {m : Mem} {cs : List (Nat × Int)} {f n : Ptr} (e : Mem)
    (h : Trecho m f cs n) : Trecho (m ++ e) f cs n := by
  induction cs generalizing f with
  | nil => exact h
  | cons d ds ih =>
    obtain ⟨hf, q, hq, hrest⟩ := h
    refine ⟨hf, q, ?_, ih hrest⟩
    rw [le_consultar_append e (le_consultar_lt hq)]
    exact hq

theorem le_Trecho_unico {m : Mem} {cs cs2 : List (Nat × Int)} {f : Ptr}
    (h : Trecho m f cs none) (h2 : Trecho m f cs2 none) : cs = cs2 := by
  induction cs generalizing f cs2 with
  | nil =>
    cases cs2 with
    | nil => rfl
    | cons d ds =>
      have hf : f = none := h
      obtain ⟨hf2, _⟩ := h2
      rw [hf] at hf2
      cases hf2
  | cons c cs ih =>
    cases cs2 with
    | nil =>
      obtain ⟨hf, _⟩ := h
      have hf2 : f = none := h2
      rw [hf2] at hf
      cases hf
    | cons d ds =>
      obtain ⟨hf, q, hq, hrest⟩ := h
      obtain ⟨hf2, q2, hq2, hrest2⟩ := h2
      rw [hf] at hf2
      have hcd : c.1 = d.1 := Option.some.inj hf2
      rw [← hcd, hq] at hq2
      have hnode := Option.some.inj hq2
      have hitem : c.2 = d.2 := congrArg Noh.item hnode
      have hprox : q = q2 := congrArg Noh.prox hnode
      subst hprox
      have := ih hrest hrest2
      subst this
      have : c = d := Prod.ext hcd hitem
      rw [this]

theorem le_Trecho_nodup {m : Mem} {cs : List (Nat × Int)} {f : Ptr}
    (h : Trecho m f cs none) : (cs.map Prod.fst).Nodup := by
  induction cs generalizing f with
  | nil => exact List.nodup_nil
  | cons c cs ih =>
    have hall := h
    obtain ⟨hf, q, hq, hrest⟩ := h
    rw [List.map_cons, List.nodup_cons]
    refine ⟨?_, ih hrest⟩
    intro hmem
    obtain ⟨d, hd, hdc⟩ := List.mem_map.1 hmem
    obtain ⟨s, t, hst⟩ := List.append_of_mem hd
    rw [hst] at hall
    have hsplit : Trecho m f ((c :: s) ++ d :: t) none := hall
    rw [le_Trecho_append] at hsplit
    obtain ⟨mid, _, hsuf⟩ := hsplit
    have hmid : mid = f := by
      obtain ⟨hm, _⟩ := hsuf
      rw [hm, hf, hdc]
    rw [hmid] at hsuf
    have := congrArg List.length (le_Trecho_unico hall hsuf)
    simp at this
    omega

theorem le_Trecho_lt {m : Mem} {cs : List (Nat × Int)} {f n : Ptr}
    (h : Trecho m f cs n) : ∀ c ∈ cs, c.1 < m.length := by
  induction cs generalizing f with
  | nil =>
    intro c hc
    cases hc
  | cons d ds ih =>
    obtain ⟨_, q, hq, hrest⟩ := h
    intro c hc
    rcases List.mem_cons.1 hc with rfl | hc
    · exact le_consultar_lt hq
    · exact ih hrest c hc

theorem le_Trecho_length_le {m : Mem} {cs : List (Nat × Int)} {f : Ptr}
    (h : Trecho m f cs none) : cs.length ≤ m.length := by
  have hsub : (cs.map Prod.fst).Subperm (List.range m.length) :=
    List.subperm_of_subset (le_Trecho_nodup h) (fun a ha => by
      obtain ⟨c, hc, rfl⟩ := List.mem_map.1 ha
      exact List.mem_range.2 (le_Trecho_lt h c hc))
  simpa using hsub.length_le

theorem le_nodup_meio {c1 c2 : List (Nat × Int)} {b : Nat × Int}
    (h : ((c1 ++ b :: c2).map Prod.fst).Nodup) :
    (∀ c ∈ c1, c.1 ≠ b.1) ∧ (∀ c ∈ c2, c.1 ≠ b.1) ∧
      (∀ c ∈ c1, ∀ d ∈ c2, c.1 ≠ d.1) := by
  rw [List.map_append, List.map_cons, List.nodup_append] at h
  obtain ⟨_, h2, h3⟩ := h
  rw [List.nodup_cons] at h2
  refine ⟨fun c hc heq => ?_, fun c hc heq => ?_, fun c hc d hd heq => ?_⟩
  · exact h3 (List.mem_map.2 ⟨c, hc, rfl⟩) (by rw [heq]; exact List.mem_cons_self _ _)
  · exact h2.1 (by rw [← heq]; exact List.mem_map.2 ⟨c, hc, rfl⟩)
  · exact h3 (List.mem_map.2 ⟨c, hc, rfl⟩)
      (List.mem_cons_of_mem _ (by rw [heq]; exact List.mem_map.2 ⟨d, hd, rfl⟩))

theorem le_split (cs : List (Nat × Int)) (p : Nat) (h : p < cs.length) :
    ∃ c1 d c2, cs = c1 ++ d :: c2 ∧ c1.length = p := by
  refine ⟨cs.take p, cs[p], cs.drop (p + 1), ?_, ?_⟩
  · rw [← List.drop_eq_getElem_cons h, List.take_append_drop]
  · rw [List.length_take]
    omega

/-! ## Walks over a chain -/

theorem le_percorrer_Trecho {m : Mem} {cs : List (Nat × Int)} {f : Ptr} {k : Nat}
    (h : Trecho m f cs none) (hk : cs.length ≤ k) : percorrer m k f = some cs := by
  induction cs generalizing f k with
  | nil =>
    have hf : f = none := h
    subst hf
    cases k <;> rfl
  | cons c cs ih =>
    obtain ⟨hf, q, hq, hrest⟩ := h
    subst hf
    cases k with
    | zero => simp at hk
    | succ k =>
      have := ih hrest (Nat.le_of_succ_le_succ hk)
      simp [percorrer, hq, this]

theorem le_elementos_Repr {m : Mem} {l : ListaEnc} {cs : List (Nat × Int)}
    (h : Representa m l cs) : elementos m l = some (cs.map Prod.snd) := by
  simp [elementos, le_percorrer_Trecho h.1 (le_Trecho_length_le h.1)]

theorem le_avancar_Trecho {m : Mem} {cs : List (Nat × Int)} {f mid : Ptr}
    (h : Trecho m f cs mid) : avancar m cs.length f = .ok mid := by
  induction cs generalizing f with
  | nil =>
    have hf : f = mid := h
    subst hf
    rfl
  | cons c cs ih =>
    obtain ⟨hf, q, hq, hrest⟩ := h
    subst hf
    simp [avancar, ler, hq, ih hrest]

theorem le_avancar_com_ant_Trecho {m : Mem} {c1 : List (Nat × Int)} {b : Nat × Int}
    {f mid : Ptr} (h : Trecho m f (c1 ++ [b]) mid) (ant : Ptr) :
    avancar_com_ant m (c1.length + 1) ant f = .ok (some b.1, mid) := by
  induction c1 generalizing f ant with
  | nil =>
    obtain ⟨hf, q, hq, hrest⟩ := h
    have hqm : q = mid := hrest
    subst hf
    subst hqm
    simp [avancar_com_ant, ler, hq]
  | cons c cs ih =>
    obtain ⟨hf, q, hq, hrest⟩ := h
    subst hf
    have := ih hrest (some c.1)
    rw [List.length_cons, avancar_com_ant]
    simp only [ler, hq]
    exact this

theorem le_Representa_inicial (m0 : Mem) :
    Representa (inicial m0).mem (inicial m0).lista [] :=
  ⟨rfl, rfl⟩

theorem le_inicio_ne {m : Mem} {l : ListaEnc} {c : Nat × Int} {cs : List (Nat × Int)}
    (h : Representa m l (c :: cs)) : l.inicio ≠ none := by
  obtain ⟨⟨hf, _⟩, _⟩ := h
  rw [hf]
  exact Option.some_ne_none _

/-! ## The operations on a represented list -/

theorem le_inserir_inicio_Repr {m : Mem} {l : ListaEnc} {cs : List (Nat × Int)} (x : Int)
    (h : Representa m l cs) :
    ∃ s, inserir m (some l) x 0 = .ok s ∧ Representa s.mem s.lista ((m.length, x) :: cs) ∧
      s.lista.tam = l.tam + 1 := by
  obtain ⟨htr, htam⟩ := h
  have hlt := le_Trecho_lt htr
  have hnovo := le_consultar_novo m ({ item := x, prox := none } : Noh)
  have hlen : m.length < (m ++ [some ({ item := x, prox := none } : Noh)]).length := by
    rw [List.length_append, List.length_singleton]
    omega
  have hpos : (0 : Int) ≥ 0 ∧ (0 : Int) ≤ l.tam := ⟨le_refl _, by rw [htam]; omega⟩
  refine ⟨Estado.mk ((m ++ [some ({ item := x, prox := none } : Noh)]).set m.length
      (some ({ item := x, prox := l.inicio } : Noh))) (ListaEnc.mk (some m.length) (l.tam + 1)),
    ?_, ⟨?_, ?_⟩, rfl⟩
  · unfold inserir
    simp only [modificar, hnovo, hpos, and_self, not_true_eq_false, if_false, if_true]
  · refine ⟨rfl, l.inicio, le_consultar_set_eq _ hlen, ?_⟩
    exact le_Trecho_set _ _ (fun c hc => Nat.ne_of_lt (hlt c hc)) (le_Trecho_novo _ htr)
  · show l.tam + 1 = ((((m.length, x) :: cs).length : Nat) : Int)
    rw [List.length_cons, htam]
    omega

theorem le_inserir_meio_Repr {m : Mem} {l : ListaEnc} {c1 c2 : List (Nat × Int)}
    {b : Nat × Int} (x : Int) (pos : Int) (h : Representa m l (c1 ++ b :: c2))
    (hp : pos = c1.length + 1) :
    ∃ s, inserir m (some l) x pos = .ok s ∧
      Representa s.mem s.lista (c1 ++ b :: (m.length, x) :: c2) ∧
      s.lista.tam = l.tam + 1 := by
  obtain ⟨htr, htam⟩ := h
  have hlt := le_Trecho_lt htr
  obtain ⟨hn1, hn2, _⟩ := le_nodup_meio (le_Trecho_nodup htr)
  obtain ⟨mid, h1, hb, q, hq, h2⟩ := le_Trecho_append.1 htr
  subst hb
  have hblt : b.1 < m.length := le_consultar_lt hq
  have hnovo := le_consultar_novo m ({ item := x, prox := none } : Noh)
  have hq1 : consultar (m ++ [some ({ item := x, prox := none } : Noh)]) b.1 =
      some ({ item := b.2, prox := q } : Noh) := by
    rw [le_consultar_append _ hblt]
    exact hq
  have hav : avancar (m ++ [some ({ item := x, prox := none } : Noh)]) (pos - 1).toNat
      l.inicio = .ok (some b.1) := by
    have : (pos - 1).toNat = c1.length := by omega
    rw [this]
    exact le_avancar_Trecho (le_Trecho_novo _ h1)
  have hq2 : consultar ((m ++ [some ({ item := x, prox := none } : Noh)]).set m.length
      (some ({ item := x, prox := q } : Noh))) b.1 = some ({ item := b.2, prox := q } : Noh) := by
    rw [le_consultar_set_ne _ (Nat.ne_of_gt hblt)]
    exact hq1
  have hlen1 : m.length < (m ++ [some ({ item := x, prox := none } : Noh)]).length := by
    rw [List.length_append, List.length_singleton]
    omega
  have hrange : pos ≥ 0 ∧ pos ≤ l.tam := by
    rw [htam, List.length_append, List.length_cons]
    constructor
    · omega
    · push_cast
      omega
  have hnz : ¬ pos = 0 := by omega
  refine ⟨Estado.mk (((m ++ [some ({ item := x, prox := none } : Noh)]).set m.length
      (some ({ item := x, prox := q } : Noh))).set b.1
      (some ({ item := b.2, prox := some m.length } : Noh)))
      (ListaEnc.mk l.inicio (l.tam + 1)), ?_, ⟨?_, ?_⟩, rfl⟩
  · unfold inserir
    simp only [hrange, and_self, not_true_eq_false, if_false, hnz, hav, ler, hq1, modificar,
      hnovo, hq2]
  · apply le_Trecho_append.2
    refine ⟨some b.1, ?_, rfl, some m.length, ?_, rfl, q, ?_, ?_⟩
    · exact le_Trecho_set _ _ hn1 (le_Trecho_set _ _
        (fun c hc => Nat.ne_of_lt (hlt c (List.mem_append_left _ hc))) (le_Trecho_novo _ h1))
    · exact le_consultar_set_eq _ (by rw [List.length_set]; omega)
    · rw [le_consultar_set_ne _ (Nat.ne_of_lt hblt)]
      exact le_consultar_set_eq _ hlen1
    · exact le_Trecho_set _ _ hn2 (le_Trecho_set _ _
        (fun c hc => Nat.ne_of_lt (hlt c (List.mem_append_right _ (List.mem_cons_of_mem _ hc))))
        (le_Trecho_novo _ h2))
  · show l.tam + 1 = (((c1 ++ b :: (m.length, x) :: c2).length : Nat) : Int)
    rw [htam]
    simp only [List.length_append, List.length_cons]
    push_cast
    omega

theorem le_inserir_Repr {m : Mem} {l : ListaEnc} {cs : List (Nat × Int)} (x : Int) (pos : Int)
    (h : Representa m l cs) (h0 : 0 ≤ pos) (hu : pos ≤ l.tam) :
    ∃ s, inserir m (some l) x pos = .ok s ∧
      Representa s.mem s.lista (cs.take pos.toNat ++ (m.length, x) :: cs.drop pos.toNat) ∧
      s.lista.tam = l.tam + 1 := by
  have htam := h.2
  by_cases hz : pos = 0
  · subst hz
    exact le_inserir_inicio_Repr x h
  · obtain ⟨c1, b, c2, hcs, hlen⟩ := le_split cs (pos.toNat - 1) (by omega)
    subst hcs
    obtain ⟨s, hs, hr, ht⟩ := le_inserir_meio_Repr x pos h (by omega)
    refine ⟨s, hs, ?_, ht⟩
    have hsp : c1 ++ b :: c2 = (c1 ++ [b]) ++ c2 := by simp
    have hl : (c1 ++ [b]).length = pos.toNat := by
      rw [List.length_append, List.length_singleton]
      omega
    rw [hsp, ← hl, List.take_left, List.drop_left]
    simpa using hr

theorem le_remover_inicio_Repr {m : Mem} {l : ListaEnc} {c : Nat × Int}
    {cs : List (Nat × Int)} (h : Representa m l (c :: cs)) :
    ∃ s, remover m (some l) 0 = .ok (s, c.2) ∧ Representa s.mem s.lista cs ∧
      s.lista.tam = l.tam - 1 := by
  have hine := le_inicio_ne h
  obtain ⟨htr, htam⟩ := h
  have hnd := le_Trecho_nodup htr
  obtain ⟨hf, q, hq, hrest⟩ := htr
  have hrange : (0 : Int) ≥ 0 ∧ (0 : Int) < l.tam := by
    rw [htam, List.length_cons]
    constructor
    · omega
    · push_cast
      omega
  refine ⟨Estado.mk (m.set c.1 none) (ListaEnc.mk q (l.tam - 1)), ?_, ⟨?_, ?_⟩, rfl⟩
  · unfold remover
    simp [hrange, hf, ler, hq, apagar]
  · rw [List.map_cons, List.nodup_cons] at hnd
    exact le_Trecho_set _ _
      (fun d hd heq => hnd.1 (by rw [← heq]; exact List.mem_map.2 ⟨d, hd, rfl⟩)) hrest
  · show l.tam - 1 = ((cs.length : Nat) : Int)
    rw [htam, List.length_cons]
    push_cast
    omega

theorem le_remover_meio_Repr {m : Mem} {l : ListaEnc} {c1 c2 : List (Nat × Int)}
    {b d : Nat × Int} (pos : Int) (h : Representa m l (c1 ++ b :: d :: c2))
    (hp : pos = c1.length + 1) :
    ∃ s, remover m (some l) pos = .ok (s, d.2) ∧ Representa s.mem s.lista (c1 ++ b :: c2) ∧
      s.lista.tam = l.tam - 1 := by
  obtain ⟨htr, htam⟩ := h
  have hlt := le_Trecho_lt htr
  have hnd := le_Trecho_nodup htr
  obtain ⟨hn1, hn2, _⟩ := le_nodup_meio hnd
  have hsp : c1 ++ b :: d :: c2 = (c1 ++ [b]) ++ d :: c2 := by simp
  have hnd2 := hnd
  rw [hsp] at hnd2
  obtain ⟨hm1, hm2, _⟩ := le_nodup_meio hnd2
  obtain ⟨mid, h1, hb, q, hq, hd, q2, hq2, h2⟩ := le_Trecho_append.1 htr
  subst hb
  subst hd
  have hbd : b.1 ≠ d.1 := fun heq => hn2 d (List.mem_cons_self _ _) heq.symm
  have hine : l.inicio ≠ none := by
    cases c1 with
    | nil =>
      have : l.inicio = some b.1 := h1
      rw [this]
      exact Option.some_ne_none _
    | cons e es =>
      rw [h1.1]
      exact Option.some_ne_none _
  have hwalk : avancar_com_ant m pos.toNat none l.inicio = .ok (some b.1, some d.1) := by
    have hpn : pos.toNat = c1.length + 1 := by omega
    rw [hpn]
    exact le_avancar_com_ant_Trecho (le_Trecho_append.2 ⟨some b.1, h1, rfl, some d.1, hq, rfl⟩)
      none
  have hq3 : consultar (m.set b.1 (some ({ item := b.2, prox := q2 } : Noh))) d.1 =
      some ({ item := d.2, prox := q2 } : Noh) := by
    rw [le_consultar_set_ne _ hbd]
    exact hq2
  have hrange : pos ≥ 0 ∧ pos < l.tam := by
    rw [htam]
    simp only [List.length_append, List.length_cons]
    constructor
    · omega
    · push_cast
      omega
  have hnz : ¬ pos = 0 := by omega
  refine ⟨Estado.mk ((m.set b.1 (some ({ item := b.2, prox := q2 } : Noh))).set d.1 none)
      (ListaEnc.mk l.inicio (l.tam - 1)), ?_, ⟨?_, ?_⟩, rfl⟩
  · unfold remover
    simp only [hine, if_false, hrange, and_self, not_true_eq_false, hnz, hwalk, ler, hq2,
      modificar, hq, hq3, apagar]
  · apply le_Trecho_append.2
    refine ⟨some b.1, ?_, rfl, q2, ?_, ?_⟩
    · exact le_Trecho_set _ _ (fun c hc => hm1 c (List.mem_append_left _ hc))
        (le_Trecho_set _ _ hn1 h1)
    · rw [le_consultar_set_ne _ hbd.symm]
      exact le_consultar_set_eq _ (le_consultar_lt hq)
    · exact le_Trecho_set _ _ hm2
        (le_Trecho_set _ _ (fun c hc => hn2 c (List.mem_cons_of_mem _ hc)) h2)
  · show l.tam - 1 = (((c1 ++ b :: c2).length : Nat) : Int)
    rw [htam]
    simp only [List.length_append, List.length_cons]
    push_cast
    omega

theorem le_remover_Repr {m : Mem} {l : ListaEnc} {cs : List (Nat × Int)} (pos : Int)
    (h : Representa m l cs) (h0 : 0 ≤ pos) (hu : pos < l.tam) :
    ∃ s c, cs[pos.toNat]? = some c ∧ remover m (some l) pos = .ok (s, c.2) ∧
      Representa s.mem s.lista (cs.eraseIdx pos.toNat) ∧ s.lista.tam = l.tam - 1 := by
  have htam := h.2
  by_cases hz : pos = 0
  · subst hz
    cases cs with
    | nil =>
      rw [htam] at hu
      exact absurd hu (by simp)
    | cons c cs =>
      obtain ⟨s, hs, hr, ht⟩ := le_remover_inicio_Repr h
      exact ⟨s, c, by simp, hs, hr, ht⟩
  · obtain ⟨c1, b, c2, hcs, hlen⟩ := le_split cs (pos.toNat - 1) (by omega)
    subst hcs
    cases c2 with
    | nil =>
      rw [List.length_append, List.length_singleton] at htam
      push_cast at htam
      omega
    | cons d c2 =>
      obtain ⟨s, hs, hr, ht⟩ := le_remover_meio_Repr pos h (by omega)
      have hsp : c1 ++ b :: d :: c2 = (c1 ++ [b]) ++ d :: c2 := by simp
      have hl : (c1 ++ [b]).length = pos.toNat := by
        rw [List.length_append, List.length_singleton]
        omega
      refine ⟨s, d, ?_, hs, ?_, ht⟩
      · rw [hsp, ← hl, List.getElem?_append_right (le_refl _), Nat.sub_self,
          List.getElem?_cons_zero]
      · rw [hsp, ← hl, List.eraseIdx_append_of_length_le (le_refl _), Nat.sub_self]
        simpa using hr

theorem le_obter_Repr {m : Mem} {l : ListaEnc} {cs : List (Nat × Int)} (pos : Int)
    (h : Representa m l cs) (h0 : 0 ≤ pos) (hu : pos < l.tam) :
    ∃ c, cs[pos.toNat]? = some c ∧ obter_elemento m (some l) pos = .ok c.2 := by
  have htam := h.2
  obtain ⟨c1, d, c2, hcs, hlen⟩ := le_split cs pos.toNat (by omega)
  subst hcs
  obtain ⟨htr, _⟩ := h
  obtain ⟨mid, h1, hd, q, hq, h2⟩ := le_Trecho_append.1 htr
  subst hd
  have hine : l.inicio ≠ none := by
    cases c1 with
    | nil =>
      have : l.inicio = some d.1 := h1
      rw [this]
      exact Option.some_ne_none _
    | cons e es =>
      rw [h1.1]
      exact Option.some_ne_none _
  have hav : avancar m pos.toNat l.inicio = .ok (some d.1) := by
    rw [← hlen]
    exact le_avancar_Trecho h1
  refine ⟨d, ?_, ?_⟩
  · rw [← hlen, List.getElem?_append_right (le_refl _), Nat.sub_self,
      List.getElem?_cons_zero]
  · unfold obter_elemento
    have hrange : pos ≥ 0 ∧ pos < l.tam := ⟨h0, hu⟩
    simp only [hine, if_false, hrange, and_self, not_true_eq_false, hav, ler, hq]

theorem le_map_eraseIdx (cs : List (Nat × Int)) (k : Nat) :
    (cs.eraseIdx k).map Prod.snd = (cs.map Prod.snd).eraseIdx k := by
  induction cs generalizing k with
  | nil => rfl
  | cons a l ih =>
    cases k with
    | zero => rfl
    | succ k => simp [List.eraseIdx, ih]

theorem le_map_inserido (cs : List (Nat × Int)) (k a : Nat) (x : Int) :
    (cs.take k ++ (a, x) :: cs.drop k).map Prod.snd =
      (cs.map Prod.snd).take k ++ [x] ++ (cs.map Prod.snd).drop k := by
  simp [List.map_take, List.map_drop]

theorem le_executar_Repr {s : Estado} {cs : List (Nat × Int)} (ops : List Op)
    (h : Representa s.mem s.lista cs) (hv : validas s.lista.tam ops) :
    ∃ s1 cs1, executar s ops = .ok s1 ∧ Representa s1.mem s1.lista cs1 ∧
      cs1.map Prod.snd = lista_abstrata (cs.map Prod.snd) ops := by
  induction ops generalizing s cs with
  | nil => exact ⟨s, cs, rfl, h, rfl⟩
  | cons op ops ih =>
    cases op with
    | inserir x pos =>
      obtain ⟨h0, hu, hrest⟩ := hv
      obtain ⟨s1, hs1, hr1, ht1⟩ := le_inserir_Repr x pos h h0 hu
      rw [← ht1] at hrest
      obtain ⟨s2, cs2, hs2, hr2, hm2⟩ := ih hr1 hrest
      refine ⟨s2, cs2, ?_, hr2, ?_⟩
      · rw [executar, hs1]
        exact hs2
      · rw [hm2, le_map_inserido]
        rfl
    | remover pos =>
      obtain ⟨h0, hu, hrest⟩ := hv
      obtain ⟨s1, c, _, hs1, hr1, ht1⟩ := le_remover_Repr pos h h0 hu
      rw [← ht1] at hrest
      obtain ⟨s2, cs2, hs2, hr2, hm2⟩ := ih hr1 hrest
      refine ⟨s2, cs2, ?_, hr2, ?_⟩
      · rw [executar, hs1]
        exact hs2
      · rw [hm2, le_map_eraseIdx]
        rfl

theorem le_esvaziar_Repr {s : Estado} {cs : List (Nat × Int)} (fuel : Nat)
    (h : Representa s.mem s.lista cs) (hf : cs.length ≤ fuel) :
    ∃ s1, esvaziar fuel s = some (.ok (s1, cs.map Prod.snd)) ∧
      Representa s1.mem s1.lista [] := by
  induction cs generalizing s fuel with
  | nil =>
    have hi : s.lista.inicio = none := h.1
    exact ⟨s, by cases fuel <;> simp [esvaziar, hi], h⟩
  | cons c cs ih =>
    have hine := le_inicio_ne h
    cases fuel with
    | zero => simp at hf
    | succ fuel =>
      obtain ⟨s1, hs1, hr1, _⟩ := le_remover_inicio_Repr h
      obtain ⟨s2, hs2, hr2⟩ := ih fuel hr1 (by simpa using hf)
      exact ⟨s2, by simp [esvaziar, hine, hs1, hs2], hr2⟩

/-! ## Claim C26 -/

/-- C26: the singly linked list of `listaenc.cpp` implements a positional sequence.
Every run of calls from `criar_lista` whose positions are in range returns, and in the
state `s` it reaches the element sequence `L` read from `inicio` via `prox` is the one
the positional model gives, `tam` (the value of `obter_tamanho`) is the length of `L`,
`inserir(x, pos)` with `0 <= pos <= tam` returns and leaves the first `pos` elements of
`L`, then `x`, then the rest, and `remover(pos)` with `0 <= pos < tam` returns the
element at index `pos` of `L`, which `obter_elemento(pos)` returns too, and leaves `L`
with that index erased.  In the documented example, after `inserir(1, 0)`,
`inserir(3, 1)`, `inserir(2, 1)` the size is 3 and the loop `remover(li, 0)` until
empty ends for every fuel of at least 3 and returns 1, 2, 3. -/
theorem lista_enc_posicional (m0 : Mem) (ops : List Op) (hv : validas 0 ops) :
    (∃ s L, executar (inicial m0) ops = .ok s ∧ elementos s.mem s.lista = some L ∧
      L = lista_abstrata [] ops ∧
      s.lista.tam = L.length ∧ obter_tamanho (some s.lista) = .ok (L.length : Int) ∧
      (∀ x pos, 0 ≤ pos → pos ≤ s.lista.tam →
        ∃ s1, inserir s.mem (some s.lista) x pos = .ok s1 ∧
          elementos s1.mem s1.lista = some (L.take pos.toNat ++ [x] ++ L.drop pos.toNat) ∧
          s1.lista.tam = s.lista.tam + 1) ∧
      (∀ pos, 0 ≤ pos → pos < s.lista.tam →
        ∃ s1 x, remover s.mem (some s.lista) pos = .ok (s1, x) ∧ L[pos.toNat]? = some x ∧
          elementos s1.mem s1.lista = some (L.eraseIdx pos.toNat) ∧
          s1.lista.tam = s.lista.tam - 1 ∧
          obter_elemento s.mem (some s.lista) pos = .ok x)) ∧
    (∃ s3, executar (inicial m0) [.inserir 1 0, .inserir 3 1, .inserir 2 1] = .ok s3 ∧
      elementos s3.mem s3.lista = some [1, 2, 3] ∧
      obter_tamanho (some s3.lista) = .ok 3 ∧
      ∀ fuel, 3 ≤ fuel →
        ∃ s4, esvaziar fuel s3 = some (.ok (s4, [1, 2, 3])) ∧
          estah_vazia (some s4.lista) = .ok true) := by
  constructor
  · obtain ⟨s, cs, hs, hr, hm⟩ := le_executar_Repr ops (le_Representa_inicial m0) hv
    have htam : s.lista.tam = ((cs.map Prod.snd).length : Int) := by
      rw [List.length_map]
      exact hr.2
    refine ⟨s, cs.map Prod.snd, hs, le_elementos_Repr hr, hm, htam, ?_, ?_, ?_⟩
    · show Except.ok s.lista.tam = _
      rw [htam]
    · intro x pos h0 hu
      obtain ⟨s1, hs1, hr1, ht1⟩ := le_inserir_Repr x pos hr h0 hu
      exact ⟨s1, hs1, by rw [le_elementos_Repr hr1, le_map_inserido], ht1⟩
    · intro pos h0 hu
      obtain ⟨s1, c, hc, hs1, hr1, ht1⟩ := le_remover_Repr pos hr h0 hu
      obtain ⟨c2, hc2, ho⟩ := le_obter_Repr pos hr h0 hu
      have hcc : c2 = c := by
        rw [hc] at hc2
        injection hc2 with hc2
        exact hc2.symm
      subst hcc
      refine ⟨s1, c2.2, hs1, ?_, ?_, ht1, ho⟩
      · rw [List.getElem?_map, hc]
        rfl
      · rw [le_elementos_Repr hr1, le_map_eraseIdx]
  · have hv3 : validas (inicial m0).lista.tam [.inserir 1 0, .inserir 3 1, .inserir 2 1] := by
      show validas 0 [.inserir 1 0, .inserir 3 1, .inserir 2 1]
      simp [validas]
    obtain ⟨s3, cs3, hs3, hr3, hm3⟩ := le_executar_Repr _ (le_Representa_inicial m0) hv3
    have hm3v : cs3.map Prod.snd = [1, 2, 3] := by
      rw [hm3]
      rfl
    have hlen : cs3.length = 3 := by
      have := congrArg List.length hm3v
      rw [List.length_map] at this
      exact this
    refine ⟨s3, hs3, by rw [le_elementos_Repr hr3, hm3v], ?_, fun fuel hf => ?_⟩
    · show Except.ok s3.lista.tam = _
      rw [hr3.2, hlen]
      rfl
    · obtain ⟨s4, hs4, hr4⟩ := le_esvaziar_Repr fuel hr3 (by rw [hlen]; exact hf)
      rw [hm3v] at hs4
      refine ⟨s4, hs4, ?_⟩
      have hi : s4.lista.inicio = none := hr4.1
      show Except.ok (s4.lista.inicio == none) = _
      rw [hi]
      rfl

theorem lista_enc_posicional_witness :
    ∃ s, executar (inicial []) [.inserir 10 0, .inserir 30 1, .inserir 20 1, .remover 0]
        = .ok s ∧
      elementos s.mem s.lista = some [20, 30] ∧ s.lista.tam = 2 := by
  obtain ⟨s, L, hs, he, hL, ht, _⟩ :=
    (lista_enc_posicional [] [.inserir 10 0, .inserir 30 1, .inserir 20 1, .remover 0]
      (by simp [validas])).1
  have hLv : L = [20, 30] := by
    rw [hL]
    rfl
  subst hLv
  exact ⟨s, hs, he, ht⟩

end Listaenc

namespace Listadenc

/-! ## `obter_tamanho` on the empty list -/

/-- C31, as amended: `obter_tamanho` of `listadenc.cpp` aborts only when the handle
is `NULL`, and returns the number of elements on every list, empty or not.  With a
`NULL` handle the call stops at the failed `assert`.  On the list fresh from
`criar_listad`, which is empty, it returns 0 and does not abort.  In every state
reached by a precondition-respecting run it returns the number of elements, never
aborts, and returns 0 whenever `estah_vazia` is true.  After the three insertions of
the documented example it returns 3. -/
theorem obter_tamanho_lista_vazia (m0 : Mem) (ops : List Op) (hv : validas 0 ops) :
    obter_tamanho none = .error .abortado ∧
    (estah_vazia (some (inicial m0).lista) = .ok true ∧
      obter_tamanho (some (inicial m0).lista) = .ok 0 ∧
      obter_tamanho (some (inicial m0).lista) ≠ .error .abortado) ∧
    (∃ s L, executar (inicial m0) ops = .ok s ∧ elementos s.mem s.lista = some L ∧
      obter_tamanho (some s.lista) = .ok (L.length : Int) ∧
      obter_tamanho (some s.lista) ≠ .error .abortado ∧
      (estah_vazia (some s.lista) = .ok true → obter_tamanho (some s.lista) = .ok 0)) ∧
    (∃ s3, executar (inicial m0) [.inserir 1 0, .inserir 3 1, .inserir 2 1] = .ok s3 ∧
      obter_tamanho (some s3.lista) = .ok 3) := by
  refine ⟨rfl, ⟨rfl, rfl, fun h => by cases h⟩, ?_, ?_⟩
  · obtain ⟨s, cs, hs, hr, _⟩ := executar_Repr ops (Representa_inicial m0) hv
    have htam : s.lista.tam = ((cs.map Prod.snd).length : Int) := by
      rw [List.length_map]
      exact hr.2
    have hot : obter_tamanho (some s.lista) = .ok ((cs.map Prod.snd).length : Int) := by
      show Except.ok s.lista.tam = _
      rw [htam]
    refine ⟨s, cs.map Prod.snd, hs, elementos_Repr hr, hot, ?_, fun hv0 => ?_⟩
    · rw [hot]
      intro h
      cases h
    · have hi : s.lista.inicio = none := by
        have hv1 : Except.ok (s.lista.inicio == none) = (Except.ok true : Except Erro Bool) := hv0
        injection hv1 with hv1
        exact beq_iff_eq.1 hv1
      have hz := (Representa_vazio hr).1.2 hi
      show Except.ok s.lista.tam = _
      rw [hz]
  · have hv3 : validas (inicial m0).lista.tam [.inserir 1 0, .inserir 3 1, .inserir 2 1] := by
      show validas 0 [.inserir 1 0, .inserir 3 1, .inserir 2 1]
      simp [validas, Op.pre, Op.depois, Op.insere]
    obtain ⟨s3, cs3, hs3, _, ht3⟩ := executar_Repr _ (Representa_inicial m0) hv3
    refine ⟨s3, hs3, ?_⟩
    show Except.ok s3.lista.tam = _
    rw [ht3]
    rfl

theorem obter_tamanho_lista_vazia_witness :
    obter_tamanho (some (inicial []).lista) = .ok 0 ∧
    ∃ s L, executar (inicial []) [.inserir 7 0, .remover_fim] = .ok s ∧
      elementos s.mem s.lista = some L ∧
      obter_tamanho (some s.lista) = .ok (L.length : Int) :=
  have h := obter_tamanho_lista_vazia [] [.inserir 7 0, .remover_fim]
    (by simp [validas, Op.pre, Op.depois, Op.insere])
  ⟨h.2.1.2.1, h.2.2.1.elim fun s hs => hs.elim fun L hL => ⟨s, L, hL.1, hL.2.1, hL.2.2.1⟩⟩

end Listadenc

namespace Listadenc

/-! ## Dispatch and walk of `inserir` -/

theorem buscar_Seg {m : Mem} {cs : List (Nat × Int)} {f p lmid mid : Ptr}
    (h : Seg m f p cs lmid mid) (pos i : Int) (fuel : Nat) (vis : List Ptr)
    (hp : pos = i + cs.length) (hf : cs.length ≤ fuel) :
    buscar m pos fuel i f vis = some (.ok (mid, vis ++ cs.map (fun c => some c.1))) := by
  induction cs generalizing f p i fuel vis with
  | nil =>
    obtain ⟨hfm, _⟩ := h
    subst hfm
    have hn : ¬ i < pos := by
      rw [hp]
      simp
    cases fuel with
    | zero => rw [buscar, if_neg hn, List.map_nil, List.append_nil]
    | succ k => rw [buscar, if_neg hn, List.map_nil, List.append_nil]
  | cons c cs ih =>
    obtain ⟨hfc, q, hq, hrest⟩ := h
    subst hfc
    rw [List.length_cons] at hp hf
    have hlt : i < pos := by
      rw [hp]
      push_cast
      omega
    cases fuel with
    | zero => omega
    | succ k =>
      have hl : ler m (some c.1) = .ok { item := c.2, ant := p, prox := q } := by
        simp [ler, hq]
      rw [buscar, if_pos hlt, hl]
      dsimp only
      rw [ih hrest (i + 1) k (vis ++ [some c.1]) (by rw [hp]; push_cast; omega) (by omega)]
      simp

theorem inserir_interior (m : Mem) (l : ListaDEnc) (x pos : Int)
    (h0 : 0 ≤ pos) (hu : pos ≤ l.tam) (hz : pos ≠ 0) (ht : pos ≠ l.tam) :
    inserir m (some l) x pos =
      match avancar m pos.toNat l.inicio with
      | .error e => .error e
      | .ok aux => inserir_antes m l x aux := by
  have hrange : pos ≥ 0 ∧ pos ≤ l.tam := ⟨h0, hu⟩
  unfold inserir inserir_antes
  simp only [hrange, and_self, not_true_eq_false, if_false, hz, ht]

end Listadenc

namespace Listadenc

theorem buscar_curto {m : Mem} {cs : List (Nat × Int)} {f p lmid mid : Ptr}
    (h : Seg m f p cs lmid mid) (pos i : Int) (fuel : Nat) (vis : List Ptr)
    (hp : pos = i + cs.length) (hf : fuel < cs.length) :
    buscar m pos fuel i f vis = none := by
  induction cs generalizing f p i fuel vis with
  | nil => simp at hf
  | cons c cs ih =>
    obtain ⟨hfc, q, hq, hrest⟩ := h
    subst hfc
    rw [List.length_cons] at hp hf
    have hlt : i < pos := by
      rw [hp]
      push_cast
      omega
    cases fuel with
    | zero => rw [buscar, if_pos hlt]
    | succ k =>
      have hl : ler m (some c.1) = .ok { item := c.2, ant := p, prox := q } := by
        simp [ler, hq]
      rw [buscar, if_pos hlt, hl]
      dsimp only
      exact ih hrest (i + 1) k (vis ++ [some c.1]) (by rw [hp]; push_cast; omega) (by omega)

theorem inserir_zero (m : Mem) (l : ListaDEnc) (x : Int) (h0 : 0 ≤ l.tam) :
    inserir m (some l) x 0 = inserir_no_inicio m (some l) x := by
  have hrange : (0 : Int) ≥ 0 ∧ (0 : Int) ≤ l.tam := ⟨le_refl _, h0⟩
  unfold inserir
  simp only [hrange, and_self, not_true_eq_false, if_false, if_true]

theorem inserir_tam {m : Mem} {l : ListaDEnc} {cs : List (Nat × Int)} (x : Int)
    (h : Representa m l cs) :
    inserir m (some l) x l.tam = inserir_no_fim m (some l) x := by
  have htam := h.2
  have hrange : l.tam ≥ 0 ∧ l.tam ≤ l.tam := ⟨by omega, le_refl _⟩
  by_cases hz : l.tam = 0
  · have hi := (Representa_vazio h).1.1 hz
    have hf := (Representa_vazio h).2.1 hi
    rw [hz, inserir_zero m l x (by omega)]
    simp [inserir_no_inicio, inserir_no_fim, criar_noh, hi, hf]
  · unfold inserir
    simp only [hrange, and_self, not_true_eq_false, if_false, hz, if_true]

/-- C32: dispatch and walk length of `inserir` of `listadenc.cpp`, on a well-formed
list with node sequence `cs`.  (1) `inserir(lista, x, 0)` is the call
`inserir_no_inicio(lista, x)`: same result, same final state, and no `prox` link is
followed.  (2) `inserir(lista, x, tam)` gives the result and final state of
`inserir_no_fim(lista, x)`, again with no `prox` link followed.  (3) For
`0 < pos < tam` the search loop ends after exactly `pos` iterations (any fuel of at
least `pos` is enough, any smaller fuel is not), the links it follows are those of the
nodes at positions `0 .. pos - 1` starting at `inicio`, it stops at the node at
position `pos`, and the call leaves the new node right before that node. -/
theorem inserir_despacho (m : Mem) (l : ListaDEnc) (cs : List (Nat × Int)) (x : Int)
    (h : Representa m l cs) :
    (inserir m (some l) x 0 = inserir_no_inicio m (some l) x ∧
      ∃ s, inserir_no_inicio m (some l) x = .ok s ∧
        ∀ fuel, inserir_rastro m (some l) x 0 fuel = some (.ok (s, []))) ∧
    (inserir m (some l) x l.tam = inserir_no_fim m (some l) x ∧
      ∃ s, inserir_no_fim m (some l) x = .ok s ∧
        ∀ fuel, inserir_rastro m (some l) x l.tam fuel = some (.ok (s, []))) ∧
    (∀ pos : Int, 0 < pos → pos < l.tam →
      ∃ s d, cs[pos.toNat]? = some d ∧
        inserir m (some l) x pos = .ok s ∧
        Representa s.mem s.lista
          (cs.take pos.toNat ++ (m.length, x) :: d :: cs.drop (pos.toNat + 1)) ∧
        ((cs.take pos.toNat).map (fun c => some c.1)).length = pos.toNat ∧
        ((cs.take pos.toNat).map (fun c => some c.1)).head? = some l.inicio ∧
        (∀ fuel, pos.toNat ≤ fuel →
          buscar m pos fuel 0 l.inicio [] =
            some (.ok (some d.1, (cs.take pos.toNat).map (fun c => some c.1))) ∧
          inserir_rastro m (some l) x pos fuel =
            some (.ok (s, (cs.take pos.toNat).map (fun c => some c.1)))) ∧
        (∀ fuel, fuel < pos.toNat → buscar m pos fuel 0 l.inicio [] = none)) := by
  have htam := h.2
  have hpos : 0 ≤ l.tam := by omega
  refine ⟨?_, ?_, ?_⟩
  · refine ⟨inserir_zero m l x hpos, ?_⟩
    obtain ⟨s, hs, _, _⟩ := inserir_no_inicio_Repr x h
    refine ⟨s, hs, fun fuel => ?_⟩
    have hrange : (0 : Int) ≥ 0 ∧ (0 : Int) ≤ l.tam := ⟨le_refl _, hpos⟩
    unfold inserir_rastro
    simp only [hrange, and_self, not_true_eq_false, if_false, if_true, hs]
  · refine ⟨inserir_tam x h, ?_⟩
    obtain ⟨s, hs, _, _⟩ := inserir_no_fim_Repr x h
    refine ⟨s, hs, fun fuel => ?_⟩
    have hrange : l.tam ≥ 0 ∧ l.tam ≤ l.tam := ⟨hpos, le_refl _⟩
    by_cases hz : l.tam = 0
    · have hs2 : inserir_no_inicio m (some l) x = .ok s := by
        rw [← inserir_zero m l x hpos, ← hz, inserir_tam x h]
        exact hs
      unfold inserir_rastro
      simp [hz, hs2]
    · unfold inserir_rastro
      simp only [hrange, and_self, not_true_eq_false, if_false, hz, if_true, hs]
  · intro pos h0 hu
    obtain ⟨c1, b, d, c2, hcs, hlen⟩ := split_meio cs pos.toNat (by omega) (by omega)
    subst hcs
    have hsp : c1 ++ b :: d :: c2 = (c1 ++ [b]) ++ d :: c2 := by simp
    have hl : (c1 ++ [b]).length = pos.toNat := by
      rw [List.length_append, List.length_singleton]
      exact hlen
    have htake : (c1 ++ b :: d :: c2).take pos.toNat = c1 ++ [b] := by
      rw [hsp, ← hl, List.take_left]
    have hdrop : (c1 ++ b :: d :: c2).drop pos.toNat = d :: c2 := by
      rw [hsp, ← hl, List.drop_left]
    have hdrop1 : (c1 ++ b :: d :: c2).drop (pos.toNat + 1) = c2 := by
      rw [← List.drop_drop, hdrop]
      rfl
    obtain ⟨s, hs, hr, _⟩ := inserir_Repr x pos h (le_of_lt h0) (le_of_lt hu)
    have hseg := h.1
    rw [hsp, Seg_append] at hseg
    obtain ⟨mid, lmid, hpre, hsuf⟩ := hseg
    have hmid : mid = some d.1 := hsuf.1
    have hav : avancar m pos.toNat l.inicio = .ok mid := by
      rw [← hl]
      exact avancar_Seg hpre
    have hantes : inserir_antes m l x mid = .ok s := by
      have := inserir_interior m l x pos (le_of_lt h0) (le_of_lt hu) (by omega) (by omega)
      rw [hav, hs] at this
      exact this.symm
    refine ⟨s, d, ?_, hs, ?_, ?_, ?_, ?_, ?_⟩
    · rw [hsp, ← hl, List.getElem?_append_right (le_refl _), Nat.sub_self,
        List.getElem?_cons_zero]
    · rw [htake, hdrop1]
      rw [htake, hdrop] at hr
      exact hr
    · rw [List.length_map, htake]
      exact hl
    · rw [htake]
      cases c1 with
      | nil =>
        have : l.inicio = some b.1 := hpre.1
        rw [this]
        rfl
      | cons e es =>
        have : l.inicio = some e.1 := hpre.1
        rw [this]
        rfl
    · intro fuel hf
      have hb := buscar_Seg hpre pos 0 fuel [] (by rw [hl]; omega) (by rw [hl]; exact hf)
      rw [List.nil_append, hmid] at hb
      rw [htake]
      refine ⟨hb, ?_⟩
      have hrange : pos ≥ 0 ∧ pos ≤ l.tam := ⟨le_of_lt h0, le_of_lt hu⟩
      have hz : ¬ pos = 0 := by omega
      have ht : ¬ pos = l.tam := by omega
      rw [hmid] at hantes
      unfold inserir_rastro
      simp only [hrange, and_self, not_true_eq_false, if_false, hz, ht, hb, hantes]
    · intro fuel hf
      exact buscar_curto hpre pos 0 fuel [] (by rw [hl]; omega) (by rw [hl]; exact hf)

theorem inserir_despacho_witness :
    ∃ s, inserir [some { item := 10, ant := none, prox := some 1 },
        some { item := 20, ant := some 0, prox := none }]
        (some { inicio := some 0, fim := some 1, tam := 2 }) 15 1 = .ok s ∧
      inserir_rastro [some { item := 10, ant := none, prox := some 1 },
        some { item := 20, ant := some 0, prox := none }]
        (some { inicio := some 0, fim := some 1, tam := 2 }) 15 1 1 =
          some (.ok (s, [some 0])) := by
  obtain ⟨s, d, _, hs, _, _, _, hw, _⟩ :=
    (inserir_despacho _ _ _ 15 exemplo_Representa).2.2 1 (by decide) (by decide)
  exact ⟨s, hs, (hw 1 (by decide)).2⟩

end Listadenc

namespace Listadenc

/-! ## The two documented outputs that the code does not give -/

theorem imprimir_fins_curto {s : Estado} {cs : List (Nat × Int)} {c : Nat × Int} (fuel : Nat)
    (h : Representa s.mem s.lista (cs ++ [c])) (hf : fuel < cs.length + 1) :
    imprimir_fins fuel s = none := by
  induction cs generalizing s fuel with
  | nil =>
    have hine := Repr_inicio_ne h (by simp)
    have hz : fuel = 0 := by
      simp only [List.length_nil] at hf
      omega
    subst hz
    simp [imprimir_fins, hine]
  | cons d ds ih =>
    have hine := Repr_inicio_ne h (by simp)
    cases fuel with
    | zero => simp [imprimir_fins, hine]
    | succ fuel =>
      have h2 : Representa s.mem s.lista ((d :: ds) ++ [c]) := h
      have hfim := obter_fim_Repr h2
      have h1 : Representa s.mem s.lista (d :: (ds ++ [c])) := h
      obtain ⟨s1, hs1, hr1, _⟩ := remover_inicio_Repr h1
      have hs2 := ih fuel hr1 (by simpa using hf)
      simp [imprimir_fins, hine, hfim, hs1, hs2]

/-- C27 as stated fails: in the empty store the three insertions of the documented
example return, the loop `while (!estah_vazia(li)) { print obter_fim(li);
remover_inicio(li); }` run on the list `[1, 2, 3]` they leave ends within three
iterations and prints 3, 3, 3, and with no number of iterations does it print
3, 2, 1. -/
theorem exemplo_obter_fim_contra :
    ∃ s, executar (inicial []) [.inserir 1 0, .inserir 3 1, .inserir 2 1] = .ok s ∧
      elementos s.mem s.lista = some [1, 2, 3] ∧
      (∃ s1, imprimir_fins 3 s = some (.ok (s1, [3, 3, 3]))) ∧
      ∀ fuel s2, imprimir_fins fuel s ≠ some (.ok (s2, [3, 2, 1])) := by
  have h0 : Representa [] criar_listad [] := Representa_inicial []
  obtain ⟨s1, hs1, hr1, ht1⟩ := inserir_Repr 1 0 h0 (le_refl _) (le_refl _)
  have hr1b : Representa s1.mem s1.lista [(0, 1)] := by simpa using hr1
  have ht1b : s1.lista.tam = 1 := by rw [ht1]; rfl
  obtain ⟨s2, hs2, hr2, ht2⟩ := inserir_Repr 3 1 hr1b (by decide) (by rw [ht1b])
  have hr2b : Representa s2.mem s2.lista [(0, 1), (s1.mem.length, 3)] := by
    simpa using hr2
  have ht2b : s2.lista.tam = 2 := by rw [ht2, ht1b]; rfl
  obtain ⟨s3, hs3, hr3, _⟩ := inserir_Repr 2 1 hr2b (by decide) (by rw [ht2b]; decide)
  have hr3b : Representa s3.mem s3.lista
      ([(0, 1), (s2.mem.length, 2)] ++ [(s1.mem.length, 3)]) := by
    simpa using hr3
  have hex : executar (inicial []) [.inserir 1 0, .inserir 3 1, .inserir 2 1] = .ok s3 := by
    have e1 : inserir (inicial []).mem (some (inicial []).lista) 1 0 = .ok s1 := hs1
    simp [executar, Op.aplicar, e1, hs2, hs3]
  refine ⟨s3, hex, ?_, ?_, ?_⟩
  · rw [elementos_Repr hr3b]
    rfl
  · obtain ⟨s4, hs4⟩ := imprimir_fins_Repr 3 hr3b (le_refl _)
    exact ⟨s4, hs4⟩
  · intro fuel s5 hcon
    by_cases hf : 3 ≤ fuel
    · obtain ⟨s4, hs4⟩ := imprimir_fins_Repr fuel hr3b (by simpa using hf)
      rw [hs4] at hcon
      simp at hcon
    · rw [imprimir_fins_curto fuel hr3b (by simp; omega)] at hcon
      cases hcon

/-- C31 as stated fails: on the list fresh from `criar_listad`, and on the list that
one insertion followed by one removal leaves, `estah_vazia` is true and `obter_tamanho`
returns 0; it does not abort. -/
theorem obter_tamanho_lista_vazia_contra :
    (estah_vazia (some (inicial []).lista) = .ok true ∧
      obter_tamanho (some (inicial []).lista) = .ok 0 ∧
      obter_tamanho (some (inicial []).lista) ≠ .error .abortado) ∧
    ∃ s, executar (inicial []) [.inserir 7 0, .remover_fim] = .ok s ∧
      estah_vazia (some s.lista) = .ok true ∧
      obter_tamanho (some s.lista) = .ok 0 ∧
      obter_tamanho (some s.lista) ≠ .error .abortado := by
  refine ⟨⟨rfl, rfl, fun h => by cases h⟩, ?_⟩
  have hv : validas (inicial []).lista.tam [.inserir 7 0, .remover_fim] := by
    show validas 0 [.inserir 7 0, .remover_fim]
    simp [validas, Op.pre, Op.depois, Op.insere]
  obtain ⟨s, cs, hs, hr, ht⟩ := executar_Repr _ (Representa_inicial []) hv
  have hz : s.lista.tam = 0 := by
    rw [ht]
    rfl
  have hi := (Representa_vazio hr).1.1 hz
  have hot : obter_tamanho (some s.lista) = .ok 0 := by
    show Except.ok s.lista.tam = _
    rw [hz]
  refine ⟨s, hs, ?_, hot, ?_⟩
  · show Except.ok (s.lista.inicio == none) = _
    rw [hi]
    rfl
  · rw [hot]
    intro h
    cases h

end Listadenc
